import Mathlib

/-!
# Insert plan construction and parameter binding (`src/planner/insert_plan.cpp`)

A shallow embedding of `peloton::planner::InsertPlan`: the constructor that
builds the schema-column to insert-value mapping (`stov_`), the reverse
mapping (`vtos_`) and the flat value buffer (`values_`), together with
`ProcessColumnSpec`, `ProcessValueExpr`, `SetDefaultValue`,
`FindSchemaColIndex` and `SetParameterValues`.

Conventions of the embedding.

* `std::vector` is `List`; `push_back` is `++ [v]`.
* The value and type-id types of the type subsystem (`type::Value`,
  `type::TypeId`) are parameters `V` and `T`; the operations the planner calls
  on them are gathered in `TypeOps`.
* Every function threads the plan object explicitly.  A run that does not
  complete (exception, failed `PL_ASSERT`, access past the end of a vector)
  is an `Except.error` carrying the kind of failure and the object state at
  the moment of the failure.
* Indexes are natural numbers.  The only arithmetic that can leave the range
  of `uint32_t` is `val_idx -= adjust`, which is computed modulo `2^32`
  (`adjust` is declared `uint32_t`; the field `val_idx` is declared in the
  header and is taken to be a 32-bit unsigned index as well).
* `PL_ASSERT` is taken as active: a failed assertion stops the run.
-/

namespace Peloton

/-- One column of the catalog schema: `catalog::Column` with the default value
that `Schema::GetDefaultValue` returns for it (`none` is the null pointer). -/
structure Column (V T : Type) where
  name : String
  type : T
  allow_null : Bool
  default_value : Option V
  deriving DecidableEq, Repr

/-- The part of `storage::DataTable` the planner reads: its name and the
ordered columns of its schema. -/
structure DataTable (V T : Type) where
  name : String
  schema : List (Column V T)
  deriving DecidableEq, Repr

/-- Operations of the type subsystem used by the planner.
`castAs v t` is `v.CastAs(t)`, `none` when the conversion throws;
`nullValueByType` is `ValueFactory::GetNullValueByType`; `invalid` is the
default-constructed `type::Value` that fills `stov_` after `resize`. -/
structure TypeOps (V T : Type) where
  castAs : V → T → Option V
  nullValueByType : T → V
  invalid : V

/-- An insert expression as the planner sees it through `GetExpressionType`:
a `VALUE_CONSTANT` with its value, a `VALUE_PARAMETER`, or anything else. -/
inductive AbstractExpression (V : Type) where
  | constant (value : V)
  | parameter
  | other
  deriving DecidableEq, Repr

/-- One row-tuple of the statement; `none` is a null expression pointer. -/
abbrev ValueTuple (V : Type) := List (Option (AbstractExpression V))

/-- An element of `stov_`: the mapping from one schema column to its source. -/
structure SchemaColsToInsertCols (V T : Type) where
  in_insert_cols : Bool
  set_value : Bool
  val_idx : Nat
  type : T
  value : V
  deriving DecidableEq, Repr

/-- The data members of `InsertPlan` that construction and parameter binding
read and write. -/
structure InsertPlan (V T : Type) where
  target_table : DataTable V T
  bulk_insert_count : Nat
  stov : List (SchemaColsToInsertCols V T)
  vtos : List Nat
  values : List V
  deriving DecidableEq, Repr

/-- The ways a run can stop without completing. -/
inductive ErrorKind where
  /-- The exception thrown by `ProcessColumnSpec` for a name not in the table. -/
  | unknownColumn (col_name : String)
  /-- A failed `PL_ASSERT`. -/
  | contractViolation
  /-- The exception thrown by `CastAs` when a value does not convert. -/
  | conversion
  /-- The exception thrown by `std::vector::at` for an index past the end. -/
  | outOfRange
  /-- An access with `operator[]` past the end of a vector. -/
  | invalidAccess
  deriving DecidableEq, Repr

/-- A run that stopped: why, and the state of the object when it stopped. -/
structure Failure (V T : Type) where
  kind : ErrorKind
  state : InsertPlan V T
  deriving DecidableEq, Repr

deriving instance DecidableEq for Except

/-- Result of a member function that updates the plan. -/
abbrev Outcome (V T : Type) (α : Type) := Except (Failure V T) α

/-- The subtraction `a -= b` on `uint32_t`. -/
def sub32 (a b : Nat) : Nat := (a + 4294967296 - b) % 4294967296

/-- The column count of the schema, `schema->GetColumnCount()`. -/
def InsertPlan.schema_col_count {V T : Type} (p : InsertPlan V T) : Nat :=
  p.target_table.schema.length

/-- Appending to the buffer, `values_.push_back(v)`. -/
def InsertPlan.push {V T : Type} (p : InsertPlan V T) (v : V) : InsertPlan V T :=
  { p with values := p.values ++ [v] }

/-- Modelled from the spec: `ClearParameterValues` is defined in the header,
which is not part of the source file; section 4.1 says that the buffer
accumulated so far is discarded and is empty afterwards, and the comment at
the call site says the same ("we must clear those values"). -/
def ClearParameterValues {V T : Type} (p : InsertPlan V T) : InsertPlan V T :=
  { p with values := [] }

/-- The function `InsertPlan::FindSchemaColIndex`: the position of the first schema column
called `col_name`, or `none` when the function returns `false`. -/
def FindSchemaColIndex {V T : Type} (col_name : String) :
    List (Column V T) → Option Nat
  | [] => none
  | tcol :: rest =>
    if tcol.name = col_name then some 0
    else (FindSchemaColIndex col_name rest).map (· + 1)

/-- The function `InsertPlan::SetDefaultValue`. -/
def SetDefaultValue {V T : Type} (ops : TypeOps V T) (p : InsertPlan V T)
    (idx : Nat) : Outcome V T (InsertPlan V T) :=
  match p.target_table.schema[idx]?, p.stov[idx]? with
  | some col, some e =>
    match col.default_value with
    | none => .ok (p.push (ops.nullValueByType e.type))
    | some v => .ok (p.push v)
  | _, _ => .error ⟨.invalidAccess, p⟩

/-- The function `InsertPlan::ProcessValueExpr`; the boolean is the function's result. -/
def ProcessValueExpr {V T : Type} (ops : TypeOps V T) (p : InsertPlan V T)
    (expr : Option (AbstractExpression V)) (schema_idx : Nat) :
    Outcome V T (InsertPlan V T × Bool) :=
  match p.stov[schema_idx]? with
  | none => .error ⟨.invalidAccess, p⟩
  | some e =>
    match expr with
    | none =>
      match SetDefaultValue ops p schema_idx with
      | .error f => .error f
      | .ok p1 => .ok (p1, false)
    | some (.constant c) =>
      match ops.castAs c e.type with
      | none => .error ⟨.conversion, p⟩
      | some value =>
        let e1 : SchemaColsToInsertCols V T := { e with set_value := true, value := value }
        .ok (({ p with stov := p.stov.set schema_idx e1 }).push value, false)
    | some .parameter => .ok (p, true)
    | some .other => .error ⟨.contractViolation, p⟩

/-- The loop of `InsertPlan::ProcessColumnSpec`, from user column
`usr_col_id` on. -/
def ProcessColumnSpecFrom {V T : Type} :
    List String → Nat → InsertPlan V T → Outcome V T (InsertPlan V T)
  | [], _, p => .ok p
  | col_name :: rest, usr_col_id, p =>
    match FindSchemaColIndex col_name p.target_table.schema with
    | none => .error ⟨.unknownColumn col_name, p⟩
    | some idx =>
      match p.stov[idx]? with
      | none => .error ⟨.invalidAccess, p⟩
      | some e =>
        let e1 : SchemaColsToInsertCols V T :=
          { e with in_insert_cols := true, val_idx := usr_col_id }
        ProcessColumnSpecFrom rest (usr_col_id + 1)
          { p with stov := p.stov.set idx e1, vtos := p.vtos.set usr_col_id idx }

/-- The function `InsertPlan::ProcessColumnSpec`. -/
def ProcessColumnSpec {V T : Type} (columns : List String) (p : InsertPlan V T) :
    Outcome V T (InsertPlan V T) :=
  ProcessColumnSpecFrom columns 0 p

/-- The inner loop of the branch without a column list: the expressions of one
row-tuple from position `column_id` on. -/
def positionalTuple {V T : Type} (ops : TypeOps V T) :
    ValueTuple V → Nat → InsertPlan V T × Bool → Outcome V T (InsertPlan V T × Bool)
  | [], _, s => .ok s
  | exp :: rest, column_id, (p, is_prepared_stmt) =>
    match ProcessValueExpr ops p exp column_id with
    | .error f => .error f
    | .ok (p1, ret_bool) =>
      match p1.stov[column_id]? with
      | none => .error ⟨.invalidAccess, p1⟩
      | some e =>
        let e1 : SchemaColsToInsertCols V T :=
          { e with in_insert_cols := true, val_idx := column_id }
        positionalTuple ops rest (column_id + 1)
          ({ p1 with stov := p1.stov.set column_id e1 }, is_prepared_stmt || ret_bool)

/-- The outer loop of the branch without a column list. -/
def positionalTuples {V T : Type} (ops : TypeOps V T) :
    List (ValueTuple V) → InsertPlan V T × Bool → Outcome V T (InsertPlan V T × Bool)
  | [], s => .ok s
  | values :: rest, (p, is_prepared_stmt) =>
    if values.length ≤ p.schema_col_count then
      match positionalTuple ops values 0 (p, is_prepared_stmt) with
      | .error f => .error f
      | .ok s1 => positionalTuples ops rest s1
    else .error ⟨.contractViolation, p⟩

/-- Body of the loop over the schema columns in the branch with a column
list, for one row-tuple `values`. -/
def namedColumn {V T : Type} (ops : TypeOps V T) (values : ValueTuple V)
    (s : InsertPlan V T × Bool) (idx : Nat) : Outcome V T (InsertPlan V T × Bool) :=
  match s.1.stov[idx]? with
  | none => .error ⟨.invalidAccess, s.1⟩
  | some e =>
    if e.in_insert_cols then
      match values[e.val_idx]? with
      | none => .error ⟨.invalidAccess, s.1⟩
      | some exp =>
        match ProcessValueExpr ops s.1 exp idx with
        | .error f => .error f
        | .ok (p1, ret_bool) => .ok (p1, s.2 || ret_bool)
    else
      match SetDefaultValue ops s.1 idx with
      | .error f => .error f
      | .ok p1 => .ok (p1, s.2)

/-- Body of the index adjustment loop; the state is the plan and `adjust`. -/
def adjustColumn {V T : Type} (s : InsertPlan V T × Nat) (idx : Nat) :
    Outcome V T (InsertPlan V T × Nat) :=
  match s.1.vtos[idx]? with
  | none => .error ⟨.invalidAccess, s.1⟩
  | some stov_idx =>
    match s.1.stov[stov_idx]? with
    | none => .error ⟨.invalidAccess, s.1⟩
    | some e =>
      if e.set_value then .ok (s.1, s.2 + 1)
      else
        let e1 : SchemaColsToInsertCols V T := { e with val_idx := sub32 e.val_idx s.2 }
        .ok ({ s.1 with stov := s.1.stov.set stov_idx e1 }, s.2)

/-- The index adjustment pass over the `columns_size` user columns. -/
def adjustIndexes {V T : Type} (columns_size : Nat) (p : InsertPlan V T) :
    Outcome V T (InsertPlan V T) :=
  match (List.range columns_size).foldlM adjustColumn (p, 0) with
  | .error f => .error f
  | .ok s => .ok s.1

/-- The loop over the row-tuples in the branch with a column list. -/
def namedTuples {V T : Type} (ops : TypeOps V T) (columns_size : Nat) :
    List (ValueTuple V) → InsertPlan V T × Bool → Outcome V T (InsertPlan V T × Bool)
  | [], s => .ok s
  | values :: rest, (p, is_prepared_stmt) =>
    if values.length ≤ p.schema_col_count then
      match (List.range p.schema_col_count).foldlM (namedColumn ops values)
          (p, is_prepared_stmt) with
      | .error f => .error f
      | .ok (p1, prepared1) =>
        if prepared1 then
          match adjustIndexes columns_size p1 with
          | .error f => .error f
          | .ok p2 => namedTuples ops columns_size rest (p2, prepared1)
        else namedTuples ops columns_size rest (p1, prepared1)
    else .error ⟨.contractViolation, p⟩

/-- The object after the member initialisers, the two `resize` calls and the
initialisation loop over `stov_`. -/
def initialPlan {V T : Type} (ops : TypeOps V T) (table : DataTable V T)
    (columns : List String) (insert_values : List (ValueTuple V)) : InsertPlan V T :=
  { target_table := table
    bulk_insert_count := insert_values.length
    stov := table.schema.map fun col =>
      { in_insert_cols := false, set_value := false, val_idx := 0,
        type := col.type, value := ops.invalid }
    vtos := List.replicate columns.length 0
    values := [] }

/-- The two branches of the constructor up to, and without, the final
`ClearParameterValues`: the plan and `is_prepared_stmt`. -/
def buildMapping {V T : Type} (ops : TypeOps V T) (table : DataTable V T)
    (columns : List String) (insert_values : List (ValueTuple V)) :
    Outcome V T (InsertPlan V T × Bool) :=
  let p0 := initialPlan ops table columns insert_values
  if columns.isEmpty then
    positionalTuples ops insert_values (p0, false)
  else if columns.length ≤ p0.schema_col_count then
    match ProcessColumnSpec columns p0 with
    | .error f => .error f
    | .ok p1 => namedTuples ops columns.length insert_values (p1, false)
  else .error ⟨.contractViolation, p0⟩

/-- The constructor `InsertPlan::InsertPlan(table, columns, insert_values)`.
`table` is the (non-null) target table. -/
def constructInsertPlan {V T : Type} (ops : TypeOps V T) (table : DataTable V T)
    (columns : List String) (insert_values : List (ValueTuple V)) :
    Outcome V T (InsertPlan V T) :=
  match buildMapping ops table columns insert_values with
  | .error f => .error f
  | .ok (p, is_prepared_stmt) =>
    if is_prepared_stmt then .ok (ClearParameterValues p) else .ok p

/-- Body of the loop of `SetParameterValues` for schema column `idx`. -/
def setParameterColumn {V T : Type} (ops : TypeOps V T) (values : List V)
    (p : InsertPlan V T) (idx : Nat) : Outcome V T (InsertPlan V T) :=
  match p.stov[idx]? with
  | none => .error ⟨.invalidAccess, p⟩
  | some e =>
    if e.set_value then .ok (p.push e.value)
    else if e.in_insert_cols then
      match values[e.val_idx]? with
      | none => .error ⟨.outOfRange, p⟩
      | some v =>
        match ops.castAs v e.type with
        | none => .error ⟨.conversion, p⟩
        | some value => .ok (p.push value)
    else SetDefaultValue ops p idx

/-- The function `InsertPlan::SetParameterValues`. -/
def SetParameterValues {V T : Type} (ops : TypeOps V T) (p : InsertPlan V T)
    (values : List V) : Outcome V T (InsertPlan V T) :=
  if values.length ≤ p.schema_col_count then
    (List.range p.schema_col_count).foldlM (setParameterColumn ops values) p
  else .error ⟨.contractViolation, p⟩

/-! ## Plan identity and parameter export -/

/-- The plan node types `GetPlanNodeType` can return, as far as the insert plan
tells them apart: its own, `PlanNodeType::INSERT`, and every other one. -/
inductive PlanNodeType where
  | INSERT
  | OTHER (tag : Nat)
  deriving DecidableEq, Repr

/-- Modelled from the spec: the collaborators that `Hash` and `operator==` call
and the source file does not define. `tableEq` is the equality of
`storage::DataTable` (the code tests its negation, `!=`), `tableHash` is
`DataTable::Hash`, `hashType` and `hashCount` are `HashUtil::Hash` at a plan
node type and at a `uint32_t`, `combineHashes` is `HashUtil::CombineHashes`,
`baseEq` and `baseHash` are `AbstractPlan::operator==` and `AbstractPlan::Hash`,
which see the base-class part of the two plans, their children. The
specification (section 4.6) says that the equality of the base plan covers the
children; `baseEq_children` records of it that it holds only between plans with
equally many children. -/
structure PlanTree (V T C : Type) where
  tableEq : DataTable V T → DataTable V T → Bool
  tableHash : DataTable V T → Nat
  hashType : PlanNodeType → Nat
  hashCount : Nat → Nat
  combineHashes : Nat → Nat → Nat
  baseEq : List C → List C → Bool
  baseHash : List C → Nat
  baseEq_children : ∀ cs ds : List C, baseEq cs ds = true → cs.length = ds.length

/-- An `InsertPlan` object as a node of a plan tree: the data members of the
class and the child plans held by its base class `AbstractPlan`. -/
structure InsertPlanNode (V T C : Type) where
  plan : InsertPlan V T
  children : List C

/-- A plan as `operator==` receives it, a reference to an `AbstractPlan`: an
insert plan or a plan of another class. -/
inductive AbstractPlan (V T C : Type) where
  | insert (node : InsertPlanNode V T C)
  | other (tag : Nat) (children : List C)

/-- The node type of a plan, `GetPlanNodeType()`. -/
def AbstractPlan.GetPlanNodeType {V T C : Type} : AbstractPlan V T C → PlanNodeType
  | .insert _ => .INSERT
  | .other tag _ => .OTHER tag

/-- The function `InsertPlan::Hash`. -/
def InsertPlanNode.Hash {V T C : Type} (I : PlanTree V T C)
    (a : InsertPlanNode V T C) : Nat :=
  let hash := I.hashType .INSERT
  let hash := I.combineHashes hash (I.tableHash a.plan.target_table)
  let hash :=
    if a.children.length = 0 then
      I.combineHashes hash (I.hashCount a.plan.bulk_insert_count)
    else hash
  I.combineHashes hash (I.baseHash a.children)

/-- The function `InsertPlan::operator==`. After the test of the node types
`rhs` is an insert plan, which the `static_cast` relies on. -/
def InsertPlanNode.equals {V T C : Type} (I : PlanTree V T C)
    (a : InsertPlanNode V T C) (rhs : AbstractPlan V T C) : Bool :=
  if PlanNodeType.INSERT ≠ rhs.GetPlanNodeType then false
  else
    match rhs with
    | .other _ _ => false
    | .insert other =>
      if !(I.tableEq a.plan.target_table other.plan.target_table) then false
      else if a.children.length = 0 then
        if other.children.length ≠ 0 then false
        else if a.plan.bulk_insert_count ≠ other.plan.bulk_insert_count then false
        else I.baseEq a.children other.children
      else I.baseEq a.children other.children

/-- A compiled-parameter descriptor registered in the `QueryParametersMap`: the
arguments of `Parameter::CreateConstParameter`. -/
structure ParameterDesc (T : Type) where
  type_id : T
  is_nullable : Bool
  deriving DecidableEq, Repr

/-- Body of the loop of `VisitParameters` for buffer position `i`: the
descriptors registered so far and the output value list are the state.
`getTypeId` is `Value::GetTypeId`. For a schema without columns `i % 0` is
undefined in the source; here it is `i`, and the column lookup past the end of
the schema stops the run. -/
def visitValue {V T : Type} (getTypeId : V → T) (p : InsertPlan V T)
    (s : List (ParameterDesc T) × List V) (i : Nat) :
    Outcome V T (List (ParameterDesc T) × List V) :=
  match p.values[i]? with
  | none => .error ⟨.invalidAccess, p⟩
  | some value =>
    let column_id := i % p.schema_col_count
    match p.target_table.schema[column_id]? with
    | none => .error ⟨.invalidAccess, p⟩
    | some col =>
      .ok (s.1 ++ [{ type_id := getTypeId value, is_nullable := col.allow_null }],
        s.2 ++ [value])

/-- The function `InsertPlan::VisitParameters`, returning the descriptor map
and the output value list. `childVisit` is the `VisitParameters` of a child
plan. -/
def VisitParameters {V T C : Type} (getTypeId : V → T)
    (childVisit : C → List (ParameterDesc T) × List V → List V →
      List (ParameterDesc T) × List V)
    (a : InsertPlanNode V T C) (map : List (ParameterDesc T)) (values : List V)
    (values_from_user : List V) : Outcome V T (List (ParameterDesc T) × List V) :=
  if a.children.length = 0 then
    (List.range a.plan.values.length).foldlM (visitValue getTypeId a.plan) (map, values)
  else if a.children.length = 1 then
    match a.children[0]? with
    | none => .error ⟨.invalidAccess, a.plan⟩
    | some plan => .ok (childVisit plan (map, values) values_from_user)
  else .error ⟨.contractViolation, a.plan⟩

/-! ## Definitions used to state the properties -/

/-- The default of a schema column as `SetDefaultValue` computes it: the
declared default, or the null value of the remembered column type. -/
def defaultValue {V T : Type} (ops : TypeOps V T) (col : Column V T) (type : T) : V :=
  match col.default_value with
  | none => ops.nullValueByType type
  | some v => v

/-- Whether an expression is a parameter placeholder. -/
def isParameter {V : Type} : Option (AbstractExpression V) → Bool
  | some .parameter => true
  | _ => false

/-- Whether an expression is a literal constant. -/
def isConstant {V : Type} : Option (AbstractExpression V) → Bool
  | some (.constant _) => true
  | _ => false

/-- What `ProcessValueExpr` saves in the buffer for one expression aimed at a
column with default `col` and remembered type `type`: the default for a null
expression, the cast constant for a constant, nothing for a parameter. -/
def savedValues {V T : Type} (ops : TypeOps V T) (expr : Option (AbstractExpression V))
    (col : Column V T) (type : T) : List V :=
  match expr with
  | none => [defaultValue ops col type]
  | some (.constant c) => (ops.castAs c type).toList
  | some _ => []

/-- The entry of `stov_` after `ProcessValueExpr` has seen `expr` for it. -/
def classifiedEntry {V T : Type} (ops : TypeOps V T) (expr : Option (AbstractExpression V))
    (e : SchemaColsToInsertCols V T) : SchemaColsToInsertCols V T :=
  match expr with
  | some (.constant c) =>
    match ops.castAs c e.type with
    | some v => { e with set_value := true, value := v }
    | none => e
  | _ => e

/-- The expression that the branch with a column list reads for an entry of
`stov_` in the row-tuple `values`; a column that is not listed, or whose index
is past the end of the row, has none. -/
def namedExpr {V : Type} {T : Type} (values : ValueTuple V) (e : SchemaColsToInsertCols V T) :
    Option (Option (AbstractExpression V)) :=
  if e.in_insert_cols then values[e.val_idx]? else none

/-- The values the branch with a column list saves for one schema column. -/
def namedSaved {V T : Type} (ops : TypeOps V T) (values : ValueTuple V)
    (e : SchemaColsToInsertCols V T) (col : Column V T) : List V :=
  if e.in_insert_cols then
    match values[e.val_idx]? with
    | some expr => savedValues ops expr col e.type
    | none => []
  else [defaultValue ops col e.type]

/-- The entry of one schema column after the branch with a column list has
processed the row-tuple `values`. -/
def namedEntry {V T : Type} (ops : TypeOps V T) (values : ValueTuple V)
    (e : SchemaColsToInsertCols V T) : SchemaColsToInsertCols V T :=
  match namedExpr values e with
  | some expr => classifiedEntry ops expr e
  | none => e

/-- Values saved for schema column `i` of plan `p` by one row-tuple. -/
def namedSavedAt {V T : Type} (ops : TypeOps V T) (values : ValueTuple V)
    (p : InsertPlan V T) (i : Nat) : List V :=
  match p.stov[i]?, p.target_table.schema[i]? with
  | some e, some col => namedSaved ops values e col
  | _, _ => []

/-- Whether schema column `i` of plan `p` reads a parameter in the row. -/
def namedParamAt {V T : Type} (values : ValueTuple V) (p : InsertPlan V T) (i : Nat) : Bool :=
  match p.stov[i]? with
  | some e =>
    match namedExpr values e with
    | some expr => isParameter expr
    | none => false
  | none => false

/-- The entry of schema column `i` after the branch without a column list has
processed the expression `expr` found at row position `i`. -/
def positionalEntry {V T : Type} (ops : TypeOps V T) (expr : Option (AbstractExpression V))
    (i : Nat) (e : SchemaColsToInsertCols V T) : SchemaColsToInsertCols V T :=
  { classifiedEntry ops expr e with in_insert_cols := true, val_idx := i }

/-- The values the branch without a column list saves for one row-tuple whose
positions face the schema columns `cols`: position by position, the cast
constant, the column default for a null expression, nothing for a parameter. -/
def positionalSaved {V T : Type} (ops : TypeOps V T) (row : ValueTuple V)
    (cols : List (Column V T)) : List V :=
  (List.zipWith (fun expr col => savedValues ops expr col col.type) row cols).flatten

/-- Every entry of `stov_` remembers the type of its schema column (and there
is one entry per schema column), as set up by the constructor. -/
def TypesOK {V T : Type} (p : InsertPlan V T) : Prop :=
  p.stov.map (fun e => e.type) = p.target_table.schema.map (fun col => col.type)

/-- Whether user column `u` of plan `p` maps to a schema column that is marked
as a resolved constant. -/
def constantAt {V T : Type} (p : InsertPlan V T) (u : Nat) : Bool :=
  match p.vtos[u]? with
  | some i =>
    match p.stov[i]? with
    | some e => e.set_value
    | none => false
  | none => false

/-- The number of resolved-constant user columns before user column `u`. -/
def constantsBefore {V T : Type} (p : InsertPlan V T) (u : Nat) : Nat :=
  (List.range u).countP (constantAt p)

/-- The entry of a user column after the index adjustment pass, `adjust` being
the number of constants counted before it. -/
def adjustedEntry {V T : Type} (e : SchemaColsToInsertCols V T) (adjust : Nat) :
    SchemaColsToInsertCols V T :=
  if e.set_value then e else { e with val_idx := sub32 e.val_idx adjust }

/-- How one entry of `stov_` may change while row-tuples are processed: its
type stays, a resolved constant stays resolved, and a cached value is either
the one cached before or the cast of a literal of the statement (`lits`). -/
structure EntryStep {V T : Type} (ops : TypeOps V T) (lits : V → Prop)
    (e e1 : SchemaColsToInsertCols V T) : Prop where
  type_eq : e1.type = e.type
  mono : e.set_value = true → e1.set_value = true
  cached : e1.set_value = true →
    (e.set_value = true ∧ e1.value = e.value) ∨
    ∃ c, lits c ∧ ops.castAs c e.type = some e1.value

/-- How the plan may change while row-tuples are processed: the table and the
reverse index stay, and every entry of `stov_` changes as `EntryStep` allows. -/
structure PlanStep {V T : Type} (ops : TypeOps V T) (lits : V → Prop)
    (p q : InsertPlan V T) : Prop where
  table : q.target_table = p.target_table
  vtos : q.vtos = p.vtos
  len : q.stov.length = p.stov.length
  entries : ∀ (i : Nat) (e e1 : SchemaColsToInsertCols V T),
    p.stov[i]? = some e → q.stov[i]? = some e1 → EntryStep ops lits e e1

/-- The literal constants of a list of row-tuples. -/
def literalOf {V : Type} (rows : List (ValueTuple V)) (c : V) : Prop :=
  ∃ row ∈ rows, some (AbstractExpression.constant c) ∈ row

/-- Every user position below `m` is the value index of some entry of `stov_`
that is in the insert columns: the state of the mapping before any index
adjustment. -/
def Covers {V T : Type} (m : Nat) (p : InsertPlan V T) : Prop :=
  ∀ u, u < m → ∃ (idx : Nat) (e : SchemaColsToInsertCols V T),
    p.stov[idx]? = some e ∧ e.in_insert_cols = true ∧ e.val_idx = u

/-- No schema column is marked as a resolved constant without being in the
insert columns. -/
def ConstantsListed {V T : Type} (stov : List (SchemaColsToInsertCols V T)) : Prop :=
  ∀ e ∈ stov, e.set_value = true → e.in_insert_cols = true

/-- Exactly one of three statements holds. -/
def ExactlyOne (a b c : Prop) : Prop :=
  (a ∧ ¬ b ∧ ¬ c) ∨ (¬ a ∧ b ∧ ¬ c) ∨ (¬ a ∧ ¬ b ∧ c)

/-- The three cases of the column invariant for one entry of `stov_`: not in
the insert columns; a resolved constant; in the insert columns and not a
resolved constant. -/
def ColumnInvariant {V T : Type} (e : SchemaColsToInsertCols V T) : Prop :=
  ExactlyOne (e.in_insert_cols = false) (e.set_value = true)
    (e.in_insert_cols = true ∧ e.set_value = false)

/-- The plan `p` with another buffer. -/
def InsertPlan.withValues {V T : Type} (p : InsertPlan V T) (buffer : List V) :
    InsertPlan V T :=
  { p with values := buffer }

/-- The node `a` with another buffer. -/
def InsertPlanNode.withValues {V T C : Type} (a : InsertPlanNode V T C)
    (buffer : List V) : InsertPlanNode V T C :=
  { a with plan := a.plan.withValues buffer }

/-- The node `a` with another bulk insert count. -/
def InsertPlanNode.withCount {V T C : Type} (a : InsertPlanNode V T C)
    (count : Nat) : InsertPlanNode V T C :=
  { plan := { a.plan with bulk_insert_count := count }, children := a.children }

/-! ## A concrete type subsystem for worked examples -/

/-- Example values: integers and a null. -/
inductive ExValue where
  | int (n : Int)
  | null
  | invalid
  deriving DecidableEq, Repr

/-- Example operations: one type, every cast succeeds and changes nothing. -/
def exOps : TypeOps ExValue Unit :=
  { castAs := fun v _ => some v
    nullValueByType := fun _ => ExValue.null
    invalid := ExValue.invalid }

/-- Example column of the single type, nullable, with an optional default. -/
def exCol (name : String) (d : Option ExValue) : Column ExValue Unit :=
  { name := name, type := (), allow_null := true, default_value := d }

/-- Example table `t (a, b, c, d)`; `c` has the default 7. -/
def exTable : DataTable ExValue Unit :=
  { name := "t"
    schema := [exCol "a" none, exCol "b" none, exCol "c" (some (.int 7)), exCol "d" none] }

/-- The template plan of `INSERT INTO t (d, b, a) VALUES (?, 5, ?)`. -/
def exTemplate : InsertPlan ExValue Unit :=
  { target_table := exTable
    bulk_insert_count := 1
    stov :=
      [ { in_insert_cols := true, set_value := false, val_idx := 1, type := (),
          value := .invalid },
        { in_insert_cols := true, set_value := true, val_idx := 1, type := (),
          value := .int 5 },
        { in_insert_cols := false, set_value := false, val_idx := 0, type := (),
          value := .invalid },
        { in_insert_cols := true, set_value := false, val_idx := 0, type := (),
          value := .invalid } ]
    vtos := [3, 1, 0]
    values := [] }

/-- The row-tuple `(5, ?, ?)`. -/
def exRowConstParamParam : ValueTuple ExValue :=
  [some (.constant (.int 5)), some .parameter, some .parameter]

/-- The row-tuple `(5, ?)`. -/
def exRowConstParam : ValueTuple ExValue :=
  [some (.constant (.int 5)), some .parameter]

/-- The row-tuple `(5)`. -/
def exRowConst : ValueTuple ExValue := [some (.constant (.int 5))]

/-- The row-tuple `(?, 5, ?)`. -/
def exRowParamConstParam : ValueTuple ExValue :=
  [some .parameter, some (.constant (.int 5)), some .parameter]

/-- Two row-tuples of constants, `(1, 2)` and `(3, 4)`. -/
def exConstantRows : List (ValueTuple ExValue) :=
  [[some (.constant (.int 1)), some (.constant (.int 2))],
   [some (.constant (.int 3)), some (.constant (.int 4))]]

/-- The row-tuples `(5, ?)` and `(DEFAULT)`, the second a null expression. -/
def exMixedRows : List (ValueTuple ExValue) :=
  [[some (.constant (.int 5)), some .parameter], [none]]

/-- The row-tuple `(5)` followed by a row-tuple of five null expressions, one
more than the table `t` has columns. -/
def exLongRows : List (ValueTuple ExValue) :=
  [exRowConst, [none, none, none, none, none]]

/-- Example table `u (a, b)`; `a` is declared not null, `b` is nullable. -/
def exTableNotNull : DataTable ExValue Unit :=
  { name := "u"
    schema :=
      [ { name := "a", type := (), allow_null := false, default_value := none },
        exCol "b" none ] }

/-- The row-tuples `(5)` and `(6)`. -/
def exShortRows : List (ValueTuple ExValue) :=
  [[some (.constant (.int 5))], [some (.constant (.int 6))]]

/-- Example plan-tree collaborators over child plans named by numbers: tables
and child lists are compared as data. -/
def exTree : PlanTree ExValue Unit Nat :=
  { tableEq := fun t u => decide (t = u)
    tableHash := fun t => t.schema.length
    hashType := fun _ => 17
    hashCount := fun n => n
    combineHashes := fun h k => 31 * h + k
    baseEq := fun cs ds => decide (cs = ds)
    baseHash := fun cs => cs.sum
    baseEq_children := fun _ _ h => congrArg List.length (of_decide_eq_true h) }

/-- The template plan of `exTemplate` as a leaf of a plan tree. -/
def exLeaf : InsertPlanNode ExValue Unit Nat :=
  { plan := exTemplate, children := [] }

/-- An insert plan on the same table fed by the child plan 1; its bulk insert
count is 3. -/
def exWithChild : InsertPlanNode ExValue Unit Nat :=
  { plan := { exTemplate with bulk_insert_count := 3 }, children := [1] }

/-- The plan of `INSERT INTO t (a, b, c) VALUES (5, ?, ?), (5, ?, ?)` after
the first row-tuple and its index adjustment pass. -/
def exFirstRowAdjusted : InsertPlan ExValue Unit :=
  { target_table := exTable
    bulk_insert_count := 2
    stov :=
      [ { in_insert_cols := true, set_value := true, val_idx := 0, type := (),
          value := .int 5 },
        { in_insert_cols := true, set_value := false, val_idx := 0, type := (),
          value := .invalid },
        { in_insert_cols := true, set_value := false, val_idx := 1, type := (),
          value := .invalid },
        { in_insert_cols := false, set_value := false, val_idx := 0, type := (),
          value := .invalid } ]
    vtos := [0, 1, 2]
    values := [.int 5, .null] }

/-- The same plan after the loop over the schema columns for the second
row-tuple, before the second index adjustment pass. -/
def exSecondRowRead : InsertPlan ExValue Unit :=
  { target_table := exTable
    bulk_insert_count := 2
    stov :=
      [ { in_insert_cols := true, set_value := true, val_idx := 0, type := (),
          value := .int 5 },
        { in_insert_cols := true, set_value := true, val_idx := 0, type := (),
          value := .int 5 },
        { in_insert_cols := true, set_value := false, val_idx := 1, type := (),
          value := .invalid },
        { in_insert_cols := false, set_value := false, val_idx := 0, type := (),
          value := .invalid } ]
    vtos := [0, 1, 2]
    values := [.int 5, .null, .int 5, .int 5, .null] }

/-! ## Loops over an index range -/

section Basics

variable {V T : Type}

theorem foldlM_range_succ {σ ε : Type} (f : σ → Nat → Except ε σ) (s : σ) (k : Nat) :
    (List.range (k + 1)).foldlM f s =
      (match (List.range k).foldlM f s with
        | .error e => .error e
        | .ok s1 => f s1 k) := by
  rw [List.range_succ, List.foldlM_append]
  cases h : (List.range k).foldlM f s with
  | error e => rfl
  | ok s1 =>
    show (List.foldlM f s1 [k]) = f s1 k
    rw [List.foldlM_cons]
    cases f s1 k <;> rfl

/-- A loop over `0 .. n-1` whose body succeeds wherever the invariant holds
completes, and the invariant holds at `n`. -/
theorem foldlM_range_invariant {σ ε : Type} (f : σ → Nat → Except ε σ)
    (I : Nat → σ → Prop) (n : Nat) (s : σ) (h0 : I 0 s)
    (hstep : ∀ k s1, k < n → I k s1 → ∃ s2, f s1 k = .ok s2 ∧ I (k + 1) s2) :
    ∃ s2, (List.range n).foldlM f s = .ok s2 ∧ I n s2 := by
  induction n with
  | zero => exact ⟨s, rfl, h0⟩
  | succ k ih =>
    obtain ⟨s1, h1, hI⟩ := ih (fun j t hj => hstep j t (Nat.lt_succ_of_lt hj))
    obtain ⟨s2, h2, hI2⟩ := hstep k s1 (Nat.lt_succ_self k) hI
    exact ⟨s2, by rw [foldlM_range_succ, h1]; exact h2, hI2⟩

theorem SetDefaultValue_eq (ops : TypeOps V T) (p : InsertPlan V T) (idx : Nat)
    (e : SchemaColsToInsertCols V T) (col : Column V T)
    (he : p.stov[idx]? = some e) (hc : p.target_table.schema[idx]? = some col) :
    SetDefaultValue ops p idx = .ok (p.push (defaultValue ops col e.type)) := by
  unfold SetDefaultValue defaultValue
  rw [he, hc]
  cases h : col.default_value <;> simp [h]

/-- Concatenating one singleton per index gives a list indexed like the range. -/
theorem flatMap_range_singletons {β : Type} (f : Nat → List β) (n : Nat)
    (hf : ∀ i, i < n → ∃ v, f i = [v]) :
    ((List.range n).flatMap f).length = n ∧
    ∀ i, i < n → ((List.range n).flatMap f)[i]? = (f i)[0]? := by
  induction n with
  | zero => exact ⟨rfl, fun i hi => absurd hi (Nat.not_lt_zero i)⟩
  | succ k ih =>
    obtain ⟨hl, hg⟩ := ih (fun i hi => hf i (Nat.lt_succ_of_lt hi))
    obtain ⟨v, hv⟩ := hf k (Nat.lt_succ_self k)
    rw [List.range_succ, List.flatMap_append, List.flatMap_singleton]
    refine ⟨by simp [hl, hv], ?_⟩
    intro i hi
    by_cases hik : i < k
    · rw [List.getElem?_append_left (by omega)]
      exact hg i hik
    · have : i = k := by omega
      subst this
      rw [List.getElem?_append_right (by omega), hl]
      simp

/-- Indexing a row-major concatenation of rows that all have `n` entries. -/
theorem getElem?_flatMap_fixed {α β : Type} (rows : List α) (f : α → List β) (n : Nat)
    (hf : ∀ x ∈ rows, (f x).length = n) (r idx : Nat) (hidx : idx < n) (x : α)
    (hr : rows[r]? = some x) :
    (rows.flatMap f)[r * n + idx]? = (f x)[idx]? := by
  induction rows generalizing r with
  | nil => simp at hr
  | cons y rest ih =>
    rw [List.flatMap_cons]
    cases r with
    | zero =>
      simp at hr
      subst hr
      rw [List.getElem?_append_left (by
        rw [hf y (List.mem_cons_self _ _)]; omega)]
      simp
    | succ r1 =>
      simp at hr
      have hy := hf y (List.mem_cons_self _ _)
      rw [List.getElem?_append_right (by rw [hy]; nlinarith), hy]
      have : (r1 + 1) * n + idx - n = r1 * n + idx := by
        rw [Nat.succ_mul]; omega
      rw [this]
      exact ih (fun z hz => hf z (List.mem_cons_of_mem _ hz)) r1 hr

theorem length_flatMap_fixed {α β : Type} (rows : List α) (f : α → List β) (n : Nat)
    (hf : ∀ x ∈ rows, (f x).length = n) :
    (rows.flatMap f).length = rows.length * n := by
  induction rows with
  | nil => simp
  | cons y rest ih =>
    rw [List.flatMap_cons, List.length_append, hf y (List.mem_cons_self _ _),
      ih (fun z hz => hf z (List.mem_cons_of_mem _ hz)), List.length_cons, Nat.succ_mul]
    omega

/-! ## `FindSchemaColIndex` and `ProcessColumnSpec` -/

theorem FindSchemaColIndex_some {name : String} {schema : List (Column V T)} {i : Nat}
    (h : FindSchemaColIndex name schema = some i) :
    ∃ col, schema[i]? = some col ∧ col.name = name := by
  induction schema generalizing i with
  | nil => simp [FindSchemaColIndex] at h
  | cons tcol rest ih =>
    unfold FindSchemaColIndex at h
    by_cases hn : tcol.name = name
    · rw [if_pos hn] at h
      cases h
      exact ⟨tcol, by simp, hn⟩
    · rw [if_neg hn] at h
      cases hr : FindSchemaColIndex name rest with
      | none => simp [hr] at h
      | some j =>
        rw [hr] at h
        cases h
        obtain ⟨col, hc, hcn⟩ := ih hr
        exact ⟨col, by simpa using hc, hcn⟩

theorem FindSchemaColIndex_lt {name : String} {schema : List (Column V T)} {i : Nat}
    (h : FindSchemaColIndex name schema = some i) : i < schema.length := by
  obtain ⟨col, hc, _⟩ := FindSchemaColIndex_some h
  exact (List.getElem?_eq_some.mp hc).1

theorem FindSchemaColIndex_eq_none {name : String} {schema : List (Column V T)} :
    FindSchemaColIndex name schema = none ↔ ∀ col ∈ schema, col.name ≠ name := by
  induction schema with
  | nil => simp [FindSchemaColIndex]
  | cons tcol rest ih =>
    unfold FindSchemaColIndex
    by_cases hn : tcol.name = name
    · simp [hn]
    · simp [hn, ih]

theorem FindSchemaColIndex_of_mem {name : String} {schema : List (Column V T)}
    (h : ∃ col ∈ schema, col.name = name) : ∃ i, FindSchemaColIndex name schema = some i := by
  cases hf : FindSchemaColIndex name schema with
  | some i => exact ⟨i, rfl⟩
  | none =>
    obtain ⟨col, hm, hn⟩ := h
    exact absurd hn (FindSchemaColIndex_eq_none.mp hf col hm)

/-- Two names found at the same schema position are the same name. -/
theorem FindSchemaColIndex_inj {a b : String} {schema : List (Column V T)} {i : Nat}
    (ha : FindSchemaColIndex a schema = some i) (hb : FindSchemaColIndex b schema = some i) :
    a = b := by
  obtain ⟨ca, hca, hna⟩ := FindSchemaColIndex_some ha
  obtain ⟨cb, hcb, hnb⟩ := FindSchemaColIndex_some hb
  rw [hca] at hcb
  cases hcb
  rw [← hna, ← hnb]

/-- The effect of `ProcessColumnSpec` on distinct existing names: it completes, touches only
`stov_` and `vtos_`, marks the schema column of user column `j` with
`val_idx = u0 + j`, records the reverse mapping, and leaves the other schema
columns alone. -/
theorem ProcessColumnSpecFrom_spec (columns : List String) (u0 : Nat) (p : InsertPlan V T)
    (hlen : p.stov.length = p.target_table.schema.length)
    (hnd : columns.Nodup)
    (hex : ∀ c ∈ columns, ∃ col ∈ p.target_table.schema, col.name = c)
    (hv : u0 + columns.length ≤ p.vtos.length) :
    ∃ p1, ProcessColumnSpecFrom columns u0 p = .ok p1 ∧
      p1.target_table = p.target_table ∧ p1.values = p.values ∧
      p1.bulk_insert_count = p.bulk_insert_count ∧
      p1.stov.length = p.stov.length ∧ p1.vtos.length = p.vtos.length ∧
      (∀ (j : Nat) (c : String), columns[j]? = some c →
        ∃ i e, FindSchemaColIndex c p.target_table.schema = some i ∧
          p.stov[i]? = some e ∧
          p1.stov[i]? = some { e with in_insert_cols := true, val_idx := u0 + j } ∧
          p1.vtos[u0 + j]? = some i) ∧
      (∀ i : Nat, (∀ c ∈ columns, FindSchemaColIndex c p.target_table.schema ≠ some i) →
        p1.stov[i]? = p.stov[i]?) ∧
      (∀ u : Nat, u < u0 → p1.vtos[u]? = p.vtos[u]?) := by
  induction columns generalizing u0 p with
  | nil =>
    refine ⟨p, rfl, rfl, rfl, rfl, rfl, rfl, ?_, ?_, ?_⟩
    · intro j c h; simp at h
    · intro i _; rfl
    · intro u _; rfl
  | cons c rest ih =>
    obtain ⟨i0, hi0⟩ := FindSchemaColIndex_of_mem (hex c (List.mem_cons_self _ _))
    have hi0lt : i0 < p.stov.length := by rw [hlen]; exact FindSchemaColIndex_lt hi0
    have he0 : p.stov[i0]? = some p.stov[i0] := List.getElem?_eq_getElem hi0lt
    generalize p.stov[i0] = e0 at he0
    have hnd2 : rest.Nodup := (List.nodup_cons.mp hnd).2
    have hcnot : c ∉ rest := (List.nodup_cons.mp hnd).1
    simp only [List.length_cons] at hv
    obtain ⟨p1, h1, ht, hval, hb, hsl, hvl, hA, hB, hC⟩ := ih (u0 + 1)
      { p with stov := p.stov.set i0 { e0 with in_insert_cols := true, val_idx := u0 }
               vtos := p.vtos.set u0 i0 }
      (by simpa using hlen) hnd2
      (fun c1 hc1 => hex c1 (List.mem_cons_of_mem _ hc1))
      (by simp; omega)
    have hne : ∀ c1 ∈ rest, FindSchemaColIndex c1 p.target_table.schema ≠ some i0 := by
      intro c1 hc1 hf
      exact hcnot (FindSchemaColIndex_inj hi0 hf ▸ hc1)
    refine ⟨p1, ?_, ht, hval, hb, by simpa using hsl, by simpa using hvl, ?_, ?_, ?_⟩
    · unfold ProcessColumnSpecFrom
      simp only [hi0, he0]
      exact h1
    · intro j c1 hj
      cases j with
      | zero =>
        simp at hj
        subst hj
        refine ⟨i0, e0, hi0, he0, ?_, ?_⟩
        · rw [hB i0 hne]
          simp [List.getElem?_set, hi0lt]
        · rw [Nat.add_zero, hC u0 (Nat.lt_succ_self u0)]
          simp [List.getElem?_set]
          omega
      | succ j1 =>
        simp at hj
        obtain ⟨i, e, hfi, hei, hsi, hvi⟩ := hA j1 c1 hj
        have hmem : c1 ∈ rest := List.getElem?_mem hj
        have hii0 : i0 ≠ i := by
          intro h
          subst h
          exact hne c1 hmem hfi
        simp [List.getElem?_set, hii0] at hei
        refine ⟨i, e, hfi, hei, ?_, ?_⟩
        · rw [hsi]; congr 2; omega
        · rw [← hvi]; congr 1; omega
    · intro i hi
      rw [hB i (fun c1 hc1 => hi c1 (List.mem_cons_of_mem _ hc1))]
      have hii0 : i0 ≠ i := by
        intro h
        subst h
        exact hi c (List.mem_cons_self _ _) hi0
      simp [List.getElem?_set, hii0]
    · intro u hu
      rw [hC u (by omega)]
      have : u0 ≠ u := by omega
      simp [List.getElem?_set, this]

/-! ## `ProcessValueExpr` and one row-tuple of the branch with a column list -/

theorem ProcessValueExpr_eq (ops : TypeOps V T) (p : InsertPlan V T)
    (expr : Option (AbstractExpression V)) (idx : Nat)
    (e : SchemaColsToInsertCols V T) (col : Column V T)
    (he : p.stov[idx]? = some e) (hc : p.target_table.schema[idx]? = some col)
    (hkind : expr ≠ some .other)
    (hcast : ∀ c, expr = some (.constant c) → (ops.castAs c e.type).isSome = true) :
    ProcessValueExpr ops p expr idx =
      .ok ({ p with stov := p.stov.set idx (classifiedEntry ops expr e)
                    values := p.values ++ savedValues ops expr col e.type },
           isParameter expr) := by
  have hset : p.stov.set idx e = p.stov := by
    apply List.ext_getElem?
    intro n
    rw [List.getElem?_set]
    by_cases hn : idx = n
    · subst hn
      simp [he, (List.getElem?_eq_some.mp he).1]
    · simp [hn]
  unfold ProcessValueExpr
  rw [he]
  cases expr with
  | none =>
    simp only [SetDefaultValue_eq ops p idx e col he hc, classifiedEntry, savedValues, hset]
    simp [InsertPlan.push, isParameter]
  | some x =>
    cases x with
    | constant c =>
      have h := hcast c rfl
      cases hv : ops.castAs c e.type with
      | none => simp [hv] at h
      | some v => simp [hv, classifiedEntry, savedValues, InsertPlan.push, isParameter]
    | parameter => simp [classifiedEntry, savedValues, hset, isParameter]
    | other => exact absurd rfl hkind

/-- One pass of the branch with a column list over the schema columns, for a
row-tuple in which every listed column finds a null, constant or parameter
expression and every constant converts: it completes, replaces every entry of
`stov_` by its classified entry, appends the saved values in schema order and
raises the flag when some listed column reads a parameter. -/
theorem namedColumn_loop (ops : TypeOps V T) (values : ValueTuple V) (p : InsertPlan V T)
    (b : Bool)
    (hlen : p.stov.length = p.schema_col_count)
    (hok : ∀ e ∈ p.stov, e.in_insert_cols = true →
      ∃ expr, values[e.val_idx]? = some expr ∧ expr ≠ some .other ∧
        ∀ c, expr = some (.constant c) → (ops.castAs c e.type).isSome = true) :
    (List.range p.schema_col_count).foldlM (namedColumn ops values) (p, b) =
      .ok ({ p with stov := p.stov.map (namedEntry ops values)
                    values := p.values ++
                      (List.range p.schema_col_count).flatMap (namedSavedAt ops values p) },
           b || (List.range p.schema_col_count).any (namedParamAt values p)) := by
  have key := foldlM_range_invariant (namedColumn ops values)
    (fun k s => ∃ S : List (SchemaColsToInsertCols V T),
      s = ({ p with stov := S
                    values := p.values ++ (List.range k).flatMap (namedSavedAt ops values p) },
           b || (List.range k).any (namedParamAt values p)) ∧
      S.length = p.stov.length ∧
      ∀ i : Nat, S[i]? = if i < k then (p.stov[i]?).map (namedEntry ops values) else p.stov[i]?)
    p.schema_col_count (p, b) ⟨p.stov, by simp, rfl, by simp⟩ ?_
  · obtain ⟨s2, h2, S, hs, hSlen, hS⟩ := key
    rw [h2, hs]
    have : S = p.stov.map (namedEntry ops values) := by
      apply List.ext_getElem?
      intro i
      rw [hS i, List.getElem?_map]
      by_cases hi : i < p.schema_col_count
      · simp [hi]
      · rw [if_neg hi, List.getElem?_eq_none (by omega)]; rfl
    rw [this]
  · rintro k s1 hk ⟨S, rfl, hSlen, hS⟩
    have hk1 : k < p.stov.length := by rw [hlen]; exact hk
    have hk2 : k < p.target_table.schema.length := hk
    have he : p.stov[k]? = some p.stov[k] := List.getElem?_eq_getElem hk1
    have hc : p.target_table.schema[k]? = some p.target_table.schema[k] :=
      List.getElem?_eq_getElem hk2
    have hmem : p.stov[k] ∈ p.stov := List.getElem_mem hk1
    generalize p.stov[k] = e at he hmem
    generalize p.target_table.schema[k] = col at hc
    have hSk : S[k]? = some e := by rw [hS k, if_neg (Nat.lt_irrefl k), he]
    have hsaved : namedSavedAt ops values p k = namedSaved ops values e col := by
      simp [namedSavedAt, he, hc]
    have hparam : namedParamAt values p k =
        (match namedExpr values e with
          | some expr => isParameter expr
          | none => false) := by
      simp [namedParamAt, he]
    -- the new table after step `k`
    have hnew : ∀ e1 : SchemaColsToInsertCols V T, e1 = namedEntry ops values e →
        (S.set k e1).length = p.stov.length ∧
        ∀ i : Nat, (S.set k e1)[i]? =
          if i < k + 1 then (p.stov[i]?).map (namedEntry ops values) else p.stov[i]? := by
      intro e1 he1
      refine ⟨by simpa using hSlen, ?_⟩
      intro i
      rw [List.getElem?_set]
      by_cases hik : k = i
      · subst hik
        simp [hSlen, hk1, he, he1]
      · rw [if_neg hik, hS i]
        by_cases hlt : i < k
        · simp [hlt, Nat.lt_succ_of_lt hlt]
        · have : ¬ i < k + 1 := by omega
          simp [hlt, this]
    by_cases hin : e.in_insert_cols = true
    · obtain ⟨expr, hexpr, hkind, hcast⟩ := hok e hmem hin
      have hne : namedExpr values e = some expr := by simp [namedExpr, hin, hexpr]
      refine ⟨({ p with stov := S.set k (classifiedEntry ops expr e)
                        values := p.values ++
                          (List.range (k + 1)).flatMap (namedSavedAt ops values p) },
              b || (List.range (k + 1)).any (namedParamAt values p)), ?_, S.set k _, rfl,
              hnew _ (by simp [namedEntry, hne])⟩
      unfold namedColumn
      simp only [hSk, hin, if_true, hexpr]
      rw [ProcessValueExpr_eq ops
        { p with stov := S
                 values := p.values ++ (List.range k).flatMap (namedSavedAt ops values p) }
        expr k e col hSk hc hkind hcast]
      have hp2 : namedParamAt values p k = isParameter expr := by rw [hparam, hne]
      simp only [List.range_succ, List.flatMap_append, List.flatMap_singleton, hsaved,
        List.any_append, namedSaved, hin, if_true, hexpr, List.append_assoc]
      simp [Bool.or_assoc, hp2]
    · refine ⟨({ p with stov := S
                        values := p.values ++
                          (List.range (k + 1)).flatMap (namedSavedAt ops values p) },
              b || (List.range (k + 1)).any (namedParamAt values p)), ?_, S, rfl, ?_⟩
      · unfold namedColumn
        simp only [hSk, hin]
        rw [SetDefaultValue_eq ops
          { p with stov := S
                   values := p.values ++ (List.range k).flatMap (namedSavedAt ops values p) }
          k e col hSk hc]
        have hp2 : namedParamAt values p k = false := by
          rw [hparam]; simp [namedExpr, hin]
        simp only [List.range_succ, List.flatMap_append, List.flatMap_singleton, hsaved,
          List.any_append, namedSaved, hin]
        simp [InsertPlan.push, hp2]
      · have h := hnew e (by simp [namedEntry, namedExpr, hin])
        have hset : S.set k e = S := by
          apply List.ext_getElem?
          intro n
          rw [List.getElem?_set]
          by_cases hn : k = n
          · subst hn
            simp [hSk, hSlen, hk1]
          · simp [hn]
        rw [hset] at h
        exact h

/-! ## One row-tuple of the branch without a column list -/

theorem typesOK_length_eq {p : InsertPlan V T} (h : TypesOK p) :
    p.stov.length = p.schema_col_count := by
  have := congrArg List.length h
  simpa [InsertPlan.schema_col_count] using this

theorem typesOK_of_entries {p : InsertPlan V T}
    (hl : p.stov.length = p.target_table.schema.length)
    (h : ∀ (i : Nat) (e : SchemaColsToInsertCols V T), p.stov[i]? = some e →
      ∃ col, p.target_table.schema[i]? = some col ∧ e.type = col.type) :
    TypesOK p := by
  unfold TypesOK
  apply List.ext_getElem?
  intro i
  simp only [List.getElem?_map]
  cases he : p.stov[i]? with
  | none =>
    have := List.getElem?_eq_none_iff.mp he
    rw [List.getElem?_eq_none (by omega)]
    rfl
  | some e =>
    obtain ⟨col, hc, hty⟩ := h i e he
    rw [hc]
    simp [hty]

theorem typesOK_get {p : InsertPlan V T} (h : TypesOK p) {i : Nat}
    (hi : i < p.schema_col_count) :
    ∃ e col, p.stov[i]? = some e ∧ p.target_table.schema[i]? = some col ∧
      e.type = col.type := by
  have hl := (typesOK_length_eq h)
  have h1 : i < p.stov.length := by omega
  have h2 : i < p.target_table.schema.length := hi
  refine ⟨p.stov[i], p.target_table.schema[i], List.getElem?_eq_getElem h1,
    List.getElem?_eq_getElem h2, ?_⟩
  have := congrArg (fun l => l[i]?) h
  simpa [List.getElem?_map, List.getElem?_eq_getElem h1, List.getElem?_eq_getElem h2]
    using this

theorem classifiedEntry_type (ops : TypeOps V T) (expr : Option (AbstractExpression V))
    (e : SchemaColsToInsertCols V T) : (classifiedEntry ops expr e).type = e.type := by
  unfold classifiedEntry
  split
  · split <;> rfl
  · rfl

theorem map_type_set {S : List (SchemaColsToInsertCols V T)} {i : Nat}
    {e e1 : SchemaColsToInsertCols V T} (he : S[i]? = some e) (ht : e1.type = e.type) :
    (S.set i e1).map (fun e => e.type) = S.map (fun e => e.type) := by
  apply List.ext_getElem?
  intro n
  rw [List.map_set, List.getElem?_set]
  by_cases hn : i = n
  · subst hn
    obtain ⟨h1, h2⟩ := List.getElem?_eq_some.mp he
    simp [h1, ht, ← h2]
  · simp [hn]

theorem positionalTuple_spec (ops : TypeOps V T) (row : ValueTuple V) (k : Nat)
    (p : InsertPlan V T) (b : Bool)
    (htypes : TypesOK p)
    (hfit : k + row.length ≤ p.schema_col_count)
    (hkind : ∀ x ∈ row, x ≠ some .other)
    (hcast : ∀ (j : Nat) (c : V) (col : Column V T), row[j]? = some (some (.constant c)) →
      p.target_table.schema[k + j]? = some col → (ops.castAs c col.type).isSome = true) :
    ∃ S : List (SchemaColsToInsertCols V T),
      positionalTuple ops row k (p, b) =
        .ok ({ p with stov := S
                      values := p.values ++
                        positionalSaved ops row (p.target_table.schema.drop k) },
             b || row.any isParameter) ∧
      S.map (fun e => e.type) = p.stov.map (fun e => e.type) ∧
      ∀ i : Nat, S[i]? =
        if k ≤ i then
          match row[i - k]? with
          | some x => (p.stov[i]?).map (positionalEntry ops x i)
          | none => p.stov[i]?
        else p.stov[i]? := by
  induction row generalizing k p b with
  | nil =>
    refine ⟨p.stov, ?_, rfl, ?_⟩
    · simp [positionalTuple, positionalSaved]
    · intro i; simp
  | cons x rest ih =>
    simp only [List.length_cons] at hfit
    obtain ⟨e, col, he, hc, hty⟩ := typesOK_get htypes (show k < p.schema_col_count by omega)
    have hklt : k < p.stov.length := (List.getElem?_eq_some.mp he).1
    have hx : x ≠ some .other := hkind x (List.mem_cons_self _ _)
    have hcx : ∀ c, x = some (.constant c) → (ops.castAs c e.type).isSome = true := by
      intro c hxc
      rw [hty]
      exact hcast 0 c col (by simp [hxc]) (by simpa using hc)
    have hdrop : p.target_table.schema.drop k = col :: p.target_table.schema.drop (k + 1) := by
      have hk2 : k < p.target_table.schema.length := (List.getElem?_eq_some.mp hc).1
      rw [List.drop_eq_getElem_cons hk2]
      congr 1
      exact (List.getElem?_eq_some.mp hc).2
    obtain ⟨S, hS, hSty, hSget⟩ := ih (k + 1)
      { p with stov := (p.stov.set k (classifiedEntry ops x e)).set k
                  (positionalEntry ops x k e)
               values := p.values ++ savedValues ops x col e.type }
      (b || isParameter x)
      (by
        show ((p.stov.set k (classifiedEntry ops x e)).set k
          (positionalEntry ops x k e)).map (fun e => e.type) = _
        rw [List.set_set, map_type_set he (by simp [positionalEntry, classifiedEntry_type])]
        exact htypes)
      (by show k + 1 + rest.length ≤ p.schema_col_count; omega)
      (fun y hy => hkind y (List.mem_cons_of_mem _ hy))
      (by
        intro j c col1 hj hcol1
        refine hcast (j + 1) c col1 (by simpa using hj) ?_
        have : k + (j + 1) = k + 1 + j := by omega
        rw [this]; exact hcol1)
    refine ⟨S, ?_, ?_, ?_⟩
    · unfold positionalTuple
      rw [ProcessValueExpr_eq ops p x k e col he hc hx hcx]
      simp only []
      have hget : (p.stov.set k (classifiedEntry ops x e))[k]? =
          some (classifiedEntry ops x e) := by
        simp [List.getElem?_set, hklt]
      rw [hget]
      simp only []
      rw [show ({ classifiedEntry ops x e with in_insert_cols := true, val_idx := k } :
          SchemaColsToInsertCols V T) = positionalEntry ops x k e from rfl]
      rw [hS]
      simp [positionalSaved, hdrop, hty, Bool.or_assoc]
    · rw [hSty]
      show ((p.stov.set k (classifiedEntry ops x e)).set k
          (positionalEntry ops x k e)).map (fun e => e.type) = _
      rw [List.set_set, map_type_set he (by simp [positionalEntry, classifiedEntry_type])]
    · intro i
      rw [hSget i]
      show (if k + 1 ≤ i then
          match rest[i - (k + 1)]? with
          | some x1 => (((p.stov.set k (classifiedEntry ops x e)).set k
              (positionalEntry ops x k e))[i]?).map (positionalEntry ops x1 i)
          | none => ((p.stov.set k (classifiedEntry ops x e)).set k
              (positionalEntry ops x k e))[i]?
        else ((p.stov.set k (classifiedEntry ops x e)).set k
              (positionalEntry ops x k e))[i]?) = _
      rw [List.set_set, List.getElem?_set]
      by_cases hik : k = i
      · subst hik
        simp [hklt, he]
      · by_cases hlt : k + 1 ≤ i
        · have hki : k ≤ i := by omega
          have hidx : i - k = (i - (k + 1)) + 1 := by omega
          simp only [hlt, hki, if_true, if_neg hik, hidx, List.getElem?_cons_succ]
        · have hki : ¬ k ≤ i := by omega
          simp [hlt, hki, hik]

theorem positionalTuples_spec (ops : TypeOps V T) (rows : List (ValueTuple V))
    (p : InsertPlan V T) (b : Bool)
    (htypes : TypesOK p)
    (hlen : ∀ row ∈ rows, row.length ≤ p.schema_col_count)
    (hkind : ∀ row ∈ rows, ∀ x ∈ row, x ≠ some .other)
    (hcast : ∀ row ∈ rows, ∀ (j : Nat) (c : V) (col : Column V T),
      row[j]? = some (some (.constant c)) →
      p.target_table.schema[j]? = some col → (ops.castAs c col.type).isSome = true) :
    ∃ S : List (SchemaColsToInsertCols V T),
      positionalTuples ops rows (p, b) =
        .ok ({ p with stov := S
                      values := p.values ++
                        rows.flatMap (fun row => positionalSaved ops row p.target_table.schema) },
             b || rows.any (fun row => row.any isParameter)) ∧
      S.map (fun e => e.type) = p.stov.map (fun e => e.type) ∧
      ∀ (i : Nat) (e1 : SchemaColsToInsertCols V T), S[i]? = some e1 →
        ∃ e, p.stov[i]? = some e ∧
          ((∃ row ∈ rows, i < row.length) → e1.in_insert_cols = true ∧ e1.val_idx = i) ∧
          ((∀ row ∈ rows, row.length ≤ i) → e1 = e) := by
  induction rows generalizing p b with
  | nil =>
    refine ⟨p.stov, by simp [positionalTuples], rfl, ?_⟩
    intro i e1 h
    exact ⟨e1, h, by simp, fun _ => rfl⟩
  | cons row rest ih =>
    obtain ⟨S1, h1, hty1, hget1⟩ := positionalTuple_spec ops row 0 p b htypes
      (by simpa using hlen row (List.mem_cons_self _ _))
      (hkind row (List.mem_cons_self _ _))
      (by
        intro j c col hj hcol
        exact hcast row (List.mem_cons_self _ _) j c col hj (by simpa using hcol))
    obtain ⟨S, h2, hty2, hget2⟩ := ih
      { p with stov := S1
               values := p.values ++ positionalSaved ops row (p.target_table.schema.drop 0) }
      (b || row.any isParameter)
      (by show S1.map (fun e => e.type) = _; rw [hty1]; exact htypes)
      (fun r hr => hlen r (List.mem_cons_of_mem _ hr))
      (fun r hr => hkind r (List.mem_cons_of_mem _ hr))
      (fun r hr => hcast r (List.mem_cons_of_mem _ hr))
    refine ⟨S, ?_, by rw [hty2, hty1], ?_⟩
    · unfold positionalTuples
      rw [if_pos (hlen row (List.mem_cons_self _ _)), h1]
      simp only []
      rw [h2]
      simp [Bool.or_assoc]
    · intro i e1 hi
      obtain ⟨e0, he0, hA, hB⟩ := hget2 i e1 hi
      have he0' : S1[i]? = some e0 := he0
      rw [hget1 i] at he0'
      simp only [Nat.zero_le, if_true, Nat.sub_zero] at he0'
      cases hrow : row[i]? with
      | none =>
        rw [hrow] at he0'
        have hle : row.length ≤ i := by
          by_contra hcon
          rw [List.getElem?_eq_getElem (by omega)] at hrow
          cases hrow
        refine ⟨e0, he0', ?_, ?_⟩
        · rintro ⟨r, hr, hir⟩
          rcases List.mem_cons.mp hr with rfl | hr1
          · omega
          · exact hA ⟨r, hr1, hir⟩
        · intro hall
          exact hB (fun r hr => hall r (List.mem_cons_of_mem _ hr))
      | some x =>
        rw [hrow] at he0'
        have hlt : i < row.length := (List.getElem?_eq_some.mp hrow).1
        cases hp : p.stov[i]? with
        | none => simp [hp] at he0'
        | some e =>
          rw [hp] at he0'
          simp only [Option.map_some', Option.some.injEq] at he0'
          refine ⟨e, rfl, ?_, ?_⟩
          · intro _
            by_cases hex : ∃ r ∈ rest, i < r.length
            · exact hA hex
            · have := hB (by
                intro r hr
                by_contra hcon
                exact hex ⟨r, hr, by omega⟩)
              rw [this, ← he0']
              simp [positionalEntry]
          · intro hall
            have := hall row (List.mem_cons_self _ _)
            omega

/-! ## The initial plan -/

theorem initialPlan_typesOK (ops : TypeOps V T) (table : DataTable V T)
    (columns : List String) (rows : List (ValueTuple V)) :
    TypesOK (initialPlan ops table columns rows) := by
  simp [TypesOK, initialPlan, List.map_map, Function.comp_def]

theorem initialPlan_entry (ops : TypeOps V T) (table : DataTable V T)
    (columns : List String) (rows : List (ValueTuple V)) (i : Nat)
    (e : SchemaColsToInsertCols V T)
    (h : (initialPlan ops table columns rows).stov[i]? = some e) :
    ∃ col, table.schema[i]? = some col ∧
      e = { in_insert_cols := false, set_value := false, val_idx := 0,
            type := col.type, value := ops.invalid } := by
  simp only [initialPlan, List.getElem?_map] at h
  cases hc : table.schema[i]? with
  | none => simp [hc] at h
  | some col =>
    rw [hc] at h
    simp at h
    exact ⟨col, rfl, h.symm⟩

/-! ## Distinct listed names fit in the schema -/

theorem columns_length_le (schema : List (Column V T)) (columns : List String)
    (hnd : columns.Nodup) (hex : ∀ c ∈ columns, ∃ col ∈ schema, col.name = c) :
    columns.length ≤ schema.length := by
  have hfound : ∀ c ∈ columns, ∃ i, FindSchemaColIndex c schema = some i :=
    fun c hc => FindSchemaColIndex_of_mem (hex c hc)
  have hnd2 : (columns.map (fun c => (FindSchemaColIndex c schema).getD 0)).Nodup := by
    apply List.Nodup.map_on _ hnd
    intro a ha b hb hab
    obtain ⟨i, hi⟩ := hfound a ha
    obtain ⟨j, hj⟩ := hfound b hb
    simp only [hi, hj, Option.getD_some] at hab
    subst hab
    exact FindSchemaColIndex_inj hi hj
  have hsub : columns.map (fun c => (FindSchemaColIndex c schema).getD 0) ⊆
      List.range schema.length := by
    intro x hx
    obtain ⟨c, hc, rfl⟩ := List.mem_map.mp hx
    obtain ⟨i, hi⟩ := hfound c hc
    simp only [hi, Option.getD_some, List.mem_range]
    exact FindSchemaColIndex_lt hi
  have := (hnd2.subperm hsub).length_le
  simpa using this

/-- The plan after `ProcessColumnSpec` on the initial plan, for distinct
existing names. -/
theorem ProcessColumnSpec_initial (ops : TypeOps V T) (table : DataTable V T)
    (columns : List String) (rows : List (ValueTuple V))
    (hnd : columns.Nodup) (hex : ∀ c ∈ columns, ∃ col ∈ table.schema, col.name = c) :
    ∃ p1, ProcessColumnSpec columns (initialPlan ops table columns rows) = .ok p1 ∧
      p1.target_table = table ∧ p1.values = [] ∧ p1.bulk_insert_count = rows.length ∧
      TypesOK p1 ∧ p1.vtos.length = columns.length ∧
      (∀ (j : Nat) (c : String), columns[j]? = some c →
        ∃ i col, FindSchemaColIndex c table.schema = some i ∧ table.schema[i]? = some col ∧
          p1.stov[i]? = some { in_insert_cols := true, set_value := false, val_idx := j,
                               type := col.type, value := ops.invalid } ∧
          p1.vtos[j]? = some i) ∧
      (∀ (i : Nat) (col : Column V T), table.schema[i]? = some col →
        (∀ c ∈ columns, FindSchemaColIndex c table.schema ≠ some i) →
        p1.stov[i]? = some { in_insert_cols := false, set_value := false, val_idx := 0,
                             type := col.type, value := ops.invalid }) := by
  have h0 := initialPlan_typesOK ops table columns rows
  obtain ⟨p1, h1, ht, hval, hb, hsl, hvl, hA, hB, _⟩ :=
    ProcessColumnSpecFrom_spec columns 0 (initialPlan ops table columns rows)
      (typesOK_length_eq h0) hnd hex (by simp [initialPlan])
  have hinit : ∀ (i : Nat) (col : Column V T), table.schema[i]? = some col →
      (initialPlan ops table columns rows).stov[i]? =
        some { in_insert_cols := false, set_value := false, val_idx := 0,
               type := col.type, value := ops.invalid } := by
    intro i col hc
    simp [initialPlan, List.getElem?_map, hc]
  have hentry : ∀ (i : Nat) (e : SchemaColsToInsertCols V T), p1.stov[i]? = some e →
      ∃ col, table.schema[i]? = some col ∧ e.type = col.type := by
    intro i e he
    have hi : i < table.schema.length := by
      have := (List.getElem?_eq_some.mp he).1
      rw [hsl, (typesOK_length_eq h0)] at this
      exact this
    refine ⟨table.schema[i], List.getElem?_eq_getElem hi, ?_⟩
    have hc := List.getElem?_eq_getElem hi
    by_cases hl : ∃ c ∈ columns, FindSchemaColIndex c table.schema = some i
    · obtain ⟨c, hc1, hf⟩ := hl
      obtain ⟨j, hj⟩ := List.mem_iff_getElem?.mp hc1
      obtain ⟨i1, e0, hf1, he0, hs1, _⟩ := hA j c hj
      have : i1 = i := by
        have hf2 : FindSchemaColIndex c table.schema = some i1 := hf1
        rw [hf] at hf2
        exact (Option.some.inj hf2).symm
      subst this
      rw [hinit i1 _ hc] at he0
      rw [hs1] at he
      cases he0
      cases he
      rfl
    · have := hB i (by
        intro c hc1 hf
        exact hl ⟨c, hc1, hf⟩)
      rw [this, hinit i _ hc] at he
      cases he
      rfl
  refine ⟨p1, h1, ht, hval, by rw [hb]; rfl, ?_, by rw [hvl]; simp [initialPlan], ?_, ?_⟩
  · -- types
    show p1.stov.map (fun e => e.type) = p1.target_table.schema.map (fun col => col.type)
    rw [ht]
    apply List.ext_getElem?
    intro i
    simp only [List.getElem?_map]
    cases he : p1.stov[i]? with
    | none =>
      have : table.schema.length ≤ i := by
        have := List.getElem?_eq_none_iff.mp he
        rw [hsl, (typesOK_length_eq h0)] at this
        exact this
      show _ = Option.map _ (table.schema[i]?)
      rw [List.getElem?_eq_none this]
      rfl
    | some e =>
      obtain ⟨col, hc, hty⟩ := hentry i e he
      show _ = Option.map _ (table.schema[i]?)
      rw [hc]
      simp [hty]
  · intro j c hj
    obtain ⟨i, e0, hf, he0, hs1, hv1⟩ := hA j c hj
    have hi : i < table.schema.length := FindSchemaColIndex_lt hf
    have hc := List.getElem?_eq_getElem hi
    rw [hinit i _ hc] at he0
    cases he0
    refine ⟨i, table.schema[i], hf, hc, ?_, by simpa using hv1⟩
    rw [hs1]
    simp
  · intro i col hc hno
    rw [hB i hno]
    exact hinit i col hc

/-- Every entry of the table after `ProcessColumnSpec` (distinct existing
names) belongs to a listed column, with the user position as value index, or
to a column that is not listed. -/
theorem ProcessColumnSpec_entries (ops : TypeOps V T) (table : DataTable V T)
    (columns : List String) (rows : List (ValueTuple V))
    (hnd : columns.Nodup) (hex : ∀ c ∈ columns, ∃ col ∈ table.schema, col.name = c) :
    ∃ p1, ProcessColumnSpec columns (initialPlan ops table columns rows) = .ok p1 ∧
      p1.target_table = table ∧ p1.values = [] ∧ TypesOK p1 ∧
      (∀ (j : Nat) (c : String), columns[j]? = some c →
        ∃ i, FindSchemaColIndex c table.schema = some i ∧ p1.vtos[j]? = some i) ∧
      (∀ (i : Nat) (e : SchemaColsToInsertCols V T), p1.stov[i]? = some e →
        ∃ col, table.schema[i]? = some col ∧ e.type = col.type ∧ e.set_value = false ∧
          ((∃ j name, columns[j]? = some name ∧
              FindSchemaColIndex name table.schema = some i ∧
              e.in_insert_cols = true ∧ e.val_idx = j) ∨
           ((∀ name ∈ columns, FindSchemaColIndex name table.schema ≠ some i) ∧
              e.in_insert_cols = false))) := by
  obtain ⟨p1, h1, ht, hv, _, hty, _, hA, hB⟩ :=
    ProcessColumnSpec_initial ops table columns rows hnd hex
  have hn : p1.schema_col_count = table.schema.length := by
    simp [InsertPlan.schema_col_count, ht]
  refine ⟨p1, h1, ht, hv, hty, ?_, ?_⟩
  · intro j c hj
    obtain ⟨i, col, hf, _, _, hvt⟩ := hA j c hj
    exact ⟨i, hf, hvt⟩
  · intro i e he
    have hi : i < table.schema.length := by
      have := (List.getElem?_eq_some.mp he).1
      rw [(typesOK_length_eq hty), hn] at this
      exact this
    have hc := List.getElem?_eq_getElem hi
    refine ⟨table.schema[i], hc, ?_⟩
    by_cases hl : ∃ name ∈ columns, FindSchemaColIndex name table.schema = some i
    · obtain ⟨name, hmem, hf⟩ := hl
      obtain ⟨j, hj⟩ := List.mem_iff_getElem?.mp hmem
      obtain ⟨i1, col1, hf1, hc1, hs1, _⟩ := hA j name hj
      have hii : i1 = i := by
        rw [hf] at hf1
        exact (Option.some.inj hf1).symm
      subst hii
      rw [hc] at hc1
      cases hc1
      rw [hs1] at he
      cases he
      exact ⟨rfl, rfl, Or.inl ⟨j, name, hj, hf, rfl, rfl⟩⟩
    · have hno : ∀ name ∈ columns, FindSchemaColIndex name table.schema ≠ some i :=
        fun name hmem hf => hl ⟨name, hmem, hf⟩
      rw [hB i _ hc hno] at he
      cases he
      exact ⟨rfl, rfl, Or.inr ⟨hno, rfl⟩⟩

/-- Two listed positions that hold names found at the same schema column are
the same position, when the listed names are distinct. -/
theorem listed_position_unique {schema : List (Column V T)} {columns : List String}
    (hnd : columns.Nodup) {u1 u2 i : Nat} {n1 n2 : String}
    (h1 : columns[u1]? = some n1) (h2 : columns[u2]? = some n2)
    (f1 : FindSchemaColIndex n1 schema = some i) (f2 : FindSchemaColIndex n2 schema = some i) :
    u1 = u2 := by
  have hname : n1 = n2 := FindSchemaColIndex_inj f1 f2
  subst hname
  have e1 := (List.getElem?_eq_some.mp h1).2
  have e2 := (List.getElem?_eq_some.mp h2).2
  exact (hnd.getElem_inj_iff).mp (e1.trans e2.symm)

/-! ## Row-tuples of constants in the branch with a column list -/

theorem classifiedEntry_shape (ops : TypeOps V T) (expr : Option (AbstractExpression V))
    (e : SchemaColsToInsertCols V T) :
    (classifiedEntry ops expr e).in_insert_cols = e.in_insert_cols ∧
    (classifiedEntry ops expr e).val_idx = e.val_idx := by
  unfold classifiedEntry
  split
  · split <;> exact ⟨rfl, rfl⟩
  · exact ⟨rfl, rfl⟩

theorem namedEntry_shape (ops : TypeOps V T) (values : ValueTuple V)
    (e : SchemaColsToInsertCols V T) :
    (namedEntry ops values e).in_insert_cols = e.in_insert_cols ∧
    (namedEntry ops values e).val_idx = e.val_idx ∧
    (namedEntry ops values e).type = e.type := by
  unfold namedEntry
  split
  · exact ⟨(classifiedEntry_shape ops _ e).1, (classifiedEntry_shape ops _ e).2,
      classifiedEntry_type ops _ e⟩
  · exact ⟨rfl, rfl, rfl⟩

theorem namedSaved_congr (ops : TypeOps V T) (values : ValueTuple V)
    (e e1 : SchemaColsToInsertCols V T) (col : Column V T)
    (h1 : e1.in_insert_cols = e.in_insert_cols) (h2 : e1.val_idx = e.val_idx)
    (h3 : e1.type = e.type) :
    namedSaved ops values e1 col = namedSaved ops values e col := by
  unfold namedSaved
  rw [h1, h2, h3]

theorem namedSavedAt_map (ops : TypeOps V T) (values row : ValueTuple V)
    (p : InsertPlan V T) (vals : List V) (i : Nat) :
    namedSavedAt ops row
      { p with stov := p.stov.map (namedEntry ops values), values := vals } i =
    namedSavedAt ops row p i := by
  unfold namedSavedAt
  simp only [List.getElem?_map]
  cases he : p.stov[i]? with
  | none => rfl
  | some e =>
    cases hc : p.target_table.schema[i]? with
    | none => rfl
    | some col =>
      obtain ⟨h1, h2, h3⟩ := namedEntry_shape ops values e
      exact namedSaved_congr ops row e _ col h1 h2 h3

/-- Row-tuples in which every listed column reads a constant that converts: the
loop over the row-tuples completes without raising the flag, and appends for
every row the values saved for the schema columns in schema order. -/
theorem namedTuples_constants (ops : TypeOps V T) (m : Nat) (rows : List (ValueTuple V))
    (p : InsertPlan V T)
    (hlen : p.stov.length = p.schema_col_count)
    (hrow : ∀ row ∈ rows, row.length ≤ p.schema_col_count ∧
      ∀ e ∈ p.stov, e.in_insert_cols = true →
        ∃ c, row[e.val_idx]? = some (some (.constant c)) ∧
          (ops.castAs c e.type).isSome = true) :
    ∃ S : List (SchemaColsToInsertCols V T),
      namedTuples ops m rows (p, false) =
        .ok ({ p with stov := S
                      values := p.values ++ rows.flatMap (fun row =>
                        (List.range p.schema_col_count).flatMap (namedSavedAt ops row p)) },
             false) := by
  induction rows generalizing p with
  | nil => exact ⟨p.stov, by simp [namedTuples]⟩
  | cons row rest ih =>
    obtain ⟨hrl, hre⟩ := hrow row (List.mem_cons_self _ _)
    have hok : ∀ e ∈ p.stov, e.in_insert_cols = true →
        ∃ expr, row[e.val_idx]? = some expr ∧ expr ≠ some .other ∧
          ∀ c, expr = some (.constant c) → (ops.castAs c e.type).isSome = true := by
      intro e he hin
      obtain ⟨c, hc, hcast⟩ := hre e he hin
      refine ⟨_, hc, by simp, ?_⟩
      intro c1 hc1
      cases hc1
      exact hcast
    have hnoparam : (List.range p.schema_col_count).any (namedParamAt row p) = false := by
      rw [List.any_eq_false]
      intro i _
      unfold namedParamAt
      cases he : p.stov[i]? with
      | none => simp
      | some e =>
        simp only []
        unfold namedExpr
        by_cases hin : e.in_insert_cols = true
        · obtain ⟨c, hc, _⟩ := hre e (List.getElem?_mem he) hin
          simp [hin, hc, isParameter]
        · simp [hin]
    have h1 := namedColumn_loop ops row p false hlen hok
    rw [hnoparam] at h1
    obtain ⟨S, hS⟩ := ih
      { p with stov := p.stov.map (namedEntry ops row)
               values := p.values ++
                 (List.range p.schema_col_count).flatMap (namedSavedAt ops row p) }
      (by simpa using hlen)
      (by
        intro r hr
        obtain ⟨hrl1, hre1⟩ := hrow r (List.mem_cons_of_mem _ hr)
        refine ⟨hrl1, ?_⟩
        intro e1 he1 hin1
        obtain ⟨e, he, rfl⟩ := List.mem_map.mp he1
        obtain ⟨s1, s2, s3⟩ := namedEntry_shape ops row e
        rw [s1] at hin1
        rw [s2, s3]
        exact hre1 e he hin1)
    refine ⟨S, ?_⟩
    unfold namedTuples
    rw [if_pos hrl, h1]
    simp only [Bool.or_false, Bool.false_eq_true, if_false]
    rw [hS]
    simp only [List.flatMap_cons, List.append_assoc]
    have hrest : (rest.flatMap fun r =>
          (List.range p.schema_col_count).flatMap
            (namedSavedAt ops r
              { p with stov := p.stov.map (namedEntry ops row)
                       values := p.values ++
                         (List.range p.schema_col_count).flatMap (namedSavedAt ops row p) })) =
        rest.flatMap fun r =>
          (List.range p.schema_col_count).flatMap (namedSavedAt ops r p) := by
      apply List.flatMap_congr
      intro r _
      apply List.flatMap_congr
      intro i _
      exact namedSavedAt_map ops row r p _ i
    show Except.ok (_, false) = Except.ok (_, false)
    congr 3
    congr 1
    exact congrArg _ hrest

/-! ## The index adjustment pass -/

theorem set_self {α : Type} (S : List α) (i : Nat) (e : α) (h : S[i]? = some e) :
    S.set i e = S := by
  apply List.ext_getElem?
  intro n
  rw [List.getElem?_set]
  by_cases hn : i = n
  · subst hn
    simp [h, (List.getElem?_eq_some.mp h).1]
  · simp [hn]

/-- The adjustment pass over `m` user columns that map to distinct schema
columns: it completes, changes only `val_idx` of the non-constant user columns,
and subtracts from each the number of constant user columns before it. -/
theorem adjustIndexes_spec (m : Nat) (p : InsertPlan V T)
    (hv : ∀ u, u < m → ∃ i e, p.vtos[u]? = some i ∧ p.stov[i]? = some e)
    (hinj : ∀ u1 u2 i, u1 < m → u2 < m → p.vtos[u1]? = some i → p.vtos[u2]? = some i →
      u1 = u2) :
    ∃ S : List (SchemaColsToInsertCols V T),
      adjustIndexes m p = .ok { p with stov := S } ∧
      S.length = p.stov.length ∧
      (∀ (u i : Nat) (e : SchemaColsToInsertCols V T), u < m → p.vtos[u]? = some i →
        p.stov[i]? = some e → S[i]? = some (adjustedEntry e (constantsBefore p u))) ∧
      (∀ i : Nat, (∀ u, u < m → p.vtos[u]? ≠ some i) → S[i]? = p.stov[i]?) := by
  have key := foldlM_range_invariant (adjustColumn (V := V) (T := T))
    (fun k s => ∃ S : List (SchemaColsToInsertCols V T),
      s = ({ p with stov := S }, constantsBefore p k) ∧
      S.length = p.stov.length ∧
      (∀ (u i : Nat) (e : SchemaColsToInsertCols V T), u < k → p.vtos[u]? = some i →
        p.stov[i]? = some e → S[i]? = some (adjustedEntry e (constantsBefore p u))) ∧
      (∀ i : Nat, (∀ u, u < k → p.vtos[u]? ≠ some i) → S[i]? = p.stov[i]?))
    m (p, 0) ⟨p.stov, rfl, rfl, fun u i e hu => absurd hu (Nat.not_lt_zero u),
      fun i _ => rfl⟩ ?_
  · obtain ⟨s2, h2, S, hs, hl, hA, hB⟩ := key
    refine ⟨S, ?_, hl, hA, hB⟩
    unfold adjustIndexes
    rw [h2, hs]
  · rintro k s1 hk ⟨S, rfl, hl, hA, hB⟩
    obtain ⟨i, e, hvi, hei⟩ := hv k hk
    have hfresh : ∀ u, u < k → p.vtos[u]? ≠ some i := by
      intro u hu hcon
      have := hinj u k i (by omega) hk hcon hvi
      omega
    have hSi : S[i]? = some e := by rw [hB i hfresh, hei]
    have hcount : constantsBefore p (k + 1) =
        constantsBefore p k + (if e.set_value then 1 else 0) := by
      unfold constantsBefore
      rw [List.range_succ, List.countP_append]
      simp [List.countP_cons, constantAt, hvi, hei]
    by_cases hsv : e.set_value = true
    · refine ⟨({ p with stov := S }, constantsBefore p (k + 1)), ?_, S, rfl, hl, ?_, ?_⟩
      · unfold adjustColumn
        simp only [hvi, hSi, hsv, if_true]
        rw [hcount]
        simp [hsv]
      · intro u i1 e1 hu hv1 he1
        by_cases huk : u < k
        · exact hA u i1 e1 huk hv1 he1
        · have : u = k := by omega
          subst this
          rw [hvi] at hv1
          cases hv1
          rw [hei] at he1
          cases he1
          rw [hSi]
          simp [adjustedEntry, hsv]
      · intro i1 hi1
        exact hB i1 (fun u hu => hi1 u (by omega))
    · refine ⟨({ p with stov := S.set i { e with val_idx := sub32 e.val_idx (constantsBefore p k) } },
          constantsBefore p (k + 1)), ?_, _, rfl, by simpa using hl, ?_, ?_⟩
      · unfold adjustColumn
        simp only [hvi, hSi, hsv]
        rw [hcount]
        simp [hsv]
      · intro u i1 e1 hu hv1 he1
        rw [List.getElem?_set]
        by_cases huk : u < k
        · have hne : i ≠ i1 := by
            intro h
            subst h
            exact hfresh u huk hv1
          rw [if_neg hne]
          exact hA u i1 e1 huk hv1 he1
        · have : u = k := by omega
          subst this
          rw [hvi] at hv1
          cases hv1
          rw [hei] at he1
          cases he1
          have hil : i < S.length := (List.getElem?_eq_some.mp hSi).1
          simp [hil, adjustedEntry, hsv]
      · intro i1 hi1
        rw [List.getElem?_set]
        have hne : i ≠ i1 := by
          intro h
          subst h
          exact hi1 k (Nat.lt_succ_self k) hvi
        rw [if_neg hne]
        exact hB i1 (fun u hu => hi1 u (by omega))

/-! ## One row-tuple with parameters in the branch with a column list -/

theorem countP_range_eq_take {α : Type} (f : Nat → Bool) (g : α → Bool) (l : List α)
    (h : ∀ (j : Nat) (x : α), l[j]? = some x → f j = g x) (u : Nat) (hu : u ≤ l.length) :
    (List.range u).countP f = (l.take u).countP g := by
  induction u with
  | zero => simp
  | succ k ih =>
    have hk : k < l.length := hu
    rw [List.range_succ, List.countP_append, List.take_succ, List.countP_append,
      ih (Nat.le_of_lt hk), List.getElem?_eq_getElem hk]
    simp [List.countP_cons, h k l[k] (List.getElem?_eq_getElem hk)]

theorem countP_constant_parameter (row : ValueTuple V)
    (hkind : ∀ x ∈ row, x = some .parameter ∨ ∃ c, x = some (.constant c)) (u : Nat)
    (hu : u ≤ row.length) :
    (row.take u).countP isConstant + (row.take u).countP isParameter = u := by
  induction u with
  | zero => simp
  | succ k ih =>
    have hk : k < row.length := hu
    have := ih (Nat.le_of_lt hk)
    rw [List.take_succ, List.countP_append, List.countP_append, List.getElem?_eq_getElem hk]
    rcases hkind row[k] (List.getElem_mem hk) with h | ⟨c, h⟩
    · simp [h, List.countP_cons, isConstant, isParameter]; omega
    · simp [h, List.countP_cons, isConstant, isParameter]; omega

/-- The plan constructed from a column list of distinct existing names and one
row-tuple of constants and parameters, at least one of them a parameter: every
listed column that reads a constant caches its cast, every listed column that
reads a parameter gets as value index the number of parameters before its
user position, and the other columns stay outside the insert columns. -/
theorem named_single_row_plan (ops : TypeOps V T) (table : DataTable V T)
    (columns : List String) (row : ValueTuple V)
    (hw : table.schema.length < 4294967296)
    (hne : columns ≠ [])
    (hnd : columns.Nodup)
    (hex : ∀ c ∈ columns, ∃ col ∈ table.schema, col.name = c)
    (hlen : row.length = columns.length)
    (hkind : ∀ x ∈ row, x = some .parameter ∨ ∃ c, x = some (.constant c))
    (hph : some .parameter ∈ row)
    (hcastc : ∀ (u : Nat) (name : String) (idx : Nat) (col : Column V T) (c : V),
      columns[u]? = some name → FindSchemaColIndex name table.schema = some idx →
      table.schema[idx]? = some col → row[u]? = some (some (.constant c)) →
      (ops.castAs c col.type).isSome = true) :
    ∃ p, constructInsertPlan ops table columns [row] = .ok p ∧
      p.target_table = table ∧ TypesOK p ∧
      ∀ (idx : Nat) (e : SchemaColsToInsertCols V T), p.stov[idx]? = some e →
        ∃ col, table.schema[idx]? = some col ∧ e.type = col.type ∧
          ((∃ u name, columns[u]? = some name ∧
              FindSchemaColIndex name table.schema = some idx ∧
              e.in_insert_cols = true ∧
              ((∃ c v, row[u]? = some (some (.constant c)) ∧
                  ops.castAs c col.type = some v ∧ e.set_value = true ∧ e.value = v) ∨
               (row[u]? = some (some .parameter) ∧ e.set_value = false ∧
                  e.val_idx = (row.take u).countP isParameter ∧
                  e.val_idx = u - (row.take u).countP isConstant))) ∨
           ((∀ name ∈ columns, FindSchemaColIndex name table.schema ≠ some idx) ∧
              e.in_insert_cols = false ∧ e.set_value = false)) := by
  obtain ⟨p1, h1, ht, hv, hty, hvt, hent⟩ :=
    ProcessColumnSpec_entries ops table columns [row] hnd hex
  have hn : p1.schema_col_count = table.schema.length := by
    simp [InsertPlan.schema_col_count, ht]
  have hcl := columns_length_le table.schema columns hnd hex
  -- what a listed entry reads
  have hread : ∀ (i : Nat) (e : SchemaColsToInsertCols V T) (j : Nat) (name : String),
      p1.stov[i]? = some e → columns[j]? = some name →
      FindSchemaColIndex name table.schema = some i → e.in_insert_cols = true →
      e.val_idx = j →
      ∃ x, row[j]? = some x ∧ namedExpr row e = some x ∧
        (x = some .parameter ∨ ∃ c, x = some (.constant c)) := by
    intro i e j name he hj hf hin hvi
    have hjlt : j < row.length := by
      rw [hlen]; exact (List.getElem?_eq_some.mp hj).1
    refine ⟨row[j], List.getElem?_eq_getElem hjlt, ?_, hkind _ (List.getElem_mem hjlt)⟩
    simp [namedExpr, hin, hvi, List.getElem?_eq_getElem hjlt]
  have hok : ∀ e ∈ p1.stov, e.in_insert_cols = true →
      ∃ expr, row[e.val_idx]? = some expr ∧ expr ≠ some .other ∧
        ∀ c, expr = some (.constant c) → (ops.castAs c e.type).isSome = true := by
    intro e he hin
    obtain ⟨i, hi⟩ := List.mem_iff_getElem?.mp he
    obtain ⟨col, hc, hety, _, hcase⟩ := hent i e hi
    rcases hcase with ⟨j, name, hj, hf, _, hvi⟩ | ⟨_, hfalse⟩
    · obtain ⟨x, hx, _, hxk⟩ := hread i e j name hi hj hf hin hvi
      refine ⟨x, by rw [hvi]; exact hx, ?_, ?_⟩
      · rcases hxk with h | ⟨c, h⟩ <;> simp [h]
      · intro c hxc
        rw [hety]
        exact hcastc j name i col c hj hf hc (by rw [hx, hxc])
    · rw [hfalse] at hin
      cases hin
  -- the row raises the flag
  have hflag : (List.range p1.schema_col_count).any (namedParamAt row p1) = true := by
    obtain ⟨u, hu⟩ := List.mem_iff_getElem?.mp hph
    have hul : u < columns.length := by
      rw [← hlen]; exact (List.getElem?_eq_some.mp hu).1
    have hcu := List.getElem?_eq_getElem hul
    obtain ⟨i, hf, _⟩ := hvt u _ hcu
    have hil : i < p1.schema_col_count := by rw [hn]; exact FindSchemaColIndex_lt hf
    obtain ⟨e, col, he, _, _⟩ := typesOK_get hty hil
    rw [List.any_eq_true]
    refine ⟨i, List.mem_range.mpr hil, ?_⟩
    obtain ⟨col1, _, _, _, hcase⟩ := hent i e he
    rcases hcase with ⟨j, name, hj, hf1, hin, hvi⟩ | ⟨hno, _⟩
    · have hju : j = u := listed_position_unique hnd hj hcu hf1 hf
      subst hju
      simp [namedParamAt, he, namedExpr, hin, hvi, hu, isParameter]
    · exact absurd hf (hno _ (List.getElem_mem hul))
  have hloop := namedColumn_loop ops row p1 false (typesOK_length_eq hty) hok
  rw [hflag] at hloop
  -- the plan after the row, before the adjustment
  obtain ⟨p2, hp2⟩ : ∃ p2 : InsertPlan V T, p2 =
      { p1 with stov := p1.stov.map (namedEntry ops row)
                values := p1.values ++
                  (List.range p1.schema_col_count).flatMap (namedSavedAt ops row p1) } :=
    ⟨_, rfl⟩
  rw [← hp2] at hloop
  have hp2s : ∀ i : Nat, p2.stov[i]? = (p1.stov[i]?).map (namedEntry ops row) := by
    intro i; rw [hp2]; exact List.getElem?_map _ _ _
  have hp2v : p2.vtos = p1.vtos := by rw [hp2]
  have hp2t : p2.target_table = table := by rw [hp2]; exact ht
  have hp2l : p2.stov.length = p1.stov.length := by rw [hp2]; simp
  -- the entry of a listed column after the row
  have hlisted : ∀ (u : Nat) (name : String), columns[u]? = some name →
      ∃ i e1 x col, FindSchemaColIndex name table.schema = some i ∧ p2.vtos[u]? = some i ∧
        p1.stov[i]? = some e1 ∧ p2.stov[i]? = some (classifiedEntry ops x e1) ∧
        row[u]? = some x ∧ table.schema[i]? = some col ∧ e1.type = col.type ∧
        e1.set_value = false ∧ e1.in_insert_cols = true ∧ e1.val_idx = u ∧
        (x = some .parameter ∨ ∃ c, x = some (.constant c)) := by
    intro u name hu
    obtain ⟨i, hf, hvi⟩ := hvt u name hu
    have hil : i < p1.schema_col_count := by rw [hn]; exact FindSchemaColIndex_lt hf
    obtain ⟨e1, _, he1, _, _⟩ := typesOK_get hty hil
    obtain ⟨col, hc, hety, hsv, hcase⟩ := hent i e1 he1
    rcases hcase with ⟨j, name1, hj, hf1, hin, hvi1⟩ | ⟨hno, _⟩
    · have hju : j = u := listed_position_unique hnd hj hu hf1 hf
      subst hju
      obtain ⟨x, hx, hnx, hxk⟩ := hread i e1 j name1 he1 hj hf1 hin hvi1
      refine ⟨i, e1, x, col, hf, by rw [hp2v]; exact hvi, he1, ?_, hx, hc, hety, hsv, hin,
        hvi1, hxk⟩
      rw [hp2s, he1]
      simp [namedEntry, hnx]
    · exact absurd hf (hno name (List.getElem?_mem hu))
  have hconstAt : ∀ (j : Nat) (x : Option (AbstractExpression V)), row[j]? = some x →
      constantAt p2 j = isConstant x := by
    intro j x hx
    have hjl : j < columns.length := by
      rw [← hlen]; exact (List.getElem?_eq_some.mp hx).1
    obtain ⟨i, e1, x1, col, hf, hvi, he1, he2, hx1, hc, hety, hsv, _, _, hxk⟩ :=
      hlisted j _ (List.getElem?_eq_getElem hjl)
    rw [hx] at hx1
    cases hx1
    simp only [constantAt, hvi, he2]
    rcases hxk with h | ⟨c, h⟩
    · subst h
      simp [classifiedEntry, isConstant, hsv]
    · subst h
      have hcs := hcastc j _ i col c (List.getElem?_eq_getElem hjl) hf hc hx
      rw [← hety] at hcs
      cases hcv : ops.castAs c e1.type with
      | none => simp [hcv] at hcs
      | some v => simp [classifiedEntry, isConstant, hcv]
  have hcb : ∀ u, u ≤ row.length → constantsBefore p2 u = (row.take u).countP isConstant :=
    fun u hu => countP_range_eq_take (constantAt p2) isConstant row hconstAt u hu
  obtain ⟨S, hadj, hSl, hSA, hSB⟩ := adjustIndexes_spec columns.length p2
    (by
      intro u hu
      obtain ⟨i, e1, x, col, _, hvi, _, he2, _⟩ := hlisted u _ (List.getElem?_eq_getElem hu)
      exact ⟨i, _, hvi, he2⟩)
    (by
      intro u1 u2 i hu1 hu2 hv1 hv2
      obtain ⟨i1, _, _, _, hf1, hvi1, _⟩ := hlisted u1 _ (List.getElem?_eq_getElem hu1)
      obtain ⟨i2, _, _, _, hf2, hvi2, _⟩ := hlisted u2 _ (List.getElem?_eq_getElem hu2)
      have e1 : i1 = i := Option.some.inj (hvi1.symm.trans hv1)
      have e2 : i2 = i := Option.some.inj (hvi2.symm.trans hv2)
      subst e1
      subst e2
      exact listed_position_unique hnd (List.getElem?_eq_getElem hu1)
        (List.getElem?_eq_getElem hu2) hf1 hf2)
  have hbuild : buildMapping ops table columns [row] = .ok ({ p2 with stov := S }, true) := by
    unfold buildMapping
    have hemp : columns.isEmpty = false := by
      cases columns with
      | nil => exact absurd rfl hne
      | cons _ _ => rfl
    simp only [hemp, Bool.false_eq_true, if_false]
    rw [if_pos (by simpa [initialPlan, InsertPlan.schema_col_count] using hcl), h1]
    simp only []
    unfold namedTuples
    rw [if_pos (by rw [hn, hlen]; exact hcl), hloop]
    simp only [Bool.false_or, if_true]
    rw [hadj]
    simp only []
    unfold namedTuples
    rfl
  have hfinal : ∀ (idx : Nat) (e : SchemaColsToInsertCols V T), S[idx]? = some e →
      ∃ col, table.schema[idx]? = some col ∧ e.type = col.type ∧
        ((∃ u name, columns[u]? = some name ∧
            FindSchemaColIndex name table.schema = some idx ∧
            e.in_insert_cols = true ∧
            ((∃ c v, row[u]? = some (some (.constant c)) ∧
                ops.castAs c col.type = some v ∧ e.set_value = true ∧ e.value = v) ∨
             (row[u]? = some (some .parameter) ∧ e.set_value = false ∧
                e.val_idx = (row.take u).countP isParameter ∧
                e.val_idx = u - (row.take u).countP isConstant))) ∨
         ((∀ name ∈ columns, FindSchemaColIndex name table.schema ≠ some idx) ∧
            e.in_insert_cols = false ∧ e.set_value = false)) := by
    intro idx e he
    have hidx : idx < p1.stov.length := by
      rw [← hp2l, ← hSl]; exact (List.getElem?_eq_some.mp he).1
    have he1 := List.getElem?_eq_getElem hidx
    generalize p1.stov[idx] = e1 at he1
    obtain ⟨col, hc, hety, hsv, hcase⟩ := hent idx e1 he1
    refine ⟨col, hc, ?_⟩
    rcases hcase with ⟨j, name, hj, hf, hin, hvi⟩ | ⟨hno, hfalse⟩
    · obtain ⟨i, e1b, x, colb, hfb, hvi2, he1b, he2, hx, _, _, _, _, _, hxk⟩ :=
        hlisted j name hj
      have hii : i = idx := Option.some.inj (hfb.symm.trans hf)
      subst hii
      rw [he1] at he1b
      cases he1b
      have hjl : j < columns.length := (List.getElem?_eq_some.mp hj).1
      have hS := hSA j i _ hjl hvi2 he2
      rw [he] at hS
      cases hS
      rcases hxk with h | ⟨c, h⟩
      · subst h
        have hcnt := countP_constant_parameter row hkind j (by omega)
        have hcbj := hcb j (by omega)
        refine ⟨by simp [classifiedEntry, adjustedEntry, hsv, hety], Or.inl ⟨j, name, hj, hf,
          by simp [classifiedEntry, adjustedEntry, hsv, hin], Or.inr ⟨hx,
          by simp [classifiedEntry, adjustedEntry, hsv], ?_, ?_⟩⟩⟩
        · simp only [classifiedEntry, adjustedEntry, hsv, hvi, hcbj, sub32]
          simp
          omega
        · simp only [classifiedEntry, adjustedEntry, hsv, hvi, hcbj, sub32]
          simp
          omega
      · subst h
        have hcs := hcastc j name i col c hj hf hc hx
        cases hcv : ops.castAs c col.type with
        | none => simp [hcv] at hcs
        | some v =>
          have hcv1 : ops.castAs c e1.type = some v := by rw [hety]; exact hcv
          refine ⟨by simp [classifiedEntry, adjustedEntry, hcv1, ← hety],
            Or.inl ⟨j, name, hj, hf,
            by simp [classifiedEntry, adjustedEntry, hcv1, hin], Or.inl ⟨c, v, hx, hcv,
            by simp [classifiedEntry, adjustedEntry, hcv1],
            by simp [classifiedEntry, adjustedEntry, hcv1]⟩⟩⟩
    · have hun : ∀ u, u < columns.length → p2.vtos[u]? ≠ some idx := by
        intro u hu hcon
        obtain ⟨i, _, _, _, hfb, hvi2, _⟩ := hlisted u _ (List.getElem?_eq_getElem hu)
        have hii : i = idx := Option.some.inj (hvi2.symm.trans hcon)
        subst hii
        exact hno _ (List.getElem_mem hu) hfb
      have hS := hSB idx hun
      rw [he, hp2s, he1] at hS
      simp only [Option.map_some', Option.some.injEq] at hS
      have hne1 : namedEntry ops row e1 = e1 := by simp [namedEntry, namedExpr, hfalse]
      rw [hne1] at hS
      subst hS
      exact ⟨hety, Or.inr ⟨hno, hfalse, hsv⟩⟩
  refine ⟨ClearParameterValues { p2 with stov := S }, ?_, hp2t, ?_, hfinal⟩
  · unfold constructInsertPlan
    rw [hbuild]
    rfl
  · apply typesOK_of_entries
    · show S.length = p2.target_table.schema.length
      rw [hSl, hp2l, (typesOK_length_eq hty), hp2t, hn]
    · intro i e he
      obtain ⟨col, hc, hety, _⟩ := hfinal i e he
      exact ⟨col, by show p2.target_table.schema[i]? = _; rw [hp2t]; exact hc, hety⟩

theorem countP_take_lt {α : Type} (g : α → Bool) (l : List α) (u : Nat) (x : α)
    (hx : l[u]? = some x) (hg : g x = true) : (l.take u).countP g < l.countP g := by
  have hu : u < l.length := (List.getElem?_eq_some.mp hx).1
  have h1 : (l.take (u + 1)).countP g = (l.take u).countP g + 1 := by
    rw [List.take_succ, List.countP_append, hx]
    simp [List.countP_cons, hg]
  have h2 : (l.take (u + 1)).countP g ≤ l.countP g :=
    (List.take_sublist (u + 1) l).countP_le g
  omega

/-! ## What a completed step leaves behind -/

theorem foldlM_range_partial {σ ε : Type} (f : σ → Nat → Except ε σ)
    (I : Nat → σ → Prop) (n : Nat) (s : σ) (h0 : I 0 s)
    (hstep : ∀ k s1 s2, k < n → I k s1 → f s1 k = .ok s2 → I (k + 1) s2) :
    ∀ s2, (List.range n).foldlM f s = .ok s2 → I n s2 := by
  induction n with
  | zero =>
    intro s2 h
    cases h
    exact h0
  | succ k ih =>
    intro s2 h
    rw [foldlM_range_succ] at h
    cases h1 : (List.range k).foldlM f s with
    | error e => rw [h1] at h; cases h
    | ok s1 =>
      rw [h1] at h
      exact hstep k s1 s2 (Nat.lt_succ_self k)
        (ih (fun j t1 t2 hj => hstep j t1 t2 (Nat.lt_succ_of_lt hj)) s1 h1) h

theorem entryStep_refl (ops : TypeOps V T) (lits : V → Prop)
    (e : SchemaColsToInsertCols V T) : EntryStep ops lits e e :=
  ⟨rfl, fun h => h, fun h => Or.inl ⟨h, rfl⟩⟩

theorem entryStep_trans {ops : TypeOps V T} {lits : V → Prop}
    {e e1 e2 : SchemaColsToInsertCols V T}
    (h1 : EntryStep ops lits e e1) (h2 : EntryStep ops lits e1 e2) :
    EntryStep ops lits e e2 := by
  refine ⟨h2.type_eq.trans h1.type_eq, fun h => h2.mono (h1.mono h), ?_⟩
  intro h
  rcases h2.cached h with ⟨hs, hv⟩ | ⟨c, hc, hcast⟩
  · rcases h1.cached hs with ⟨hs0, hv0⟩ | ⟨c, hc, hcast⟩
    · exact Or.inl ⟨hs0, hv.trans hv0⟩
    · exact Or.inr ⟨c, hc, by rw [hv]; exact hcast⟩
  · exact Or.inr ⟨c, hc, by rw [← h1.type_eq]; exact hcast⟩

theorem entryStep_classified (ops : TypeOps V T) (lits : V → Prop)
    (expr : Option (AbstractExpression V)) (e : SchemaColsToInsertCols V T)
    (hl : ∀ c, expr = some (.constant c) → lits c) :
    EntryStep ops lits e (classifiedEntry ops expr e) := by
  unfold classifiedEntry
  split
  · rename_i c
    split
    · rename_i v hv
      exact ⟨rfl, fun _ => rfl, fun _ => Or.inr ⟨c, hl c rfl, hv⟩⟩
    · exact entryStep_refl ops lits e
  · exact entryStep_refl ops lits e

theorem planStep_refl (ops : TypeOps V T) (lits : V → Prop) (p : InsertPlan V T) :
    PlanStep ops lits p p :=
  ⟨rfl, rfl, rfl, fun i e e1 h h1 => by
    rw [h] at h1; cases h1; exact entryStep_refl ops lits e⟩

theorem planStep_trans {ops : TypeOps V T} {lits : V → Prop} {p q r : InsertPlan V T}
    (h1 : PlanStep ops lits p q) (h2 : PlanStep ops lits q r) : PlanStep ops lits p r := by
  refine ⟨h2.table.trans h1.table, h2.vtos.trans h1.vtos, h2.len.trans h1.len, ?_⟩
  intro i e e2 he he2
  have hi : i < q.stov.length := by
    rw [h1.len]; exact (List.getElem?_eq_some.mp he).1
  exact entryStep_trans (h1.entries i e _ he (List.getElem?_eq_getElem hi))
    (h2.entries i _ e2 (List.getElem?_eq_getElem hi) he2)

/-- Replacing one entry by an allowed successor is an allowed plan step,
whatever happens to the buffer. -/
theorem planStep_set (ops : TypeOps V T) (lits : V → Prop) (p q : InsertPlan V T)
    (idx : Nat) (e e1 : SchemaColsToInsertCols V T)
    (he : p.stov[idx]? = some e) (hs : EntryStep ops lits e e1)
    (ht : q.target_table = p.target_table) (hv : q.vtos = p.vtos)
    (hq : q.stov = p.stov.set idx e1) : PlanStep ops lits p q := by
  refine ⟨ht, hv, by rw [hq]; simp, ?_⟩
  intro i a a1 ha ha1
  rw [hq, List.getElem?_set] at ha1
  by_cases hi : idx = i
  · subst hi
    rw [he] at ha
    cases ha
    simp [(List.getElem?_eq_some.mp he).1] at ha1
    subst ha1
    exact hs
  · rw [if_neg hi, ha] at ha1
    cases ha1
    exact entryStep_refl ops lits a

theorem SetDefaultValue_ok (ops : TypeOps V T) (p q : InsertPlan V T) (idx : Nat)
    (h : SetDefaultValue ops p idx = .ok q) : ∃ v, q = p.push v := by
  unfold SetDefaultValue at h
  split at h
  · split at h
    · cases h; exact ⟨_, rfl⟩
    · cases h; exact ⟨_, rfl⟩
  · cases h

/-- A completed `ProcessValueExpr`: the expression was a null, a constant that
converts or a parameter, the entry became its classified entry, and the result
tells whether the expression was a parameter. -/
theorem ProcessValueExpr_ok (ops : TypeOps V T) (p q : InsertPlan V T)
    (expr : Option (AbstractExpression V)) (idx : Nat) (r : Bool)
    (h : ProcessValueExpr ops p expr idx = .ok (q, r)) :
    ∃ e, p.stov[idx]? = some e ∧ r = isParameter expr ∧
      q.target_table = p.target_table ∧ q.vtos = p.vtos ∧
      q.stov = p.stov.set idx (classifiedEntry ops expr e) ∧
      (∀ c, expr = some (.constant c) → (classifiedEntry ops expr e).set_value = true) := by
  unfold ProcessValueExpr at h
  cases he : p.stov[idx]? with
  | none => rw [he] at h; cases h
  | some e =>
    rw [he] at h
    refine ⟨e, rfl, ?_⟩
    cases expr with
    | none =>
      simp only [] at h
      cases hd : SetDefaultValue ops p idx with
      | error f => rw [hd] at h; cases h
      | ok p1 =>
        rw [hd] at h
        obtain ⟨v, hv⟩ := SetDefaultValue_ok ops p p1 idx hd
        cases h
        subst hv
        refine ⟨rfl, rfl, rfl, ?_, fun c hc => by cases hc⟩
        simp [InsertPlan.push, classifiedEntry, set_self _ _ _ he]
    | some x =>
      cases x with
      | constant c =>
        simp only [] at h
        cases hc : ops.castAs c e.type with
        | none => rw [hc] at h; cases h
        | some v =>
          rw [hc] at h
          cases h
          refine ⟨rfl, rfl, rfl, ?_, ?_⟩
          · simp [InsertPlan.push, classifiedEntry, hc]
          · intro c1 _
            simp [classifiedEntry, hc]
      | parameter =>
        cases h
        refine ⟨rfl, rfl, rfl, ?_, fun c hc => by cases hc⟩
        simp [classifiedEntry, set_self _ _ _ he]
      | other => cases h

theorem entryStep_reindex (ops : TypeOps V T) (lits : V → Prop)
    (e : SchemaColsToInsertCols V T) (a : Bool) (n : Nat) :
    EntryStep ops lits e { e with in_insert_cols := a, val_idx := n } :=
  ⟨rfl, fun h => h, fun h => Or.inl ⟨h, rfl⟩⟩

/-- A completed pass over one row-tuple in the branch without a column list. -/
theorem positionalTuple_ok (ops : TypeOps V T) (lits : V → Prop) (row : ValueTuple V)
    (k : Nat) (p q : InsertPlan V T) (b f : Bool)
    (hl : ∀ c, some (AbstractExpression.constant c) ∈ row → lits c)
    (h : positionalTuple ops row k (p, b) = .ok (q, f)) :
    PlanStep ops lits p q ∧ f = (b || row.any isParameter) ∧
    ∀ (j : Nat) (c : V), row[j]? = some (some (.constant c)) →
      ∃ e1, q.stov[k + j]? = some e1 ∧ e1.set_value = true := by
  induction row generalizing k p b with
  | nil =>
    unfold positionalTuple at h
    cases h
    exact ⟨planStep_refl ops lits _, by simp, fun j c hj => by simp at hj⟩
  | cons x rest ih =>
    unfold positionalTuple at h
    cases hp : ProcessValueExpr ops p x k with
    | error e => rw [hp] at h; cases h
    | ok res =>
      obtain ⟨p1, r⟩ := res
      rw [hp] at h
      simp only [] at h
      obtain ⟨e, he, hr, ht1, hv1, hs1, hconst⟩ := ProcessValueExpr_ok ops p p1 x k r hp
      have hklt : k < p.stov.length := (List.getElem?_eq_some.mp he).1
      have hget : p1.stov[k]? = some (classifiedEntry ops x e) := by
        rw [hs1]; simp [List.getElem?_set, hklt]
      rw [hget] at h
      simp only [] at h
      obtain ⟨hstep, hf, hset⟩ := ih (k + 1) _ (b || r)
        (fun c hc => hl c (List.mem_cons_of_mem _ hc)) h
      have hstep0 : PlanStep ops lits p
          { p1 with stov := p1.stov.set k (positionalEntry ops x k e) } := by
        exact planStep_set ops lits p
          { p1 with stov := p1.stov.set k (positionalEntry ops x k e) }
          k e (positionalEntry ops x k e) he
          (entryStep_trans (entryStep_classified ops lits x e
            (fun c hc => hl c (by rw [hc]; exact List.mem_cons_self _ _)))
            (entryStep_reindex ops lits _ true k)) ht1 hv1
          (by show p1.stov.set k _ = _; rw [hs1, List.set_set])
      have hstepq := planStep_trans hstep0 hstep
      refine ⟨hstepq, by rw [hf, hr]; simp [Bool.or_assoc], ?_⟩
      intro j c hj
      cases j with
      | zero =>
        simp at hj
        subst hj
        have hk1 : k < (p1.stov.set k
            (positionalEntry ops (some (.constant c)) k e)).length := by
          rw [List.length_set, hs1, List.length_set]; exact hklt
        have hgk := List.getElem?_eq_getElem hk1
        have hkq : k < q.stov.length := by rw [hstep.len]; exact hk1
        refine ⟨q.stov[k], List.getElem?_eq_getElem hkq, ?_⟩
        refine (hstep.entries k _ _ hgk (List.getElem?_eq_getElem hkq)).mono ?_
        simp only [List.getElem_set_self]
        exact hconst c rfl
      | succ j1 =>
        simp at hj
        obtain ⟨e1, he1, hs⟩ := hset j1 c hj
        refine ⟨e1, ?_, hs⟩
        rw [← he1]
        congr 1
        omega

/-- A completed loop over the row-tuples in the branch without a column
list. -/
theorem positionalTuples_ok (ops : TypeOps V T) (lits : V → Prop)
    (rows : List (ValueTuple V)) (p q : InsertPlan V T) (b f : Bool)
    (hl : ∀ row ∈ rows, ∀ c, some (AbstractExpression.constant c) ∈ row → lits c)
    (h : positionalTuples ops rows (p, b) = .ok (q, f)) :
    PlanStep ops lits p q ∧ f = (b || rows.any (fun row => row.any isParameter)) ∧
    ∀ row ∈ rows, ∀ (i : Nat) (c : V), row[i]? = some (some (.constant c)) →
      ∃ e1, q.stov[i]? = some e1 ∧ e1.set_value = true := by
  induction rows generalizing p b with
  | nil =>
    unfold positionalTuples at h
    cases h
    exact ⟨planStep_refl ops lits _, by simp, fun row hr => by cases hr⟩
  | cons row rest ih =>
    unfold positionalTuples at h
    by_cases hlen : row.length ≤ p.schema_col_count
    · rw [if_pos hlen] at h
      cases h1 : positionalTuple ops row 0 (p, b) with
      | error e => rw [h1] at h; cases h
      | ok s1 =>
        obtain ⟨p1, b1⟩ := s1
        rw [h1] at h
        simp only [] at h
        obtain ⟨hstep1, hb1, hset1⟩ := positionalTuple_ok ops lits row 0 p p1 b b1
          (hl row (List.mem_cons_self _ _)) h1
        obtain ⟨hstep2, hf, hset2⟩ := ih p1 b1
          (fun r hr => hl r (List.mem_cons_of_mem _ hr)) h
        refine ⟨planStep_trans hstep1 hstep2, by rw [hf, hb1]; simp [Bool.or_assoc], ?_⟩
        intro r hr i c hi
        rcases List.mem_cons.mp hr with rfl | hr1
        · obtain ⟨e1, he1, hs⟩ := hset1 i c hi
          rw [Nat.zero_add] at he1
          have hiq : i < q.stov.length := by
            rw [hstep2.len]; exact (List.getElem?_eq_some.mp he1).1
          exact ⟨q.stov[i], List.getElem?_eq_getElem hiq,
            (hstep2.entries i e1 _ he1 (List.getElem?_eq_getElem hiq)).mono hs⟩
        · exact hset2 r hr1 i c hi
    · rw [if_neg hlen] at h
      cases h

/-- The flag contribution of one entry for a row-tuple in the branch with a
column list. -/
theorem namedParamAt_eq (values : ValueTuple V) (p : InsertPlan V T) (i : Nat)
    (e : SchemaColsToInsertCols V T) (he : p.stov[i]? = some e) :
    namedParamAt values p i =
      (match namedExpr values e with
        | some expr => isParameter expr
        | none => false) := by
  simp [namedParamAt, he]

/-- A completed body of the loop over the schema columns. -/
theorem namedColumn_ok (ops : TypeOps V T) (values : ValueTuple V)
    (p q : InsertPlan V T) (b f : Bool) (idx : Nat)
    (h : namedColumn ops values (p, b) idx = .ok (q, f)) :
    ∃ e, p.stov[idx]? = some e ∧ q.target_table = p.target_table ∧ q.vtos = p.vtos ∧
      q.stov = p.stov.set idx (namedEntry ops values e) ∧
      f = (b || namedParamAt values p idx) ∧
      (∀ c, namedExpr values e = some (some (.constant c)) →
        (namedEntry ops values e).set_value = true) := by
  unfold namedColumn at h
  simp only [] at h
  cases he : p.stov[idx]? with
  | none => rw [he] at h; cases h
  | some e =>
    rw [he] at h
    simp only [] at h
    refine ⟨e, rfl, ?_⟩
    rw [namedParamAt_eq values p idx e he]
    by_cases hin : e.in_insert_cols = true
    · rw [if_pos hin] at h
      cases hx : values[e.val_idx]? with
      | none => rw [hx] at h; cases h
      | some exp =>
        rw [hx] at h
        simp only [] at h
        have hne : namedExpr values e = some exp := by simp [namedExpr, hin, hx]
        cases hp : ProcessValueExpr ops p exp idx with
        | error g => rw [hp] at h; cases h
        | ok res =>
          obtain ⟨p1, r⟩ := res
          rw [hp] at h
          obtain ⟨e0, he0, hr, ht, hv, hs, hconst⟩ := ProcessValueExpr_ok ops p p1 exp idx r hp
          cases h
          rw [he] at he0
          cases he0
          refine ⟨ht, hv, ?_, ?_, ?_⟩
          · rw [hs]; simp [namedEntry, hne]
          · rw [hne, hr]
          · intro c hc
            rw [hne] at hc
            cases hc
            simpa [namedEntry, hne] using hconst c rfl
    · rw [if_neg hin] at h
      have hne : namedExpr values e = none := by simp [namedExpr, hin]
      cases hd : SetDefaultValue ops p idx with
      | error g => rw [hd] at h; cases h
      | ok p1 =>
        rw [hd] at h
        obtain ⟨v, hv⟩ := SetDefaultValue_ok ops p p1 idx hd
        cases h
        subst hv
        refine ⟨rfl, rfl, ?_, ?_, ?_⟩
        · simp [InsertPlan.push, namedEntry, hne, set_self _ _ _ he]
        · rw [hne]; simp
        · intro c hc
          rw [hne] at hc
          cases hc

theorem entryStep_named (ops : TypeOps V T) (lits : V → Prop) (values : ValueTuple V)
    (e : SchemaColsToInsertCols V T)
    (hl : ∀ c, some (AbstractExpression.constant c) ∈ values → lits c) :
    EntryStep ops lits e (namedEntry ops values e) := by
  unfold namedEntry
  cases hne : namedExpr values e with
  | none => exact entryStep_refl ops lits e
  | some expr =>
    apply entryStep_classified
    intro c hc
    apply hl
    unfold namedExpr at hne
    by_cases hin : e.in_insert_cols = true
    · rw [if_pos hin] at hne
      rw [← hc]
      exact List.getElem?_mem hne
    · rw [if_neg hin] at hne
      cases hne

/-- A completed pass over the schema columns for one row-tuple. -/
theorem namedColumn_loop_ok (ops : TypeOps V T) (values : ValueTuple V)
    (p q : InsertPlan V T) (b f : Bool) (n : Nat)
    (h : (List.range n).foldlM (namedColumn ops values) (p, b) = .ok (q, f)) :
    q.target_table = p.target_table ∧ q.vtos = p.vtos ∧ q.stov.length = p.stov.length ∧
    (∀ i : Nat, q.stov[i]? =
      if i < n then (p.stov[i]?).map (namedEntry ops values) else p.stov[i]?) ∧
    f = (b || (List.range n).any (namedParamAt values p)) ∧
    (∀ (i : Nat) (e : SchemaColsToInsertCols V T) (c : V), i < n → p.stov[i]? = some e →
      namedExpr values e = some (some (.constant c)) →
      (namedEntry ops values e).set_value = true) := by
  have key := foldlM_range_partial (namedColumn ops values)
    (fun k s => s.1.target_table = p.target_table ∧ s.1.vtos = p.vtos ∧
      s.1.stov.length = p.stov.length ∧
      (∀ i : Nat, s.1.stov[i]? =
        if i < k then (p.stov[i]?).map (namedEntry ops values) else p.stov[i]?) ∧
      s.2 = (b || (List.range k).any (namedParamAt values p)) ∧
      (∀ (i : Nat) (e : SchemaColsToInsertCols V T) (c : V), i < k → p.stov[i]? = some e →
        namedExpr values e = some (some (.constant c)) →
        (namedEntry ops values e).set_value = true))
    n (p, b) ⟨rfl, rfl, rfl, by simp, by simp, fun i e c hi => absurd hi (Nat.not_lt_zero i)⟩
    ?_ (q, f) h
  · exact key
  · rintro k ⟨p1, b1⟩ ⟨p2, b2⟩ hk ⟨ht, hv, hl, hS, hb, hC⟩ hstep
    obtain ⟨e, he, ht2, hv2, hs2, hf2, hc2⟩ := namedColumn_ok ops values p1 p2 b1 b2 k hstep
    simp only [] at ht hv hl hS hb
    have hek : p.stov[k]? = some e := by
      have := hS k
      rw [if_neg (Nat.lt_irrefl k), he] at this
      exact this.symm
    have hpar : namedParamAt values p1 k = namedParamAt values p k := by
      rw [namedParamAt_eq values p1 k e he, namedParamAt_eq values p k e hek]
    refine ⟨ht2.trans ht, hv2.trans hv, by rw [hs2]; simpa using hl, ?_, ?_, ?_⟩
    · intro i
      show p2.stov[i]? = _
      rw [hs2, List.getElem?_set]
      by_cases hik : k = i
      · subst hik
        simp [(List.getElem?_eq_some.mp he).1, hek]
      · rw [if_neg hik, hS i]
        by_cases hlt : i < k
        · simp [hlt, Nat.lt_succ_of_lt hlt]
        · have : ¬ i < k + 1 := by omega
          simp [hlt, this]
    · show b2 = _
      rw [hf2, hb, hpar, List.range_succ, List.any_append]
      simp [Bool.or_assoc]
    · intro i e1 c hi he1 hne
      by_cases hlt : i < k
      · exact hC i e1 c hlt he1 hne
      · have : i = k := by omega
        subst this
        rw [hek] at he1
        cases he1
        exact hc2 c hne

theorem namedColumn_loop_step (ops : TypeOps V T) (lits : V → Prop) (values : ValueTuple V)
    (p q : InsertPlan V T) (b f : Bool) (n : Nat)
    (hl : ∀ c, some (AbstractExpression.constant c) ∈ values → lits c)
    (h : (List.range n).foldlM (namedColumn ops values) (p, b) = .ok (q, f)) :
    PlanStep ops lits p q := by
  obtain ⟨ht, hv, hlen, hS, _, _⟩ := namedColumn_loop_ok ops values p q b f n h
  refine ⟨ht, hv, hlen, ?_⟩
  intro i e e1 he he1
  rw [hS i, he] at he1
  by_cases hi : i < n
  · rw [if_pos hi] at he1
    simp only [Option.map_some', Option.some.injEq] at he1
    subst he1
    exact entryStep_named ops lits values e hl
  · rw [if_neg hi] at he1
    cases he1
    exact entryStep_refl ops lits e

/-- A completed body of the index adjustment loop. -/
theorem adjustColumn_ok (ops : TypeOps V T) (lits : V → Prop) (p q : InsertPlan V T)
    (a a1 idx : Nat) (h : adjustColumn (p, a) idx = .ok (q, a1)) :
    PlanStep ops lits p q := by
  unfold adjustColumn at h
  simp only [] at h
  cases hv : p.vtos[idx]? with
  | none => rw [hv] at h; cases h
  | some i =>
    rw [hv] at h
    simp only [] at h
    cases he : p.stov[i]? with
    | none => rw [he] at h; cases h
    | some e =>
      rw [he] at h
      simp only [] at h
      by_cases hs : e.set_value = true
      · rw [if_pos hs] at h
        cases h
        exact planStep_refl ops lits _
      · rw [if_neg hs] at h
        cases h
        exact planStep_set ops lits p _ i e _ he
          (entryStep_reindex ops lits e e.in_insert_cols (sub32 e.val_idx a)) rfl rfl rfl

theorem adjustIndexes_ok (ops : TypeOps V T) (lits : V → Prop) (m : Nat)
    (p q : InsertPlan V T) (h : adjustIndexes m p = .ok q) : PlanStep ops lits p q := by
  unfold adjustIndexes at h
  cases hf : (List.range m).foldlM adjustColumn (p, 0) with
  | error g => rw [hf] at h; cases h
  | ok s =>
    rw [hf] at h
    cases h
    exact foldlM_range_partial (adjustColumn (V := V) (T := T))
      (fun _ s1 => PlanStep ops lits p s1.1) m (p, 0) (planStep_refl ops lits p)
      (fun k s1 s2 _ hI hstep =>
        planStep_trans hI (adjustColumn_ok ops lits s1.1 s2.1 s1.2 s2.2 k hstep)) s hf

/-- A completed loop over the row-tuples in the branch with a column list: the
plan changed by allowed steps, and a raised flag stays raised. -/
theorem namedTuples_ok (ops : TypeOps V T) (lits : V → Prop) (m : Nat)
    (rows : List (ValueTuple V)) (p q : InsertPlan V T) (b f : Bool)
    (hl : ∀ row ∈ rows, ∀ c, some (AbstractExpression.constant c) ∈ row → lits c)
    (h : namedTuples ops m rows (p, b) = .ok (q, f)) :
    PlanStep ops lits p q ∧ (b = true → f = true) := by
  induction rows generalizing p b with
  | nil =>
    unfold namedTuples at h
    cases h
    exact ⟨planStep_refl ops lits _, fun hb => hb⟩
  | cons row rest ih =>
    unfold namedTuples at h
    by_cases hlen : row.length ≤ p.schema_col_count
    · rw [if_pos hlen] at h
      cases h1 : (List.range p.schema_col_count).foldlM (namedColumn ops row) (p, b) with
      | error g => rw [h1] at h; cases h
      | ok s1 =>
        obtain ⟨p1, b1⟩ := s1
        rw [h1] at h
        simp only [] at h
        have hstep1 := namedColumn_loop_step ops lits row p p1 b b1 _
          (hl row (List.mem_cons_self _ _)) h1
        have hb1 := (namedColumn_loop_ok ops row p p1 b b1 _ h1).2.2.2.2.1
        by_cases hp : b1 = true
        · rw [if_pos hp] at h
          cases h2 : adjustIndexes m p1 with
          | error g => rw [h2] at h; cases h
          | ok p2 =>
            rw [h2] at h
            simp only [] at h
            obtain ⟨hstep3, hmono⟩ := ih p2 b1
              (fun r hr => hl r (List.mem_cons_of_mem _ hr)) h
            exact ⟨planStep_trans (planStep_trans hstep1 (adjustIndexes_ok ops lits m p1 p2 h2)) hstep3,
              fun _ => hmono hp⟩
        · rw [if_neg hp] at h
          obtain ⟨hstep3, hmono⟩ := ih p1 b1
            (fun r hr => hl r (List.mem_cons_of_mem _ hr)) h
          refine ⟨planStep_trans hstep1 hstep3, ?_⟩
          intro hb
          rw [hb] at hb1
          simp at hb1
          exact absurd hb1 hp
    · rw [if_neg hlen] at h
      cases h

/-- With every user position still read by some entry, a row-tuple that holds
a parameter raises the flag. -/
theorem namedTuples_flag (ops : TypeOps V T) (m : Nat)
    (rows : List (ValueTuple V)) (p q : InsertPlan V T) (f : Bool)
    (hlen : p.stov.length = p.schema_col_count)
    (hcov : Covers m p)
    (hrows : ∀ row ∈ rows, row.length = m)
    (hph : ∃ row ∈ rows, some AbstractExpression.parameter ∈ row)
    (h : namedTuples ops m rows (p, false) = .ok (q, f)) : f = true := by
  induction rows generalizing p with
  | nil =>
    obtain ⟨row, hr, _⟩ := hph
    cases hr
  | cons row rest ih =>
    unfold namedTuples at h
    by_cases hl : row.length ≤ p.schema_col_count
    · rw [if_pos hl] at h
      cases h1 : (List.range p.schema_col_count).foldlM (namedColumn ops row) (p, false) with
      | error g => rw [h1] at h; cases h
      | ok s1 =>
        obtain ⟨p1, b1⟩ := s1
        rw [h1] at h
        simp only [] at h
        obtain ⟨ht, _, hlen1, hS, hb1, _⟩ := namedColumn_loop_ok ops row p p1 false b1 _ h1
        by_cases hp : b1 = true
        · rw [if_pos hp] at h
          cases h2 : adjustIndexes m p1 with
          | error g => rw [h2] at h; cases h
          | ok p2 =>
            rw [h2] at h
            simp only [] at h
            subst hp
            exact (namedTuples_ok ops (fun _ => True) m rest p2 q true f
              (fun _ _ _ _ => trivial) h).2 rfl
        · rw [if_neg hp] at h
          -- the row holds no parameter, so a later one does
          have hnone : some AbstractExpression.parameter ∉ row := by
            intro hmem
            obtain ⟨u, hu⟩ := List.mem_iff_getElem?.mp hmem
            have hum : u < m := by
              rw [← hrows row (List.mem_cons_self _ _)]
              exact (List.getElem?_eq_some.mp hu).1
            obtain ⟨idx, e, he, hin, hvi⟩ := hcov u hum
            have hidx : idx < p.schema_col_count := by
              rw [← hlen]; exact (List.getElem?_eq_some.mp he).1
            have hany : (List.range p.schema_col_count).any (namedParamAt row p) = true := by
              rw [List.any_eq_true]
              refine ⟨idx, List.mem_range.mpr hidx, ?_⟩
              rw [namedParamAt_eq row p idx e he]
              simp [namedExpr, hin, hvi, hu, isParameter]
            rw [hany] at hb1
            simp at hb1
            exact hp hb1
          have hb1f : b1 = false := by simpa using hp
          subst hb1f
          apply ih p1 (by rw [hlen1, hlen]; simp [InsertPlan.schema_col_count, ht]) ?_
            (fun r hr => hrows r (List.mem_cons_of_mem _ hr)) ?_ h
          · intro u hu
            obtain ⟨idx, e, he, hin, hvi⟩ := hcov u hu
            have hidx : idx < p.schema_col_count := by
              rw [← hlen]; exact (List.getElem?_eq_some.mp he).1
            obtain ⟨s1, s2, _⟩ := namedEntry_shape ops row e
            refine ⟨idx, namedEntry ops row e, ?_, by rw [s1]; exact hin, by rw [s2]; exact hvi⟩
            rw [hS idx, if_pos hidx, he]
            rfl
          · obtain ⟨r, hr, hpr⟩ := hph
            rcases List.mem_cons.mp hr with rfl | hr1
            · exact absurd hpr hnone
            · exact ⟨r, hr1, hpr⟩
    · rw [if_neg hl] at h
      cases h

/-- The constants that the listed columns read in the first row-tuple are
marked as resolved constants when the loop completes. -/
theorem namedTuples_first (ops : TypeOps V T) (m : Nat) (row : ValueTuple V)
    (rest : List (ValueTuple V)) (p q : InsertPlan V T) (b f : Bool)
    (h : namedTuples ops m (row :: rest) (p, b) = .ok (q, f))
    (i : Nat) (e : SchemaColsToInsertCols V T) (c : V)
    (hi : i < p.schema_col_count) (he : p.stov[i]? = some e)
    (hne : namedExpr row e = some (some (.constant c))) :
    ∃ e1, q.stov[i]? = some e1 ∧ e1.set_value = true := by
  unfold namedTuples at h
  by_cases hl : row.length ≤ p.schema_col_count
  · rw [if_pos hl] at h
    cases h1 : (List.range p.schema_col_count).foldlM (namedColumn ops row) (p, b) with
    | error g => rw [h1] at h; cases h
    | ok s1 =>
      obtain ⟨p1, b1⟩ := s1
      rw [h1] at h
      simp only [] at h
      obtain ⟨_, _, hlen1, hS, _, hC⟩ := namedColumn_loop_ok ops row p p1 b b1 _ h1
      have hp1 : p1.stov[i]? = some (namedEntry ops row e) := by
        rw [hS i, if_pos hi, he]; rfl
      have hsv := hC i e c hi he hne
      have hrest : ∃ p2, PlanStep ops (fun _ => True) p1 p2 ∧
          PlanStep ops (fun _ => True) p2 q := by
        by_cases hp : b1 = true
        · rw [if_pos hp] at h
          cases h2 : adjustIndexes m p1 with
          | error g => rw [h2] at h; cases h
          | ok p2 =>
            rw [h2] at h
            simp only [] at h
            exact ⟨p2, adjustIndexes_ok ops _ m p1 p2 h2,
              (namedTuples_ok ops _ m rest p2 q b1 f (fun _ _ _ _ => trivial) h).1⟩
        · rw [if_neg hp] at h
          exact ⟨p1, planStep_refl ops _ p1,
            (namedTuples_ok ops _ m rest p1 q b1 f (fun _ _ _ _ => trivial) h).1⟩
      obtain ⟨p2, hs1, hs2⟩ := hrest
      have hstep := planStep_trans hs1 hs2
      have hiq : i < q.stov.length := by
        rw [hstep.len]; exact (List.getElem?_eq_some.mp hp1).1
      exact ⟨q.stov[i], List.getElem?_eq_getElem hiq,
        (hstep.entries i _ _ hp1 (List.getElem?_eq_getElem hiq)).mono hsv⟩
  · rw [if_neg hl] at h
    cases h

/-- A completed `ProcessColumnSpec`: every listed name exists. -/
theorem ProcessColumnSpecFrom_ok (columns : List String) (u0 : Nat) (p p1 : InsertPlan V T)
    (h : ProcessColumnSpecFrom columns u0 p = .ok p1) :
    (∀ c ∈ columns, ∃ col ∈ p.target_table.schema, col.name = c) ∧
    p1.target_table = p.target_table ∧ p1.stov.length = p.stov.length := by
  induction columns generalizing u0 p with
  | nil =>
    unfold ProcessColumnSpecFrom at h
    cases h
    exact ⟨fun c hc => (by cases hc), rfl, rfl⟩
  | cons c rest ih =>
    unfold ProcessColumnSpecFrom at h
    cases hf : FindSchemaColIndex c p.target_table.schema with
    | none => rw [hf] at h; cases h
    | some i =>
      rw [hf] at h
      simp only [] at h
      cases he : p.stov[i]? with
      | none => rw [he] at h; cases h
      | some e =>
        rw [he] at h
        simp only [] at h
        obtain ⟨hex, ht, hl⟩ := ih _ _ h
        obtain ⟨col, hc, hn⟩ := FindSchemaColIndex_some hf
        refine ⟨?_, ht, by simpa using hl⟩
        intro c1 hc1
        rcases List.mem_cons.mp hc1 with rfl | hr
        · exact ⟨col, List.getElem?_mem hc, hn⟩
        · exact hex c1 hr

/-- A `ProcessColumnSpec` that stops: it throws for a listed name that no
schema column has. -/
theorem ProcessColumnSpecFrom_error (columns : List String) (u0 : Nat) (p : InsertPlan V T)
    (f : Failure V T)
    (hlen : p.stov.length = p.target_table.schema.length)
    (h : ProcessColumnSpecFrom columns u0 p = .error f) :
    ∃ c ∈ columns, f.kind = .unknownColumn c ∧
      ∀ col ∈ p.target_table.schema, col.name ≠ c := by
  induction columns generalizing u0 p with
  | nil =>
    unfold ProcessColumnSpecFrom at h
    cases h
  | cons c rest ih =>
    unfold ProcessColumnSpecFrom at h
    cases hf : FindSchemaColIndex c p.target_table.schema with
    | none =>
      rw [hf] at h
      cases h
      exact ⟨c, List.mem_cons_self _ _, rfl, FindSchemaColIndex_eq_none.mp hf⟩
    | some i =>
      rw [hf] at h
      simp only [] at h
      have hi : i < p.stov.length := by rw [hlen]; exact FindSchemaColIndex_lt hf
      rw [List.getElem?_eq_getElem hi] at h
      simp only [] at h
      obtain ⟨c1, hc1, hk, hno⟩ := ih _ _ (by simpa using hlen) h
      exact ⟨c1, List.mem_cons_of_mem _ hc1, hk, hno⟩

/-! ## Runs that stop -/

theorem foldlM_error {σ ε α : Type} (f : σ → α → Except ε σ) (Q : ε → Prop)
    (hstep : ∀ s a e, f s a = .error e → Q e) :
    ∀ (l : List α) (s : σ) (e : ε), l.foldlM f s = .error e → Q e := by
  intro l
  induction l with
  | nil => intro s e h; cases h
  | cons a rest ih =>
    intro s e h
    rw [List.foldlM_cons] at h
    cases h1 : f s a with
    | error e1 =>
      rw [h1] at h
      cases h
      exact hstep s a e h1
    | ok s1 =>
      rw [h1] at h
      exact ih s1 e h

theorem SetDefaultValue_error (ops : TypeOps V T) (p : InsertPlan V T) (idx : Nat)
    (f : Failure V T) (h : SetDefaultValue ops p idx = .error f) :
    f.kind = .invalidAccess := by
  unfold SetDefaultValue at h
  split at h
  · split at h <;> cases h
  · cases h; rfl

theorem ProcessValueExpr_error (ops : TypeOps V T) (p : InsertPlan V T)
    (expr : Option (AbstractExpression V)) (idx : Nat) (f : Failure V T)
    (h : ProcessValueExpr ops p expr idx = .error f) :
    ∀ c, f.kind ≠ .unknownColumn c := by
  intro c hc
  unfold ProcessValueExpr at h
  cases he : p.stov[idx]? with
  | none => rw [he] at h; cases h; cases hc
  | some e =>
    rw [he] at h
    cases expr with
    | none =>
      simp only [] at h
      cases hd : SetDefaultValue ops p idx with
      | error g =>
        rw [hd] at h
        cases h
        rw [SetDefaultValue_error ops p idx _ hd] at hc
        cases hc
      | ok p1 => rw [hd] at h; cases h
    | some x =>
      cases x with
      | constant v =>
        simp only [] at h
        cases hv : ops.castAs v e.type with
        | none => rw [hv] at h; cases h; cases hc
        | some w => rw [hv] at h; cases h
      | parameter => cases h
      | other => cases h; cases hc

theorem namedColumn_error (ops : TypeOps V T) (values : ValueTuple V)
    (s : InsertPlan V T × Bool) (idx : Nat) (f : Failure V T)
    (h : namedColumn ops values s idx = .error f) : ∀ c, f.kind ≠ .unknownColumn c := by
  intro c hc
  unfold namedColumn at h
  cases he : s.1.stov[idx]? with
  | none => rw [he] at h; cases h; cases hc
  | some e =>
    rw [he] at h
    simp only [] at h
    by_cases hin : e.in_insert_cols = true
    · rw [if_pos hin] at h
      cases hx : values[e.val_idx]? with
      | none => rw [hx] at h; cases h; cases hc
      | some exp =>
        rw [hx] at h
        simp only [] at h
        cases hp : ProcessValueExpr ops s.1 exp idx with
        | error g =>
          rw [hp] at h
          cases h
          exact ProcessValueExpr_error ops s.1 exp idx _ hp c hc
        | ok res => rw [hp] at h; cases h
    · rw [if_neg hin] at h
      cases hd : SetDefaultValue ops s.1 idx with
      | error g =>
        rw [hd] at h
        cases h
        rw [SetDefaultValue_error ops s.1 idx _ hd] at hc
        cases hc
      | ok p1 => rw [hd] at h; cases h

theorem adjustColumn_error (s : InsertPlan V T × Nat) (idx : Nat) (f : Failure V T)
    (h : adjustColumn s idx = .error f) : ∀ c, f.kind ≠ .unknownColumn c := by
  intro c hc
  unfold adjustColumn at h
  cases hv : s.1.vtos[idx]? with
  | none => rw [hv] at h; cases h; cases hc
  | some i =>
    rw [hv] at h
    simp only [] at h
    cases he : s.1.stov[i]? with
    | none => rw [he] at h; cases h; cases hc
    | some e =>
      rw [he] at h
      simp only [] at h
      split at h <;> cases h

theorem adjustIndexes_error (m : Nat) (p : InsertPlan V T) (f : Failure V T)
    (h : adjustIndexes m p = .error f) : ∀ c, f.kind ≠ .unknownColumn c := by
  unfold adjustIndexes at h
  cases hf : (List.range m).foldlM adjustColumn (p, 0) with
  | error g =>
    rw [hf] at h
    cases h
    exact foldlM_error adjustColumn (fun e => ∀ c, e.kind ≠ .unknownColumn c)
      (fun s a e hs => adjustColumn_error s a e hs) _ _ _ hf
  | ok s => rw [hf] at h; cases h

/-- The loop over the row-tuples never throws the unknown-column error. -/
theorem namedTuples_error (ops : TypeOps V T) (m : Nat) (rows : List (ValueTuple V))
    (s : InsertPlan V T × Bool) (f : Failure V T)
    (h : namedTuples ops m rows s = .error f) : ∀ c, f.kind ≠ .unknownColumn c := by
  induction rows generalizing s with
  | nil =>
    unfold namedTuples at h
    cases h
  | cons row rest ih =>
    obtain ⟨p, b⟩ := s
    unfold namedTuples at h
    by_cases hl : row.length ≤ p.schema_col_count
    · rw [if_pos hl] at h
      cases h1 : (List.range p.schema_col_count).foldlM (namedColumn ops row) (p, b) with
      | error g =>
        rw [h1] at h
        cases h
        exact foldlM_error (namedColumn ops row) (fun e => ∀ c, e.kind ≠ .unknownColumn c)
          (fun s a e hs => namedColumn_error ops row s a e hs) _ _ _ h1
      | ok s1 =>
        obtain ⟨p1, b1⟩ := s1
        rw [h1] at h
        simp only [] at h
        by_cases hp : b1 = true
        · rw [if_pos hp] at h
          cases h2 : adjustIndexes m p1 with
          | error g =>
            rw [h2] at h
            cases h
            exact adjustIndexes_error m p1 _ h2
          | ok p2 =>
            rw [h2] at h
            exact ih _ h
        · rw [if_neg hp] at h
          exact ih _ h
    · rw [if_neg hl] at h
      cases h
      intro c hc
      cases hc

/-! ## Row-tuples longer than the schema -/

theorem positionalTuples_cons (ops : TypeOps V T) (row : ValueTuple V)
    (rest : List (ValueTuple V)) (p : InsertPlan V T) (b : Bool) :
    positionalTuples ops (row :: rest) (p, b) =
      if row.length ≤ p.schema_col_count then
        match positionalTuple ops row 0 (p, b) with
        | .error f => .error f
        | .ok s1 => positionalTuples ops rest s1
      else .error ⟨.contractViolation, p⟩ := by
  rw [positionalTuples]

theorem namedTuples_cons (ops : TypeOps V T) (m : Nat) (row : ValueTuple V)
    (rest : List (ValueTuple V)) (p : InsertPlan V T) (b : Bool) :
    namedTuples ops m (row :: rest) (p, b) =
      if row.length ≤ p.schema_col_count then
        match (List.range p.schema_col_count).foldlM (namedColumn ops row) (p, b) with
        | .error f => .error f
        | .ok (p1, prepared1) =>
          if prepared1 then
            match adjustIndexes m p1 with
            | .error f => .error f
            | .ok p2 => namedTuples ops m rest (p2, prepared1)
          else namedTuples ops m rest (p1, prepared1)
      else .error ⟨.contractViolation, p⟩ := by
  rw [namedTuples]

theorem positionalTuples_append (ops : TypeOps V T) (pre rest : List (ValueTuple V))
    (s : InsertPlan V T × Bool) :
    positionalTuples ops (pre ++ rest) s =
      (match positionalTuples ops pre s with
        | .error f => .error f
        | .ok s1 => positionalTuples ops rest s1) := by
  induction pre generalizing s with
  | nil => simp [positionalTuples]
  | cons row more ih =>
    obtain ⟨p, b⟩ := s
    rw [List.cons_append, positionalTuples_cons, positionalTuples_cons]
    by_cases hl : row.length ≤ p.schema_col_count
    · rw [if_pos hl, if_pos hl]
      cases h1 : positionalTuple ops row 0 (p, b) with
      | error g => rfl
      | ok s1 => exact ih s1
    · rw [if_neg hl, if_neg hl]

theorem namedTuples_append (ops : TypeOps V T) (m : Nat) (pre rest : List (ValueTuple V))
    (s : InsertPlan V T × Bool) :
    namedTuples ops m (pre ++ rest) s =
      (match namedTuples ops m pre s with
        | .error f => .error f
        | .ok s1 => namedTuples ops m rest s1) := by
  induction pre generalizing s with
  | nil => simp [namedTuples]
  | cons row more ih =>
    obtain ⟨p, b⟩ := s
    rw [List.cons_append, namedTuples_cons, namedTuples_cons]
    by_cases hl : row.length ≤ p.schema_col_count
    · rw [if_pos hl, if_pos hl]
      cases h1 : (List.range p.schema_col_count).foldlM (namedColumn ops row) (p, b) with
      | error g => rfl
      | ok s1 =>
        obtain ⟨p1, b1⟩ := s1
        simp only []
        by_cases hp : b1 = true
        · rw [if_pos hp, if_pos hp]
          cases h2 : adjustIndexes m p1 with
          | error g => rfl
          | ok p2 => exact ih _
        · rw [if_neg hp, if_neg hp]
          exact ih _
    · rw [if_neg hl, if_neg hl]

/-- A list of row-tuples with one longer than the schema is never processed
to the end (no column list). -/
theorem positionalTuples_rejects (ops : TypeOps V T) (rows : List (ValueTuple V))
    (p : InsertPlan V T) (b : Bool)
    (hlong : ∃ row ∈ rows, p.schema_col_count < row.length) :
    ∃ f, positionalTuples ops rows (p, b) = .error f := by
  induction rows generalizing p b with
  | nil =>
    obtain ⟨row, hr, _⟩ := hlong
    cases hr
  | cons row rest ih =>
    unfold positionalTuples
    by_cases hl : row.length ≤ p.schema_col_count
    · rw [if_pos hl]
      cases h1 : positionalTuple ops row 0 (p, b) with
      | error g => exact ⟨g, rfl⟩
      | ok s1 =>
        obtain ⟨p1, b1⟩ := s1
        have ht := (positionalTuple_ok ops (fun _ => True) row 0 p p1 b b1
          (fun _ _ => trivial) h1).1.table
        apply ih
        obtain ⟨r, hr, hlt⟩ := hlong
        rcases List.mem_cons.mp hr with rfl | hr1
        · omega
        · exact ⟨r, hr1, by simpa [InsertPlan.schema_col_count, ht] using hlt⟩
    · rw [if_neg hl]
      exact ⟨_, rfl⟩

/-- A list of row-tuples with one longer than the schema is never processed
to the end (column list). -/
theorem namedTuples_rejects (ops : TypeOps V T) (m : Nat) (rows : List (ValueTuple V))
    (p : InsertPlan V T) (b : Bool)
    (hlong : ∃ row ∈ rows, p.schema_col_count < row.length) :
    ∃ f, namedTuples ops m rows (p, b) = .error f := by
  induction rows generalizing p b with
  | nil =>
    obtain ⟨row, hr, _⟩ := hlong
    cases hr
  | cons row rest ih =>
    unfold namedTuples
    by_cases hl : row.length ≤ p.schema_col_count
    · rw [if_pos hl]
      have hrest : ∃ r ∈ rest, p.schema_col_count < r.length := by
        obtain ⟨r, hr, hlt⟩ := hlong
        rcases List.mem_cons.mp hr with rfl | hr1
        · omega
        · exact ⟨r, hr1, hlt⟩
      cases h1 : (List.range p.schema_col_count).foldlM (namedColumn ops row) (p, b) with
      | error g => exact ⟨g, rfl⟩
      | ok s1 =>
        obtain ⟨p1, b1⟩ := s1
        have ht := (namedColumn_loop_ok ops row p p1 b b1 _ h1).1
        simp only []
        by_cases hp : b1 = true
        · rw [if_pos hp]
          cases h2 : adjustIndexes m p1 with
          | error g => exact ⟨g, rfl⟩
          | ok p2 =>
            have ht2 := (adjustIndexes_ok ops (fun _ => True) m p1 p2 h2).table
            apply ih
            obtain ⟨r, hr1, hlt⟩ := hrest
            exact ⟨r, hr1, by simpa [InsertPlan.schema_col_count, ht, ht2] using hlt⟩
        · rw [if_neg hp]
          apply ih
          obtain ⟨r, hr1, hlt⟩ := hrest
          exact ⟨r, hr1, by simpa [InsertPlan.schema_col_count, ht] using hlt⟩
    · rw [if_neg hl]
      exact ⟨_, rfl⟩

/-! ## `SetParameterValues` -/

theorem setParameterColumn_eq (ops : TypeOps V T) (values : List V) (p : InsertPlan V T)
    (idx : Nat) (e : SchemaColsToInsertCols V T) (col : Column V T)
    (he : p.stov[idx]? = some e) (hc : p.target_table.schema[idx]? = some col) :
    setParameterColumn ops values p idx =
      if e.set_value then .ok (p.push e.value)
      else if e.in_insert_cols then
        match values[e.val_idx]? with
        | none => .error ⟨.outOfRange, p⟩
        | some v =>
          match ops.castAs v e.type with
          | none => .error ⟨.conversion, p⟩
          | some value => .ok (p.push value)
      else .ok (p.push (defaultValue ops col e.type)) := by
  unfold setParameterColumn
  rw [he]
  simp only []
  rw [SetDefaultValue_eq ops p idx e col he hc]

/-- The row that one call of `SetParameterValues` appends, column by column. -/
theorem SetParameterValues_row (ops : TypeOps V T) (p : InsertPlan V T) (values : List V)
    (hstov : p.stov.length = p.schema_col_count)
    (hsize : values.length ≤ p.schema_col_count)
    (hfetch : ∀ (idx : Nat) (e : SchemaColsToInsertCols V T),
      p.stov[idx]? = some e → e.set_value = false →
      e.in_insert_cols = true →
      ∃ v w, values[e.val_idx]? = some v ∧ ops.castAs v e.type = some w) :
    ∃ row : List V,
      SetParameterValues ops p values = .ok { p with values := p.values ++ row } ∧
      row.length = p.schema_col_count ∧
      ∀ (idx : Nat) (e : SchemaColsToInsertCols V T) (col : Column V T),
        p.stov[idx]? = some e → p.target_table.schema[idx]? = some col →
        row[idx]? =
          if e.set_value then some e.value
          else if e.in_insert_cols then
            (values[e.val_idx]?).bind (fun v => ops.castAs v e.type)
          else some (defaultValue ops col e.type) := by
  unfold SetParameterValues
  rw [if_pos hsize]
  have key := foldlM_range_invariant (setParameterColumn ops values)
    (fun k s => ∃ row : List V, s = { p with values := p.values ++ row } ∧ row.length = k ∧
      ∀ (idx : Nat) (e : SchemaColsToInsertCols V T) (col : Column V T),
        idx < k → p.stov[idx]? = some e →
        p.target_table.schema[idx]? = some col →
        row[idx]? =
          if e.set_value then some e.value
          else if e.in_insert_cols then
            (values[e.val_idx]?).bind (fun v => ops.castAs v e.type)
          else some (defaultValue ops col e.type))
    p.schema_col_count p ⟨[], by simp, rfl, by intro idx e col h; omega⟩ ?_
  · obtain ⟨s2, h2, row, hs, hlen, hrow⟩ := key
    refine ⟨row, by rw [h2, hs], hlen, ?_⟩
    intro idx e col he hc
    refine hrow idx e col ?_ he hc
    have := (List.getElem?_eq_some.mp he).1
    rw [hstov] at this; exact this
  · rintro k s1 hk ⟨row, rfl, hlen, hrow⟩
    have hk1 : k < p.stov.length := by rw [hstov]; exact hk
    have hk2 : k < p.target_table.schema.length := hk
    have he : p.stov[k]? = some p.stov[k] := List.getElem?_eq_getElem hk1
    have hc : p.target_table.schema[k]? = some p.target_table.schema[k] :=
      List.getElem?_eq_getElem hk2
    generalize p.stov[k] = e at he
    generalize p.target_table.schema[k] = col at hc
    -- the value appended at step `k`
    have hval : ∃ x : V, setParameterColumn ops values { p with values := p.values ++ row } k
          = .ok { p with values := p.values ++ (row ++ [x]) } ∧
        some x = (if e.set_value then some e.value
          else if e.in_insert_cols then
            (values[e.val_idx]?).bind (fun v => ops.castAs v e.type)
          else some (defaultValue ops col e.type)) := by
      rw [setParameterColumn_eq ops values { p with values := p.values ++ row } k e col he hc]
      by_cases hsv : e.set_value = true
      · exact ⟨e.value, by simp [hsv, InsertPlan.push], by simp [hsv]⟩
      · by_cases hin : e.in_insert_cols = true
        · obtain ⟨v, w, hv, hw⟩ := hfetch k e he (by simpa using hsv) hin
          exact ⟨w, by simp [hsv, hin, hv, hw, InsertPlan.push], by simp [hsv, hin, hv, hw]⟩
        · exact ⟨defaultValue ops col e.type, by simp [hsv, hin, InsertPlan.push],
            by simp [hsv, hin]⟩
    obtain ⟨x, hx, hxv⟩ := hval
    refine ⟨_, hx, row ++ [x], rfl, by simp [hlen], ?_⟩
    intro idx e1 col1 hidx he1 hc1
    by_cases hlt : idx < k
    · rw [List.getElem?_append_left (by omega)]
      exact hrow idx e1 col1 hlt he1 hc1
    · have hik : idx = k := by omega
      subst hik
      rw [he] at he1; rw [hc] at hc1
      cases he1; cases hc1
      rw [← hlen, List.getElem?_concat_length]
      exact hxv

/-! ## What `SetParameterValues` leaves unchanged -/

/-- A loop whose body keeps `I` when it completes and ends in `Q` when it
stops keeps `I` when it completes and ends in `Q` when it stops. -/
theorem foldlM_state_frame {σ ε α : Type} (f : σ → α → Except ε σ) (I : σ → Prop)
    (Q : ε → Prop) (hok : ∀ s a s1, I s → f s a = .ok s1 → I s1)
    (herr : ∀ s a e, I s → f s a = .error e → Q e) :
    ∀ (l : List α) (s : σ), I s →
      (∀ s1, l.foldlM f s = .ok s1 → I s1) ∧ (∀ e, l.foldlM f s = .error e → Q e) := by
  intro l
  induction l with
  | nil =>
    intro s hs
    constructor
    · intro s1 h
      cases h
      exact hs
    · intro e h
      cases h
  | cons a l ih =>
    intro s hs
    rw [List.foldlM_cons]
    cases h : f s a with
    | error e =>
      constructor
      · intro s1 h1
        cases h1
      · intro e1 h1
        cases h1
        exact herr s a e hs h
    | ok s1 => exact ih s1 (hok s a s1 hs h)

/-- One step of `SetParameterValues` pushes one value, the same one for every
plan with the same `stov_` and table, or stops in the state it started in. -/
theorem setParameterColumn_step (ops : TypeOps V T) (values : List V)
    (p : InsertPlan V T) (idx : Nat) :
    (∀ p1, setParameterColumn ops values p idx = .ok p1 →
      ∃ v, p1 = p.push v ∧ ∀ q : InsertPlan V T, q.stov = p.stov →
        q.target_table = p.target_table →
        setParameterColumn ops values q idx = .ok (q.push v)) ∧
    (∀ f, setParameterColumn ops values p idx = .error f → f.state = p) := by
  unfold setParameterColumn SetDefaultValue
  cases he : p.stov[idx]? with
  | none =>
    constructor
    · intro p1 h
      cases h
    · intro f h
      cases h
      rfl
  | some e =>
    by_cases hs : e.set_value = true
    · simp only [hs, if_true]
      constructor
      · intro p1 h
        cases h
        refine ⟨e.value, rfl, fun q hq _ => ?_⟩
        rw [hq, he]
        simp [hs]
      · intro f h
        cases h
    · by_cases hi : e.in_insert_cols = true
      · simp only [hs, hi, if_true, if_false]
        cases hv : values[e.val_idx]? with
        | none =>
          constructor
          · intro p1 h
            cases h
          · intro f h
            cases h
            rfl
        | some v =>
          cases hc : ops.castAs v e.type with
          | none =>
            constructor
            · intro p1 h
              simp only [hc] at h
              cases h
            · intro f h
              simp only [hc] at h
              cases h
              rfl
          | some w =>
            constructor
            · intro p1 h
              simp only [hc] at h
              cases h
              refine ⟨w, rfl, fun q hq _ => ?_⟩
              rw [hq, he]
              simp [hs, hi, hv, hc]
            · intro f h
              simp only [hc] at h
              cases h
      · simp only [hs, hi, if_false]
        cases hcol : p.target_table.schema[idx]? with
        | none =>
          constructor
          · intro p1 h
            cases h
          · intro f h
            cases h
            rfl
        | some col =>
          cases hd : col.default_value with
          | none =>
            constructor
            · intro p1 h
              simp only [hd] at h
              cases h
              refine ⟨ops.nullValueByType e.type, rfl, fun q hq ht => ?_⟩
              rw [hq, ht, he, hcol]
              simp [hs, hi, hd]
            · intro f h
              simp only [hd] at h
              cases h
          | some d =>
            constructor
            · intro p1 h
              simp only [hd] at h
              cases h
              refine ⟨d, rfl, fun q hq ht => ?_⟩
              rw [hq, ht, he, hcol]
              simp [hs, hi, hd]
            · intro f h
              simp only [hd] at h
              cases h

/-- Pushing onto a plan with a replaced buffer. -/
theorem withValues_push (p : InsertPlan V T) (row : List V) (v : V) :
    (p.withValues (p.values ++ row)).push v = p.withValues (p.values ++ (row ++ [v])) := by
  simp [InsertPlan.push, InsertPlan.withValues]

/-- A call of `SetParameterValues`, completed or not, leaves a plan that
differs from the one before in its buffer only, which is the old buffer
followed by new values. When the call completes, every plan with the same
`stov_` and table gets the same new values. -/
theorem SetParameterValues_frame (ops : TypeOps V T) (p : InsertPlan V T)
    (values : List V) :
    (∀ p1, SetParameterValues ops p values = .ok p1 →
      ∃ row, p1 = p.withValues (p.values ++ row) ∧
        ∀ q : InsertPlan V T, q.stov = p.stov → q.target_table = p.target_table →
          SetParameterValues ops q values = .ok (q.withValues (q.values ++ row))) ∧
    (∀ f, SetParameterValues ops p values = .error f →
      ∃ row, f.state = p.withValues (p.values ++ row)) := by
  unfold SetParameterValues
  by_cases hsize : values.length ≤ p.schema_col_count
  · simp only [hsize, if_true]
    constructor
    · intro p1 h
      have inv := foldlM_range_partial (setParameterColumn ops values)
        (fun k s => ∃ row, s = p.withValues (p.values ++ row) ∧
          ∀ q : InsertPlan V T, q.stov = p.stov → q.target_table = p.target_table →
            (List.range k).foldlM (setParameterColumn ops values) q =
              .ok (q.withValues (q.values ++ row)))
        p.schema_col_count p
        ⟨[], by simp [InsertPlan.withValues], fun q _ _ => by
          simp [InsertPlan.withValues, pure, Except.pure]⟩
        (by
          intro k s1 s2 _ hI hstep
          obtain ⟨row, hs1, hq⟩ := hI
          obtain ⟨v, hs2, hv⟩ := (setParameterColumn_step ops values s1 k).1 s2 hstep
          refine ⟨row ++ [v], ?_, fun q hqs hqt => ?_⟩
          · rw [hs2, hs1, withValues_push]
          · rw [foldlM_range_succ, hq q hqs hqt]
            have := hv (q.withValues (q.values ++ row))
              (by rw [hs1]; exact hqs) (by rw [hs1]; exact hqt)
            simp only [this]
            have hpush := withValues_push q row v
            rw [hpush])
        p1 h
      obtain ⟨row, hp1, hq⟩ := inv
      refine ⟨row, hp1, fun q hqs hqt => ?_⟩
      have hn : q.schema_col_count = p.schema_col_count := by
        simp [InsertPlan.schema_col_count, hqt]
      rw [hn]
      simp only [hsize, if_true]
      exact hq q hqs hqt
    · intro f h
      exact (foldlM_state_frame (setParameterColumn ops values)
        (fun s => ∃ row, s = p.withValues (p.values ++ row))
        (fun f => ∃ row, f.state = p.withValues (p.values ++ row))
        (by
          intro s a s1 hI hstep
          obtain ⟨row, hs⟩ := hI
          obtain ⟨v, hs1, _⟩ := (setParameterColumn_step ops values s a).1 s1 hstep
          exact ⟨row ++ [v], by rw [hs1, hs, withValues_push]⟩)
        (by
          intro s a e hI hstep
          obtain ⟨row, hs⟩ := hI
          exact ⟨row, by rw [(setParameterColumn_step ops values s a).2 e hstep, hs]⟩)
        (List.range p.schema_col_count) p ⟨[], by simp [InsertPlan.withValues]⟩).2 f h
  · simp only [hsize, if_false]
    constructor
    · intro p1 h
      cases h
    · intro f h
      cases h
      exact ⟨[], by simp [InsertPlan.withValues]⟩

/-- Any number of completed calls of `SetParameterValues` leave a plan that
differs from the first one in its buffer only. -/
theorem SetParameterValues_calls (ops : TypeOps V T) (p : InsertPlan V T)
    (calls : List (List V)) (p1 : InsertPlan V T)
    (h : calls.foldlM (SetParameterValues ops) p = .ok p1) :
    ∃ buffer, p1 = p.withValues buffer := by
  refine (foldlM_state_frame (SetParameterValues ops)
    (fun s => ∃ buffer, s = p.withValues buffer) (fun _ => True) ?_
    (fun _ _ _ _ _ => trivial) calls p ⟨p.values, rfl⟩).1 p1 h
  intro s values s1 hI hstep
  obtain ⟨buffer, hs⟩ := hI
  obtain ⟨row, hs1, _⟩ := (SetParameterValues_frame ops s values).1 s1 hstep
  exact ⟨s.values ++ row, by rw [hs1, hs]; rfl⟩

/-! ## Resolved constants are insert columns -/

/-- The three cases of the column invariant exclude exactly an entry that is
a resolved constant without being an insert column. -/
theorem columnInvariant_iff (e : SchemaColsToInsertCols V T) :
    ColumnInvariant e ↔ (e.set_value = true → e.in_insert_cols = true) := by
  unfold ColumnInvariant ExactlyOne
  cases e.in_insert_cols <;> cases e.set_value <;> simp

/-- Replacing an entry by one that satisfies the invariant keeps it. -/
theorem constantsListed_set (S : List (SchemaColsToInsertCols V T)) (i : Nat)
    (e1 : SchemaColsToInsertCols V T) (hS : ConstantsListed S)
    (h1 : e1.set_value = true → e1.in_insert_cols = true) :
    ConstantsListed (S.set i e1) := by
  intro e he
  rcases List.mem_or_eq_of_mem_set he with h | h
  · exact hS e h
  · rw [h]; exact h1

/-- The initial plan has no resolved constant. -/
theorem initialPlan_listed (ops : TypeOps V T) (table : DataTable V T)
    (columns : List String) (rows : List (ValueTuple V)) :
    ConstantsListed (initialPlan ops table columns rows).stov := by
  intro e he hs
  simp only [initialPlan, List.mem_map] at he
  obtain ⟨col, _, rfl⟩ := he
  cases hs

/-- The entry left by a row-tuple of the branch with a column list. -/
theorem namedEntry_listed (ops : TypeOps V T) (values : ValueTuple V)
    (e : SchemaColsToInsertCols V T)
    (he : e.set_value = true → e.in_insert_cols = true) :
    (namedEntry ops values e).set_value = true →
      (namedEntry ops values e).in_insert_cols = true := by
  intro hs
  rw [(namedEntry_shape ops values e).1]
  cases hi : e.in_insert_cols
  · have : namedEntry ops values e = e := by simp [namedEntry, namedExpr, hi]
    rw [this] at hs
    rw [he hs] at hi
    cases hi
  · rfl

/-- The invariant through `ProcessColumnSpec`. -/
theorem ProcessColumnSpecFrom_listed (columns : List String) :
    ∀ (u0 : Nat) (p p1 : InsertPlan V T), ConstantsListed p.stov →
      ProcessColumnSpecFrom columns u0 p = .ok p1 → ConstantsListed p1.stov := by
  induction columns with
  | nil =>
    intro u0 p p1 hp h
    simp only [ProcessColumnSpecFrom] at h
    cases h
    exact hp
  | cons c rest ih =>
    intro u0 p p1 hp h
    rw [ProcessColumnSpecFrom] at h
    cases hf : FindSchemaColIndex c p.target_table.schema with
    | none => simp only [hf] at h; cases h
    | some idx =>
      simp only [hf] at h
      cases he : p.stov[idx]? with
      | none => simp only [he] at h; cases h
      | some e =>
        simp only [he] at h
        exact ih _ _ p1 (constantsListed_set _ _ _ hp (fun _ => rfl)) h

/-- The invariant through one row-tuple of the branch without a column list. -/
theorem positionalTuple_listed (ops : TypeOps V T) (row : ValueTuple V) :
    ∀ (k : Nat) (p q : InsertPlan V T) (b f : Bool), ConstantsListed p.stov →
      positionalTuple ops row k (p, b) = .ok (q, f) → ConstantsListed q.stov := by
  induction row with
  | nil =>
    intro k p q b f hp h
    simp only [positionalTuple] at h
    cases h
    exact hp
  | cons exp rest ih =>
    intro k p q b f hp h
    rw [positionalTuple] at h
    cases hv : ProcessValueExpr ops p exp k with
    | error e => simp only [hv] at h; cases h
    | ok s =>
      obtain ⟨p1, r⟩ := s
      simp only [hv] at h
      obtain ⟨e, he, _, _, _, hstov, _⟩ := ProcessValueExpr_ok ops p p1 exp k r hv
      cases he1 : p1.stov[k]? with
      | none => simp only [he1] at h; cases h
      | some e1 =>
        simp only [he1] at h
        refine ih _ _ q _ f ?_ h
        dsimp only
        rw [hstov, List.set_set]
        exact constantsListed_set _ _ _ hp (fun _ => rfl)

/-- The invariant through the row-tuples of the branch without a column list. -/
theorem positionalTuples_listed (ops : TypeOps V T) (rows : List (ValueTuple V)) :
    ∀ (p q : InsertPlan V T) (b f : Bool), ConstantsListed p.stov →
      positionalTuples ops rows (p, b) = .ok (q, f) → ConstantsListed q.stov := by
  induction rows with
  | nil =>
    intro p q b f hp h
    simp only [positionalTuples] at h
    cases h
    exact hp
  | cons row rest ih =>
    intro p q b f hp h
    rw [positionalTuples_cons] at h
    by_cases hlen : row.length ≤ p.schema_col_count
    · simp only [hlen, if_true] at h
      cases hrow : positionalTuple ops row 0 (p, b) with
      | error e => simp only [hrow] at h; cases h
      | ok s1 =>
        obtain ⟨p1, b1⟩ := s1
        simp only [hrow] at h
        exact ih p1 q b1 f (positionalTuple_listed ops row 0 p p1 b b1 hp hrow) h
    · simp only [hlen, if_false] at h
      cases h

/-- The invariant through the loop over the schema columns for one
row-tuple of the branch with a column list. -/
theorem namedColumn_loop_listed (ops : TypeOps V T) (values : ValueTuple V)
    (p q : InsertPlan V T) (b f : Bool) (n : Nat) (hp : ConstantsListed p.stov)
    (h : (List.range n).foldlM (namedColumn ops values) (p, b) = .ok (q, f)) :
    ConstantsListed q.stov := by
  have inv := (foldlM_state_frame (namedColumn ops values)
    (fun s => ConstantsListed s.1.stov) (fun _ => True) ?_ (fun _ _ _ _ _ => trivial)
    (List.range n) (p, b) hp).1 (q, f) h
  · exact inv
  · intro s idx s1 hs hstep
    obtain ⟨p0, b0⟩ := s
    obtain ⟨p1, b1⟩ := s1
    obtain ⟨e, he, _, _, hstov, _⟩ := namedColumn_ok ops values p0 p1 b0 b1 idx hstep
    dsimp only
    rw [hstov]
    exact constantsListed_set _ _ _ hs
      (namedEntry_listed ops values e (hs e (List.getElem?_mem he)))

/-- The invariant through one step of the index adjustment pass. -/
theorem adjustColumn_listed (s s1 : InsertPlan V T × Nat) (idx : Nat)
    (hs : ConstantsListed s.1.stov) (h : adjustColumn s idx = .ok s1) :
    ConstantsListed s1.1.stov := by
  unfold adjustColumn at h
  cases hv : s.1.vtos[idx]? with
  | none => simp only [hv] at h; cases h
  | some stov_idx =>
    simp only [hv] at h
    cases he : s.1.stov[stov_idx]? with
    | none => simp only [he] at h; cases h
    | some e =>
      simp only [he] at h
      by_cases hset : e.set_value = true
      · simp only [hset, if_true] at h
        cases h
        exact hs
      · simp only [hset, if_false] at h
        cases h
        exact constantsListed_set _ _ _ hs (fun hx => by simp at hx)

/-- The invariant through the index adjustment pass. -/
theorem adjustIndexes_listed (m : Nat) (p q : InsertPlan V T)
    (hp : ConstantsListed p.stov) (h : adjustIndexes m p = .ok q) :
    ConstantsListed q.stov := by
  unfold adjustIndexes at h
  cases hl : (List.range m).foldlM adjustColumn (p, 0) with
  | error e => simp only [hl] at h; cases h
  | ok s =>
    simp only [hl] at h
    cases h
    exact (foldlM_state_frame (adjustColumn (V := V) (T := T))
      (fun s => ConstantsListed s.1.stov) (fun _ => True)
      (fun s a s1 hs hstep => adjustColumn_listed s s1 a hs hstep)
      (fun _ _ _ _ _ => trivial) (List.range m) (p, 0) hp).1 s hl

/-- The invariant through the row-tuples of the branch with a column list. -/
theorem namedTuples_listed (ops : TypeOps V T) (m : Nat) (rows : List (ValueTuple V)) :
    ∀ (p q : InsertPlan V T) (b f : Bool), ConstantsListed p.stov →
      namedTuples ops m rows (p, b) = .ok (q, f) → ConstantsListed q.stov := by
  induction rows with
  | nil =>
    intro p q b f hp h
    simp only [namedTuples] at h
    cases h
    exact hp
  | cons row rest ih =>
    intro p q b f hp h
    rw [namedTuples_cons] at h
    by_cases hlen : row.length ≤ p.schema_col_count
    · simp only [hlen, if_true] at h
      cases hrow : (List.range p.schema_col_count).foldlM (namedColumn ops row) (p, b) with
      | error e => simp only [hrow] at h; cases h
      | ok s1 =>
        obtain ⟨p1, b1⟩ := s1
        simp only [hrow] at h
        have hp1 := namedColumn_loop_listed ops row p p1 b b1 _ hp hrow
        cases hb1 : b1 with
        | false =>
          simp only [hb1] at h
          exact ih p1 q false f hp1 h
        | true =>
          simp only [hb1, if_true] at h
          cases hadj : adjustIndexes m p1 with
          | error e => simp only [hadj] at h; cases h
          | ok p2 =>
            simp only [hadj] at h
            exact ih p2 q true f (adjustIndexes_listed m p1 p2 hp1 hadj) h
    · simp only [hlen, if_false] at h
      cases h

/-- The invariant after a completed construction. -/
theorem constructInsertPlan_listed (ops : TypeOps V T) (table : DataTable V T)
    (columns : List String) (rows : List (ValueTuple V)) (p : InsertPlan V T)
    (h : constructInsertPlan ops table columns rows = .ok p) :
    ConstantsListed p.stov := by
  unfold constructInsertPlan at h
  cases hb : buildMapping ops table columns rows with
  | error e => simp only [hb] at h; cases h
  | ok s =>
    obtain ⟨q, f⟩ := s
    simp only [hb] at h
    have hq : ConstantsListed q.stov := by
      unfold buildMapping at hb
      simp only at hb
      by_cases hc : columns.isEmpty = true
      · simp only [hc, if_true] at hb
        exact positionalTuples_listed ops rows _ q false f
          (initialPlan_listed ops table columns rows) hb
      · simp only [hc] at hb
        by_cases hlen : columns.length ≤ (initialPlan ops table columns rows).schema_col_count
        · simp only [hlen, if_true] at hb
          cases hpc : ProcessColumnSpec columns (initialPlan ops table columns rows) with
          | error e => simp only [hpc] at hb; cases hb
          | ok p1 =>
            simp only [hpc] at hb
            exact namedTuples_listed ops columns.length rows p1 q false f
              (ProcessColumnSpecFrom_listed columns 0 _ p1
                (initialPlan_listed ops table columns rows) hpc) hb
        · simp only [hlen, if_false] at hb
          cases hb
    cases f with
    | false =>
      rw [if_neg Bool.false_ne_true] at h
      cases h
      exact hq
    | true =>
      rw [if_pos rfl] at h
      cases h
      exact hq

/-- The position `FindSchemaColIndex` returns is the first one with the name. -/
theorem FindSchemaColIndex_first {name : String} {schema : List (Column V T)} {i : Nat}
    (h : FindSchemaColIndex name schema = some i) :
    ∀ (j : Nat) (col : Column V T), j < i → schema[j]? = some col → col.name ≠ name := by
  induction schema generalizing i with
  | nil => simp [FindSchemaColIndex] at h
  | cons tcol rest ih =>
    unfold FindSchemaColIndex at h
    by_cases hn : tcol.name = name
    · rw [if_pos hn] at h
      cases h
      intro j col hj
      cases hj
    · rw [if_neg hn] at h
      cases hr : FindSchemaColIndex name rest with
      | none => simp [hr] at h
      | some k =>
        rw [hr] at h
        cases h
        intro j col hj hc
        cases j with
        | zero =>
          simp at hc
          rw [← hc]
          exact hn
        | succ j =>
          simp at hc
          exact ih hr j col (Nat.lt_of_succ_lt_succ hj) hc

/-- A completed construction keeps the table and one entry of `stov_` per
schema column. -/
theorem constructInsertPlan_shape (ops : TypeOps V T) (table : DataTable V T)
    (columns : List String) (rows : List (ValueTuple V)) (p : InsertPlan V T)
    (h : constructInsertPlan ops table columns rows = .ok p) :
    p.target_table = table ∧ p.stov.length = table.schema.length := by
  unfold constructInsertPlan at h
  cases hb : buildMapping ops table columns rows with
  | error e => simp only [hb] at h; cases h
  | ok s =>
    obtain ⟨q, f⟩ := s
    simp only [hb] at h
    have h0 : (initialPlan ops table columns rows).target_table = table ∧
        (initialPlan ops table columns rows).stov.length = table.schema.length := by
      simp [initialPlan]
    have hq : q.target_table = table ∧ q.stov.length = table.schema.length := by
      unfold buildMapping at hb
      simp only at hb
      by_cases hc : columns.isEmpty = true
      · simp only [hc, if_true] at hb
        have hs := (positionalTuples_ok ops (fun _ => True) rows _ q false f
          (fun _ _ _ _ => trivial) hb).1
        exact ⟨hs.table.trans h0.1, hs.len.trans h0.2⟩
      · simp only [hc] at hb
        by_cases hlen : columns.length ≤ (initialPlan ops table columns rows).schema_col_count
        · simp only [hlen, if_true] at hb
          cases hpc : ProcessColumnSpec columns (initialPlan ops table columns rows) with
          | error e => simp only [hpc] at hb; cases hb
          | ok p1 =>
            simp only [hpc] at hb
            obtain ⟨_, ht1, hl1⟩ := ProcessColumnSpecFrom_ok columns 0 _ p1 hpc
            have hs := (namedTuples_ok ops (fun _ => True) columns.length rows p1 q false f
              (fun _ _ _ _ => trivial) hb).1
            exact ⟨hs.table.trans (ht1.trans h0.1), hs.len.trans (hl1.trans h0.2)⟩
        · simp only [hlen, if_false] at hb
          cases hb
    cases f with
    | false =>
      rw [if_neg Bool.false_ne_true] at h
      cases h
      exact hq
    | true =>
      rw [if_pos rfl] at h
      cases h
      exact hq

end Basics

/-! ## Plan identity -/

section PlanIdentity

variable {V T C : Type}

/-- A plan of another class is never equal to an insert plan. -/
theorem equals_other (I : PlanTree V T C) (a : InsertPlanNode V T C)
    (rhs : AbstractPlan V T C) (h : rhs.GetPlanNodeType ≠ PlanNodeType.INSERT) :
    a.equals I rhs = false := by
  cases rhs with
  | insert b => exact absurd rfl h
  | other tag cs => simp [InsertPlanNode.equals, AbstractPlan.GetPlanNodeType]

/-- The result of `operator==` between two insert plans, test by test. -/
theorem equals_insert (I : PlanTree V T C) (a b : InsertPlanNode V T C) :
    a.equals I (.insert b) = true ↔
      I.tableEq a.plan.target_table b.plan.target_table = true ∧
      (a.children.length = 0 →
        b.children.length = 0 ∧ a.plan.bulk_insert_count = b.plan.bulk_insert_count) ∧
      I.baseEq a.children b.children = true := by
  unfold InsertPlanNode.equals
  simp only [AbstractPlan.GetPlanNodeType, ne_eq, not_true_eq_false, if_false]
  cases ht : I.tableEq a.plan.target_table b.plan.target_table
  · simp
  · by_cases ha : a.children.length = 0
    · by_cases hb : b.children.length = 0
      · by_cases hc : a.plan.bulk_insert_count = b.plan.bulk_insert_count
        · simp [ha, hb, hc]
        · simp [ha, hb, hc]
      · simp [ha, hb]
    · simp [ha]

/-- Between a leaf and a plan with a child the base equality fails. -/
theorem baseEq_leaf_child (I : PlanTree V T C) (cs ds : List C)
    (hc : cs.length = 0) (hd : ds.length ≠ 0) :
    I.baseEq cs ds = false ∧ I.baseEq ds cs = false := by
  constructor
  · cases h : I.baseEq cs ds
    · rfl
    · exact absurd (hc ▸ (I.baseEq_children cs ds h).symm) hd
  · cases h : I.baseEq ds cs
    · rfl
    · exact absurd (hc ▸ I.baseEq_children ds cs h) hd

/-- The hash of an insert plan does not depend on its buffer. -/
theorem Hash_withValues (I : PlanTree V T C) (a : InsertPlanNode V T C)
    (buffer : List V) : (a.withValues buffer).Hash I = a.Hash I := rfl

/-- The equality test does not depend on the buffer of its left operand. -/
theorem equals_withValues_left (I : PlanTree V T C) (a : InsertPlanNode V T C)
    (buffer : List V) (rhs : AbstractPlan V T C) :
    (a.withValues buffer).equals I rhs = a.equals I rhs := rfl

/-- The equality test does not depend on the buffer of its right operand. -/
theorem equals_withValues_right (I : PlanTree V T C) (a x : InsertPlanNode V T C)
    (buffer : List V) :
    x.equals I (.insert (a.withValues buffer)) = x.equals I (.insert a) := rfl

end PlanIdentity

/-! ## Claims -/

section Claims

variable {V T C : Type}

/-- C1. For an INSERT with a column list of distinct existing names and exactly
one row-tuple, one expression per listed column, each a constant or a
placeholder and at least one a placeholder (constants and supplied values
converting to the types of their columns): construction completes and
`SetParameterValues(params)`, with exactly one value per placeholder in
user-column order, succeeds and appends one row `out` of `schema_col_count`
values in which the column of a constant holds the cast literal, the column of
the placeholder at user position `u` has as value index the number `j` of
placeholders before `u` and holds the cast of `params[j]`, and every column
that is not listed holds its declared default or the typed null. -/
theorem C1_named_single_row_binding (ops : TypeOps V T) (table : DataTable V T)
    (columns : List String) (row : ValueTuple V) (params : List V)
    (hw : table.schema.length < 4294967296)
    (hne : columns ≠ [])
    (hnd : columns.Nodup)
    (hex : ∀ c ∈ columns, ∃ col ∈ table.schema, col.name = c)
    (hlen : row.length = columns.length)
    (hkind : ∀ x ∈ row, x = some .parameter ∨ ∃ c, x = some (.constant c))
    (hph : some .parameter ∈ row)
    (hparams : params.length = row.countP isParameter)
    (hcastc : ∀ (u : Nat) (name : String) (idx : Nat) (col : Column V T) (c : V),
      columns[u]? = some name → FindSchemaColIndex name table.schema = some idx →
      table.schema[idx]? = some col → row[u]? = some (some (.constant c)) →
      (ops.castAs c col.type).isSome = true)
    (hcastp : ∀ (u : Nat) (name : String) (idx : Nat) (col : Column V T) (v : V),
      columns[u]? = some name → FindSchemaColIndex name table.schema = some idx →
      table.schema[idx]? = some col → row[u]? = some (some .parameter) →
      params[(row.take u).countP isParameter]? = some v →
      (ops.castAs v col.type).isSome = true) :
    ∃ (p : InsertPlan V T) (out : List V),
      constructInsertPlan ops table columns [row] = .ok p ∧
      SetParameterValues ops p params = .ok { p with values := p.values ++ out } ∧
      out.length = table.schema.length ∧
      ∀ (idx : Nat) (col : Column V T), table.schema[idx]? = some col →
        (∀ (u : Nat) (name : String) (c : V), columns[u]? = some name →
          FindSchemaColIndex name table.schema = some idx →
          row[u]? = some (some (.constant c)) →
          (ops.castAs c col.type).isSome = true ∧ out[idx]? = ops.castAs c col.type) ∧
        (∀ (u : Nat) (name : String), columns[u]? = some name →
          FindSchemaColIndex name table.schema = some idx →
          row[u]? = some (some .parameter) →
          ∃ e v, p.stov[idx]? = some e ∧ e.val_idx = (row.take u).countP isParameter ∧
            params[e.val_idx]? = some v ∧
            (ops.castAs v col.type).isSome = true ∧ out[idx]? = ops.castAs v col.type) ∧
        ((∀ name ∈ columns, FindSchemaColIndex name table.schema ≠ some idx) →
          out[idx]? = some (defaultValue ops col col.type)) := by
  obtain ⟨p, hcons, htab, hty, hent⟩ := named_single_row_plan ops table columns row
    hw hne hnd hex hlen hkind hph hcastc
  have hn : p.schema_col_count = table.schema.length := by
    simp [InsertPlan.schema_col_count, htab]
  have hcl := columns_length_le table.schema columns hnd hex
  have hsize : params.length ≤ p.schema_col_count := by
    rw [hparams, hn]
    have := List.countP_le_length (l := row) isParameter
    omega
  -- what a placeholder column fetches
  have hparam : ∀ (u : Nat), row[u]? = some (some .parameter) →
      ∃ v, params[(row.take u).countP isParameter]? = some v := by
    intro u hu
    have := countP_take_lt isParameter row u _ hu rfl
    exact ⟨_, List.getElem?_eq_getElem (by omega)⟩
  have hfetch : ∀ (idx : Nat) (e : SchemaColsToInsertCols V T),
      p.stov[idx]? = some e → e.set_value = false → e.in_insert_cols = true →
      ∃ v w, params[e.val_idx]? = some v ∧ ops.castAs v e.type = some w := by
    intro idx e he hsv hin
    obtain ⟨col, hc, hety, hcase⟩ := hent idx e he
    rcases hcase with ⟨u, name, hu, hf, _, hk⟩ | ⟨_, hfalse, _⟩
    · rcases hk with ⟨c, v, _, _, htrue, _⟩ | ⟨hx, _, hvi, _⟩
      · rw [htrue] at hsv; cases hsv
      · obtain ⟨v, hv⟩ := hparam u hx
        have hcs := hcastp u name idx col v hu hf hc hx hv
        rw [hvi, hety]
        cases hcv : ops.castAs v col.type with
        | none => simp [hcv] at hcs
        | some w => exact ⟨v, w, hv, hcv⟩
    · rw [hfalse] at hin; cases hin
  obtain ⟨out, hset, holen, hout⟩ :=
    SetParameterValues_row ops p params (typesOK_length_eq hty) hsize hfetch
  refine ⟨p, out, hcons, hset, by rw [holen, hn], ?_⟩
  intro idx col hc
  have hidx : idx < p.schema_col_count := by
    rw [hn]; exact (List.getElem?_eq_some.mp hc).1
  obtain ⟨e, col1, he, hc1, hety⟩ := typesOK_get hty hidx
  rw [htab, hc] at hc1
  cases hc1
  have ho := hout idx e col he (by rw [htab]; exact hc)
  obtain ⟨col2, hc2, _, hcase⟩ := hent idx e he
  rw [hc] at hc2
  cases hc2
  refine ⟨?_, ?_, ?_⟩
  · intro u name c hu hf hx
    refine ⟨hcastc u name idx col c hu hf hc hx, ?_⟩
    rcases hcase with ⟨u1, name1, hu1, hf1, _, hk⟩ | ⟨hno, _, _⟩
    · have huu : u1 = u := listed_position_unique hnd hu1 hu hf1 hf
      subst huu
      rcases hk with ⟨c1, v, hx1, hcv, htrue, hval⟩ | ⟨hx1, _, _, _⟩
      · rw [hx] at hx1
        cases hx1
        rw [ho, htrue, hcv, hval]
        simp
      · rw [hx] at hx1
        cases hx1
    · exact absurd hf (hno name (List.getElem?_mem hu))
  · intro u name hu hf hx
    rcases hcase with ⟨u1, name1, hu1, hf1, hin, hk⟩ | ⟨hno, _, _⟩
    · have huu : u1 = u := listed_position_unique hnd hu1 hu hf1 hf
      subst huu
      rcases hk with ⟨c1, v, hx1, _, _, _⟩ | ⟨_, hsv, hvi, _⟩
      · rw [hx] at hx1
        cases hx1
      · obtain ⟨v, hv⟩ := hparam u1 hx
        refine ⟨e, v, he, hvi, by rw [hvi]; exact hv,
          hcastp u1 name idx col v hu hf hc hx hv, ?_⟩
        rw [ho, hsv, hin, hvi, hv, hety]
        simp
    · exact absurd hf (hno name (List.getElem?_mem hu))
  · intro hno
    rcases hcase with ⟨u1, name1, hu1, hf1, _, _⟩ | ⟨_, hfalse, hsv⟩
    · exact absurd hf1 (hno name1 (List.getElem?_mem hu1))
    · rw [ho, hsv, hfalse, hety]
      simp

/-- C1 at the statement `INSERT INTO t (d, b, a) VALUES (?, 5, ?)` on the table
`t (a, b, c, d)`, bound to `[100, 200]`: the constructed plan is `exTemplate`
(value index 0 for `d`, 1 for `a`), and the appended row is `a = 200`, `b = 5`,
`c` = its default 7, `d = 100`. -/
theorem C1_named_single_row_binding_witness :
    (∃ (p : InsertPlan ExValue Unit) (out : List ExValue),
      constructInsertPlan exOps exTable ["d", "b", "a"] [exRowParamConstParam] = .ok p ∧
      SetParameterValues exOps p [.int 100, .int 200] =
        .ok { p with values := p.values ++ out } ∧
      out.length = exTable.schema.length ∧
      ∀ (idx : Nat) (col : Column ExValue Unit), exTable.schema[idx]? = some col →
        (∀ (u : Nat) (name : String) (c : ExValue),
          (["d", "b", "a"] : List String)[u]? = some name →
          FindSchemaColIndex name exTable.schema = some idx →
          exRowParamConstParam[u]? = some (some (.constant c)) →
          (exOps.castAs c col.type).isSome = true ∧ out[idx]? = exOps.castAs c col.type) ∧
        (∀ (u : Nat) (name : String), (["d", "b", "a"] : List String)[u]? = some name →
          FindSchemaColIndex name exTable.schema = some idx →
          exRowParamConstParam[u]? = some (some .parameter) →
          ∃ e v, p.stov[idx]? = some e ∧
            e.val_idx = (exRowParamConstParam.take u).countP isParameter ∧
            ([.int 100, .int 200] : List ExValue)[e.val_idx]? = some v ∧
            (exOps.castAs v col.type).isSome = true ∧ out[idx]? = exOps.castAs v col.type) ∧
        ((∀ name ∈ (["d", "b", "a"] : List String),
            FindSchemaColIndex name exTable.schema ≠ some idx) →
          out[idx]? = some (defaultValue exOps col col.type))) ∧
    constructInsertPlan exOps exTable ["d", "b", "a"] [exRowParamConstParam] =
      .ok exTemplate ∧
    SetParameterValues exOps exTemplate [.int 100, .int 200] =
      .ok { exTemplate with values := [.int 200, .int 5, .int 7, .int 100] } :=
  ⟨C1_named_single_row_binding exOps exTable ["d", "b", "a"] exRowParamConstParam
    [.int 100, .int 200] (by decide) (by decide) (by decide) (by decide) (by decide)
    (by
      intro x hx
      simp only [exRowParamConstParam, List.mem_cons, List.mem_singleton] at hx
      rcases hx with rfl | rfl | rfl | h
      · exact Or.inl rfl
      · exact Or.inr ⟨_, rfl⟩
      · exact Or.inl rfl
      · cases h)
    (by decide) (by decide)
    (fun _ _ _ _ _ _ _ _ _ => rfl) (fun _ _ _ _ _ _ _ _ _ _ => rfl),
   rfl, rfl⟩

/-- C2, evaluated on `INSERT INTO t (a, b, c) VALUES (5, ?, ?), (5, ?, ?)`: the
adjustment pass runs once per row-tuple, so the second row is read through the
indexes already adjusted for the first one (`b` reads the constant `5` and is
marked as a resolved constant) and the pass is applied again: the only
non-constant listed column `c` ends with value index `2^32 - 1`, not `0`. -/
theorem C2_two_rows_adjusts_twice :
    ∃ p, constructInsertPlan exOps exTable ["a", "b", "c"]
        [exRowConstParamParam, exRowConstParamParam] = .ok p ∧
      p.stov.map (fun e => (e.in_insert_cols, e.set_value, e.val_idx)) =
        [(true, true, 0), (true, true, 0), (true, false, 4294967295), (false, false, 0)] :=
  ⟨_, rfl, rfl⟩

/-- C3. For a plan state whose resolution table has one entry per schema column
and a parameter vector no longer than the schema in which every fetched
`values[val_idx]` exists (and converts to the column type),
`SetParameterValues` succeeds, changes nothing but the buffer, and appends
exactly `schema_col_count` values after the unchanged previous contents: for
schema column `idx` the cached constant if `set_value`, else the cast of
`values[val_idx]` if `in_insert_cols`, else the declared default or the typed
null.  A second call appends the same row again, so a plan that starts with an
empty buffer holds one row after the first call and two rows after the
second. -/
theorem C3_SetParameterValues_appends_one_row (ops : TypeOps V T) (p : InsertPlan V T)
    (values : List V)
    (hstov : p.stov.length = p.schema_col_count)
    (hsize : values.length ≤ p.schema_col_count)
    (hfetch : ∀ e ∈ p.stov, e.set_value = false → e.in_insert_cols = true →
      ((values[e.val_idx]?).bind (fun v => ops.castAs v e.type)).isSome = true) :
    ∃ row : List V,
      SetParameterValues ops p values = .ok { p with values := p.values ++ row } ∧
      row.length = p.schema_col_count ∧
      (∀ (idx : Nat) (e : SchemaColsToInsertCols V T) (col : Column V T),
        p.stov[idx]? = some e → p.target_table.schema[idx]? = some col →
        row[idx]? =
          if e.set_value then some e.value
          else if e.in_insert_cols then
            (values[e.val_idx]?).bind (fun v => ops.castAs v e.type)
          else some (defaultValue ops col e.type)) ∧
      SetParameterValues ops { p with values := p.values ++ row } values =
        .ok { p with values := p.values ++ row ++ row } ∧
      (p.values = [] →
        (p.values ++ row).length = p.schema_col_count ∧
        (p.values ++ row ++ row).length = 2 * p.schema_col_count) := by
  have hf : ∀ (q : InsertPlan V T), q.stov = p.stov →
      ∀ (idx : Nat) (e : SchemaColsToInsertCols V T),
      q.stov[idx]? = some e → e.set_value = false → e.in_insert_cols = true →
      ∃ v w, values[e.val_idx]? = some v ∧ ops.castAs v e.type = some w := by
    intro q hq idx e he hs hi
    rw [hq] at he
    have hmem : e ∈ p.stov := List.getElem?_mem he
    have h := hfetch e hmem hs hi
    cases hv : values[e.val_idx]? with
    | none => simp [hv] at h
    | some v =>
      cases hw : ops.castAs v e.type with
      | none => simp [hv, hw] at h
      | some w => exact ⟨v, w, rfl, hw⟩
  obtain ⟨row, h1, hlen, hrow⟩ := SetParameterValues_row ops p values hstov hsize (hf p rfl)
  obtain ⟨row2, h2, hlen2, hrow2⟩ := SetParameterValues_row ops
    { p with values := p.values ++ row } values hstov hsize (hf _ rfl)
  have hsame : row2 = row := by
    apply List.ext_getElem? 
    intro idx
    by_cases hidx : idx < p.schema_col_count
    · have hk1 : idx < p.stov.length := by rw [hstov]; exact hidx
      have hk2 : idx < p.target_table.schema.length := hidx
      rw [hrow idx _ _ (List.getElem?_eq_getElem hk1) (List.getElem?_eq_getElem hk2)]
      exact hrow2 idx _ _ (List.getElem?_eq_getElem hk1) (List.getElem?_eq_getElem hk2)
    · have hlen2b : row2.length = p.schema_col_count := hlen2
      rw [List.getElem?_eq_none (by omega), List.getElem?_eq_none (by omega)]
  refine ⟨row, h1, hlen, hrow, ?_, ?_⟩
  · rw [h2, hsame]
  · intro hnil
    simp [hnil, hlen]; omega

/-- C3 at the template plan of `INSERT INTO t (d, b, a) VALUES (?, 5, ?)` bound
to `[100, 200]`. -/
theorem C3_SetParameterValues_witness :
    ∃ row : List ExValue,
      SetParameterValues exOps exTemplate [.int 100, .int 200]
        = .ok { exTemplate with values := exTemplate.values ++ row } ∧
      row.length = exTemplate.schema_col_count ∧
      (∀ (idx : Nat) (e : SchemaColsToInsertCols ExValue Unit) (col : Column ExValue Unit),
        exTemplate.stov[idx]? = some e → exTemplate.target_table.schema[idx]? = some col →
        row[idx]? =
          if e.set_value then some e.value
          else if e.in_insert_cols then
            (([.int 100, .int 200] : List ExValue)[e.val_idx]?).bind
              (fun v => exOps.castAs v e.type)
          else some (defaultValue exOps col e.type)) ∧
      SetParameterValues exOps { exTemplate with values := exTemplate.values ++ row }
          [.int 100, .int 200] =
        .ok { exTemplate with values := exTemplate.values ++ row ++ row } ∧
      (exTemplate.values = [] →
        (exTemplate.values ++ row).length = exTemplate.schema_col_count ∧
        (exTemplate.values ++ row ++ row).length = 2 * exTemplate.schema_col_count) :=
  C3_SetParameterValues_appends_one_row exOps exTemplate [.int 100, .int 200]
    (by decide) (by decide) (by decide)

/-- C4, evaluated on `INSERT INTO t VALUES (5, ?)` bound to the one-element
parameter vector `[100]`: without a column list no index is adjusted, column
`b` keeps value index 1 and `values->at(1)` throws. -/
theorem C4_positional_binding_out_of_range :
    ∃ p f, constructInsertPlan exOps exTable [] [exRowConstParam] = .ok p ∧
      (p.stov.map fun e => (e.set_value, e.val_idx)) =
        [(true, 0), (false, 1), (false, 0), (false, 0)] ∧
      SetParameterValues exOps p [.int 100] = .error f ∧ f.kind = .outOfRange :=
  ⟨_, _, rfl, rfl, rfl, rfl⟩

/-- C5, evaluated on `INSERT INTO t VALUES (5)` for the four-column table `t`:
without a column list the columns after the end of the row get no value, so
the buffer holds one value, not `1 × 4`. -/
theorem C5_positional_short_row_buffer :
    ∃ p, constructInsertPlan exOps exTable [] [exRowConst] = .ok p ∧
      p.values = [.int 5] ∧ p.bulk_insert_count = 1 ∧ p.schema_col_count = 4 :=
  ⟨_, rfl, rfl, rfl, rfl⟩

/-- C6. With a column list of distinct existing names and row-tuples made of
literal constants only, one per listed column (each converting to the type of
its column), construction completes and the buffer is the row-major
concatenation of one value per row and schema column: at position
`r * schema_col_count + idx` it holds, for a column listed at user position
`u`, the cast of the literal at position `u` of row `r`, and for a column that
is not listed the declared default, or the typed null, of that column. -/
theorem C6_named_constant_rows_buffer (ops : TypeOps V T) (table : DataTable V T)
    (columns : List String) (rows : List (ValueTuple V))
    (hne : columns ≠ [])
    (hnd : columns.Nodup)
    (hex : ∀ c ∈ columns, ∃ col ∈ table.schema, col.name = c)
    (hrows : ∀ row ∈ rows, row.length = columns.length ∧
      ∀ x ∈ row, ∃ c, x = some (.constant c))
    (hcast : ∀ row ∈ rows, ∀ (u : Nat) (name : String) (idx : Nat) (col : Column V T) (c : V),
      columns[u]? = some name → FindSchemaColIndex name table.schema = some idx →
      table.schema[idx]? = some col → row[u]? = some (some (.constant c)) →
      (ops.castAs c col.type).isSome = true) :
    ∃ p, constructInsertPlan ops table columns rows = .ok p ∧
      p.values.length = rows.length * table.schema.length ∧
      ∀ (r : Nat) (row : ValueTuple V) (idx : Nat) (col : Column V T),
        rows[r]? = some row → table.schema[idx]? = some col →
        (∀ (u : Nat) (name : String) (c : V), columns[u]? = some name →
          FindSchemaColIndex name table.schema = some idx →
          row[u]? = some (some (.constant c)) →
          p.values[r * table.schema.length + idx]? = ops.castAs c col.type) ∧
        ((∀ name ∈ columns, FindSchemaColIndex name table.schema ≠ some idx) →
          p.values[r * table.schema.length + idx]? =
            some (defaultValue ops col col.type)) := by
  obtain ⟨p1, h1, ht, hv, _, hty, _, hA, hB⟩ :=
    ProcessColumnSpec_initial ops table columns rows hnd hex
  have hn : p1.schema_col_count = table.schema.length := by
    simp [InsertPlan.schema_col_count, ht]
  have hcl := columns_length_le table.schema columns hnd hex
  -- every entry of the table is either listed or not
  have hcases : ∀ (i : Nat) (e : SchemaColsToInsertCols V T), p1.stov[i]? = some e →
      ∃ col, table.schema[i]? = some col ∧ e.type = col.type ∧
        ((∃ j name, columns[j]? = some name ∧
            FindSchemaColIndex name table.schema = some i ∧
            e.in_insert_cols = true ∧ e.val_idx = j) ∨
         ((∀ name ∈ columns, FindSchemaColIndex name table.schema ≠ some i) ∧
            e.in_insert_cols = false)) := by
    intro i e he
    have hi : i < table.schema.length := by
      have := (List.getElem?_eq_some.mp he).1
      rw [(typesOK_length_eq hty), hn] at this
      exact this
    have hc := List.getElem?_eq_getElem hi
    refine ⟨table.schema[i], hc, ?_⟩
    by_cases hl : ∃ name ∈ columns, FindSchemaColIndex name table.schema = some i
    · obtain ⟨name, hmem, hf⟩ := hl
      obtain ⟨j, hj⟩ := List.mem_iff_getElem?.mp hmem
      obtain ⟨i1, col1, hf1, hc1, hs1, _⟩ := hA j name hj
      have hii : i1 = i := by
        rw [hf] at hf1
        exact (Option.some.inj hf1).symm
      subst hii
      rw [hc] at hc1
      cases hc1
      rw [hs1] at he
      cases he
      exact ⟨rfl, Or.inl ⟨j, name, hj, hf, rfl, rfl⟩⟩
    · have hno : ∀ name ∈ columns, FindSchemaColIndex name table.schema ≠ some i :=
        fun name hmem hf => hl ⟨name, hmem, hf⟩
      rw [hB i _ hc hno] at he
      cases he
      exact ⟨rfl, Or.inr ⟨hno, rfl⟩⟩
  -- hypotheses of the row loop
  have hrow : ∀ row ∈ rows, row.length ≤ p1.schema_col_count ∧
      ∀ e ∈ p1.stov, e.in_insert_cols = true →
        ∃ c, row[e.val_idx]? = some (some (.constant c)) ∧
          (ops.castAs c e.type).isSome = true := by
    intro row hrowmem
    obtain ⟨hrl, hrc⟩ := hrows row hrowmem
    refine ⟨by rw [hn, hrl]; exact hcl, ?_⟩
    intro e he hin
    obtain ⟨i, hi⟩ := List.mem_iff_getElem?.mp he
    obtain ⟨col, hc, hety, hcase⟩ := hcases i e hi
    rcases hcase with ⟨j, name, hj, hf, _, hvi⟩ | ⟨_, hfalse⟩
    · have hjlt : j < row.length := by
        rw [hrl]; exact (List.getElem?_eq_some.mp hj).1
      have hx := List.getElem?_eq_getElem hjlt
      obtain ⟨c, hxc⟩ := hrc row[j] (List.getElem_mem hjlt)
      rw [hxc] at hx
      refine ⟨c, by rw [hvi]; exact hx, ?_⟩
      rw [hety]
      exact hcast row hrowmem j name i col c hj hf hc hx
    · rw [hfalse] at hin
      cases hin
  obtain ⟨S, hS⟩ := namedTuples_constants ops columns.length rows p1 (typesOK_length_eq hty) hrow
  -- one value per schema column and row
  have hsingle : ∀ row ∈ rows, ∀ i, i < p1.schema_col_count →
      ∃ v, namedSavedAt ops row p1 i = [v] := by
    intro row hrowmem i hi
    obtain ⟨e, col, he, hc, hety⟩ := typesOK_get hty hi
    unfold namedSavedAt
    rw [he, hc]
    simp only []
    unfold namedSaved
    by_cases hin : e.in_insert_cols = true
    · obtain ⟨c, hxc, hsome⟩ := (hrow row hrowmem).2 e (List.getElem?_mem he) hin
      rw [if_pos hin, hxc]
      simp only [savedValues]
      cases hcv : ops.castAs c e.type with
      | none => simp [hcv] at hsome
      | some v => exact ⟨v, rfl⟩
    · rw [if_neg hin]
      exact ⟨_, rfl⟩
  have hrowlen : ∀ row ∈ rows,
      ((List.range p1.schema_col_count).flatMap (namedSavedAt ops row p1)).length =
        table.schema.length := by
    intro row hrowmem
    rw [(flatMap_range_singletons _ _ (hsingle row hrowmem)).1, hn]
  refine ⟨{ p1 with stov := S
                    values := p1.values ++ rows.flatMap (fun row =>
                      (List.range p1.schema_col_count).flatMap (namedSavedAt ops row p1)) },
    ?_, ?_, ?_⟩
  · unfold constructInsertPlan buildMapping
    have hemp : columns.isEmpty = false := by
      cases columns with
      | nil => exact absurd rfl hne
      | cons _ _ => rfl
    simp only [hemp, Bool.false_eq_true, if_false]
    rw [if_pos (by simpa [initialPlan, InsertPlan.schema_col_count] using hcl), h1]
    simp only []
    rw [hS]
    simp
  · show (p1.values ++ _).length = _
    rw [hv, List.nil_append]
    exact length_flatMap_fixed rows _ _ hrowlen
  · intro r row idx col hr hc
    have hidx : idx < table.schema.length := (List.getElem?_eq_some.mp hc).1
    have hrowmem : row ∈ rows := List.getElem?_mem hr
    have hval : (p1.values ++ rows.flatMap (fun row =>
          (List.range p1.schema_col_count).flatMap (namedSavedAt ops row p1)))[
          r * table.schema.length + idx]? = (namedSavedAt ops row p1 idx)[0]? := by
      rw [hv, List.nil_append, getElem?_flatMap_fixed rows _ _ hrowlen r idx hidx row hr]
      exact (flatMap_range_singletons _ _ (hsingle row hrowmem)).2 idx (by rw [hn]; exact hidx)
    dsimp only
    rw [hval]
    have hidx1 : idx < p1.schema_col_count := by rw [hn]; exact hidx
    obtain ⟨e, col1, he, hc1, hety⟩ := typesOK_get hty hidx1
    rw [ht, hc] at hc1
    cases hc1
    obtain ⟨col2, hc2, _, hcase⟩ := hcases idx e he
    have hsaved : namedSavedAt ops row p1 idx = namedSaved ops row e col := by
      unfold namedSavedAt
      rw [he, ht, hc]
    rw [hsaved]
    constructor
    · intro u name c hu hf hx
      rcases hcase with ⟨j, name1, hj, hf1, hin, hvi⟩ | ⟨hno, _⟩
      · have hname : name1 = name := FindSchemaColIndex_inj hf1 hf
        subst hname
        have hju : j = u := by
          have hjl := (List.getElem?_eq_some.mp hj).1
          have hul := (List.getElem?_eq_some.mp hu).1
          have e1 := (List.getElem?_eq_some.mp hj).2
          have e2 := (List.getElem?_eq_some.mp hu).2
          exact (hnd.getElem_inj_iff).mp (e1.trans e2.symm)
        subst hju
        unfold namedSaved
        rw [if_pos hin, hvi, hx]
        simp only [savedValues]
        rw [hety]
        cases ops.castAs c col.type <;> rfl
      · exact absurd hf (hno name (List.getElem?_mem hu))
    · intro hno
      rcases hcase with ⟨j, name1, hj, hf1, _, _⟩ | ⟨_, hfalse⟩
      · exact absurd hf1 (hno name1 (List.getElem?_mem hj))
      · unfold namedSaved
        rw [hfalse, hety]
        rfl

/-- C6 at `INSERT INTO t (d, b) VALUES (1, 2), (3, 4)` on `t (a, b, c, d)`. -/
theorem C6_named_constant_rows_buffer_witness :
    ∃ p : InsertPlan ExValue Unit,
      constructInsertPlan exOps exTable ["d", "b"] exConstantRows = .ok p ∧
      p.values.length = exConstantRows.length * exTable.schema.length ∧
      ∀ (r : Nat) (row : ValueTuple ExValue) (idx : Nat) (col : Column ExValue Unit),
        exConstantRows[r]? = some row → exTable.schema[idx]? = some col →
        (∀ (u : Nat) (name : String) (c : ExValue),
          (["d", "b"] : List String)[u]? = some name →
          FindSchemaColIndex name exTable.schema = some idx →
          row[u]? = some (some (.constant c)) →
          p.values[r * exTable.schema.length + idx]? = exOps.castAs c col.type) ∧
        ((∀ name ∈ (["d", "b"] : List String),
            FindSchemaColIndex name exTable.schema ≠ some idx) →
          p.values[r * exTable.schema.length + idx]? =
            some (defaultValue exOps col col.type)) :=
  C6_named_constant_rows_buffer exOps exTable ["d", "b"] exConstantRows
    (by decide) (by decide) (by decide)
    (by
      intro row hrow
      simp only [exConstantRows, List.mem_cons, List.mem_singleton] at hrow
      rcases hrow with rfl | rfl | h
      · refine ⟨rfl, ?_⟩
        intro x hx
        simp only [List.mem_cons, List.mem_singleton] at hx
        rcases hx with rfl | rfl | h
        · exact ⟨_, rfl⟩
        · exact ⟨_, rfl⟩
        · cases h
      · refine ⟨rfl, ?_⟩
        intro x hx
        simp only [List.mem_cons, List.mem_singleton] at hx
        rcases hx with rfl | rfl | h
        · exact ⟨_, rfl⟩
        · exact ⟨_, rfl⟩
        · cases h
      · cases h)
    (fun _ _ _ _ _ _ _ _ _ _ _ => rfl)

/-- C7. Without a column list, when every row-tuple has at most
`schema_col_count` expressions (each a null, a constant that converts to the
type of the column it faces, or a parameter), construction completes and the
expression at position `i` of every row is classified against schema column
`i`: before the final clearing the buffer is the concatenation, row by row and
position by position, of what position `i` saves for column `i` (the constant
cast to the type of column `i`, the default of column `i` for a null
expression, nothing for a parameter), and the flag is raised exactly when some
row holds a parameter.  In the constructed plan every schema column below the
length of some row has `in_insert_cols = true` and `val_idx = i`, and every
other schema column has `in_insert_cols = false`. -/
theorem C7_positional_maps_position_to_column (ops : TypeOps V T) (table : DataTable V T)
    (rows : List (ValueTuple V))
    (hlen : ∀ row ∈ rows, row.length ≤ table.schema.length)
    (hkind : ∀ row ∈ rows, ∀ x ∈ row, x ≠ some .other)
    (hcast : ∀ row ∈ rows, ∀ (i : Nat) (c : V) (col : Column V T),
      row[i]? = some (some (.constant c)) →
      table.schema[i]? = some col → (ops.castAs c col.type).isSome = true) :
    ∃ q p,
      buildMapping ops table [] rows =
        .ok (q, rows.any (fun row => row.any isParameter)) ∧
      q.values = rows.flatMap (fun row => positionalSaved ops row table.schema) ∧
      constructInsertPlan ops table [] rows = .ok p ∧
      p.stov = q.stov ∧
      p.values = (if rows.any (fun row => row.any isParameter) then [] else q.values) ∧
      p.stov.length = table.schema.length ∧
      ∀ (i : Nat) (e : SchemaColsToInsertCols V T), p.stov[i]? = some e →
        ((∃ row ∈ rows, i < row.length) → e.in_insert_cols = true ∧ e.val_idx = i) ∧
        ((∀ row ∈ rows, row.length ≤ i) → e.in_insert_cols = false) := by
  obtain ⟨S, hS, hty, hget⟩ := positionalTuples_spec ops rows
    (initialPlan ops table [] rows) false (initialPlan_typesOK ops table [] rows)
    hlen hkind hcast
  have hbuild : buildMapping ops table [] rows =
      .ok ({ initialPlan ops table [] rows with
              stov := S
              values := rows.flatMap (fun row => positionalSaved ops row table.schema) },
           rows.any (fun row => row.any isParameter)) := by
    unfold buildMapping
    simp only [List.isEmpty_nil, if_true]
    rw [hS]
    simp [initialPlan]
  have hlenS : S.length = table.schema.length := by
    have := congrArg List.length hty
    simpa [initialPlan] using this
  have hentries : ∀ (i : Nat) (e : SchemaColsToInsertCols V T), S[i]? = some e →
      ((∃ row ∈ rows, i < row.length) → e.in_insert_cols = true ∧ e.val_idx = i) ∧
      ((∀ row ∈ rows, row.length ≤ i) → e.in_insert_cols = false) := by
    intro i e he
    obtain ⟨e0, he0, hA, hB⟩ := hget i e he
    obtain ⟨col, _, hcol⟩ := initialPlan_entry ops table [] rows i e0 he0
    refine ⟨hA, ?_⟩
    intro hall
    rw [hB hall, hcol]
  refine ⟨{ initialPlan ops table [] rows with
              stov := S
              values := rows.flatMap (fun row => positionalSaved ops row table.schema) },
    { initialPlan ops table [] rows with
        stov := S
        values := if rows.any (fun row => row.any isParameter) then []
          else rows.flatMap (fun row => positionalSaved ops row table.schema) },
    hbuild, rfl, ?_, rfl, rfl, hlenS, hentries⟩
  unfold constructInsertPlan
  rw [hbuild]
  simp only []
  cases hflag : rows.any (fun row => row.any isParameter)
  · simp
  · simp [ClearParameterValues]

/-- C7 at `INSERT INTO t VALUES (5, ?), (DEFAULT)` on `t (a, b, c, d)`. -/
theorem C7_positional_maps_position_to_column_witness :
    ∃ (q p : InsertPlan ExValue Unit),
      buildMapping exOps exTable [] exMixedRows =
        .ok (q, exMixedRows.any (fun row => row.any isParameter)) ∧
      q.values = exMixedRows.flatMap (fun row => positionalSaved exOps row exTable.schema) ∧
      constructInsertPlan exOps exTable [] exMixedRows = .ok p ∧
      p.stov = q.stov ∧
      p.values = (if exMixedRows.any (fun row => row.any isParameter) then [] else q.values) ∧
      p.stov.length = exTable.schema.length ∧
      ∀ (i : Nat) (e : SchemaColsToInsertCols ExValue Unit), p.stov[i]? = some e →
        ((∃ row ∈ exMixedRows, i < row.length) → e.in_insert_cols = true ∧ e.val_idx = i) ∧
        ((∀ row ∈ exMixedRows, row.length ≤ i) → e.in_insert_cols = false) :=
  C7_positional_maps_position_to_column exOps exTable exMixedRows
    (by decide) (by decide) (fun _ _ _ _ _ _ _ => rfl)

/-- C8 fails as stated: for `INSERT INTO t (a, a) VALUES (?, 5)` (a column
named twice, one expression per listed column, a placeholder in the row)
construction succeeds, the second mention of `a` overwrites the value index of
the first, the placeholder is never read, and the buffer is not cleared. -/
theorem C8_duplicate_column_counterexample :
    ∃ p, constructInsertPlan exOps exTable ["a", "a"]
        [[some .parameter, some (.constant (.int 5))]] = .ok p ∧
      (∃ row ∈ [[some AbstractExpression.parameter, some (.constant (ExValue.int 5))]],
        some AbstractExpression.parameter ∈ row) ∧
      (∀ row ∈ [[some AbstractExpression.parameter, some (.constant (ExValue.int 5))]],
        row.length = (["a", "a"] : List String).length) ∧
      p.values = [.int 5, .null, .int 7, .null] ∧ p.values ≠ [] :=
  ⟨_, rfl, by decide, by decide, rfl, by decide⟩

/-- C8, amended. For every construction that succeeds and in which some
row-tuple holds a parameter placeholder (with a column list: the listed names
distinct and every row-tuple with one expression per listed column), the
buffer of the constructed plan is empty and the resolution table is the one
built by the loops: every cached value is the cast of a literal of the
statement to the type of its column, every column that faces a constant in
some row (no column list) or reads a constant in the first row (column list)
is marked as a resolved constant. -/
theorem C8_prepared_buffer_cleared (ops : TypeOps V T) (table : DataTable V T)
    (columns : List String) (rows : List (ValueTuple V)) (p : InsertPlan V T)
    (hcons : constructInsertPlan ops table columns rows = .ok p)
    (hph : ∃ row ∈ rows, some AbstractExpression.parameter ∈ row)
    (hnamed : columns ≠ [] → columns.Nodup ∧ ∀ row ∈ rows, row.length = columns.length) :
    p.values = [] ∧
    (∃ q, buildMapping ops table columns rows = .ok (q, true) ∧ p.stov = q.stov) ∧
    (∀ (i : Nat) (e : SchemaColsToInsertCols V T), p.stov[i]? = some e →
      e.set_value = true → ∃ c, literalOf rows c ∧ ops.castAs c e.type = some e.value) ∧
    (columns = [] → ∀ row ∈ rows, ∀ (i : Nat) (c : V),
      row[i]? = some (some (.constant c)) →
      ∃ e, p.stov[i]? = some e ∧ e.set_value = true) ∧
    (columns ≠ [] → ∀ (row : ValueTuple V) (rest : List (ValueTuple V)) (u : Nat)
      (name : String) (idx : Nat) (c : V), rows = row :: rest →
      columns[u]? = some name → FindSchemaColIndex name table.schema = some idx →
      row[u]? = some (some (.constant c)) →
      ∃ e, p.stov[idx]? = some e ∧ e.set_value = true) := by
  -- the state before the final clearing: the flag is raised
  have hmain : ∃ q p0, buildMapping ops table columns rows = .ok (q, true) ∧
      PlanStep ops (literalOf rows) p0 q ∧
      (∀ (i : Nat) (e : SchemaColsToInsertCols V T), p0.stov[i]? = some e →
        e.set_value = false) ∧
      (columns = [] → ∀ row ∈ rows, ∀ (i : Nat) (c : V),
        row[i]? = some (some (.constant c)) →
        ∃ e, q.stov[i]? = some e ∧ e.set_value = true) ∧
      (columns ≠ [] → ∀ (row : ValueTuple V) (rest : List (ValueTuple V)) (u : Nat)
        (name : String) (idx : Nat) (c : V), rows = row :: rest →
        columns[u]? = some name → FindSchemaColIndex name table.schema = some idx →
        row[u]? = some (some (.constant c)) →
        ∃ e, q.stov[idx]? = some e ∧ e.set_value = true) := by
    unfold constructInsertPlan at hcons
    cases hb : buildMapping ops table columns rows with
    | error g => rw [hb] at hcons; cases hcons
    | ok res =>
      obtain ⟨q, flag⟩ := res
      have hlits : ∀ row ∈ rows, ∀ c, some (AbstractExpression.constant c) ∈ row →
          literalOf rows c := fun row hr c hc => ⟨row, hr, hc⟩
      unfold buildMapping at hb
      simp only [] at hb
      cases columns with
      | nil =>
        simp only [List.isEmpty_nil, if_true] at hb
        obtain ⟨hstep, hflag, hset⟩ := positionalTuples_ok ops (literalOf rows) rows _ q
          false flag hlits hb
        have hft : flag = true := by
          rw [hflag, Bool.false_or, List.any_eq_true]
          obtain ⟨row, hr, hp⟩ := hph
          exact ⟨row, hr, List.any_eq_true.mpr ⟨_, hp, rfl⟩⟩
        subst hft
        refine ⟨q, _, rfl, hstep, ?_, fun _ => hset, fun h => absurd rfl h⟩
        intro i e he
        obtain ⟨col, _, hcol⟩ := initialPlan_entry ops table [] rows i e he
        rw [hcol]
      | cons c0 cs =>
        obtain ⟨hnd, hrl⟩ := hnamed (by simp)
        simp only [List.isEmpty_cons, Bool.false_eq_true, if_false] at hb
        by_cases hle : (c0 :: cs).length ≤
            (initialPlan ops table (c0 :: cs) rows).schema_col_count
        · rw [if_pos hle] at hb
          cases hpc : ProcessColumnSpec (c0 :: cs) (initialPlan ops table (c0 :: cs) rows) with
          | error g => rw [hpc] at hb; cases hb
          | ok p1 =>
            rw [hpc] at hb
            simp only [] at hb
            have hex := (ProcessColumnSpecFrom_ok (c0 :: cs) 0 _ p1 hpc).1
            obtain ⟨p1b, h1, ht, _, hty, hvt, hent⟩ :=
              ProcessColumnSpec_entries ops table (c0 :: cs) rows hnd hex
            rw [hpc] at h1
            cases h1
            have hn : p1.schema_col_count = table.schema.length := by
              simp [InsertPlan.schema_col_count, ht]
            -- the entry of a listed column
            have hlisted : ∀ (u : Nat) (name : String) (idx : Nat),
                (c0 :: cs)[u]? = some name →
                FindSchemaColIndex name table.schema = some idx →
                ∃ e, p1.stov[idx]? = some e ∧ e.in_insert_cols = true ∧ e.val_idx = u := by
              intro u name idx hu hf
              have hil : idx < p1.schema_col_count := by
                rw [hn]; exact FindSchemaColIndex_lt hf
              obtain ⟨e, _, he, _, _⟩ := typesOK_get hty hil
              obtain ⟨_, _, _, _, hcase⟩ := hent idx e he
              rcases hcase with ⟨j, name1, hj, hf1, hin, hvi⟩ | ⟨hno, _⟩
              · have hju : j = u := listed_position_unique hnd hj hu hf1 hf
                subst hju
                exact ⟨e, he, hin, hvi⟩
              · exact absurd hf (hno name (List.getElem?_mem hu))
            have hcov : Covers (c0 :: cs).length p1 := by
              intro u hu
              obtain ⟨i, hf, _⟩ := hvt u _ (List.getElem?_eq_getElem hu)
              obtain ⟨e, he, hin, hvi⟩ := hlisted u _ i (List.getElem?_eq_getElem hu) hf
              exact ⟨i, e, he, hin, hvi⟩
            have hft := namedTuples_flag ops (c0 :: cs).length rows p1 q flag
              (typesOK_length_eq hty) hcov hrl hph hb
            subst hft
            refine ⟨q, p1, rfl,
              (namedTuples_ok ops (literalOf rows) _ rows p1 q false true hlits hb).1,
              ?_, fun h => (by cases h), ?_⟩
            · intro i e he
              obtain ⟨_, _, _, hsv, _⟩ := hent i e he
              exact hsv
            · intro _ row rest u name idx c hrows hu hf hx
              subst hrows
              obtain ⟨e, he, hin, hvi⟩ := hlisted u name idx hu hf
              exact namedTuples_first ops _ row rest p1 q false true hb idx e c
                (by rw [hn]; exact FindSchemaColIndex_lt hf) he
                (by simp [namedExpr, hin, hvi, hx])
        · rw [if_neg hle] at hb
          cases hb
  obtain ⟨q, p0, hb, hstep, hinit, hpos, hnam⟩ := hmain
  have hp : p = ClearParameterValues q := by
    unfold constructInsertPlan at hcons
    rw [hb] at hcons
    simp only [if_true] at hcons
    cases hcons
    rfl
  subst hp
  refine ⟨rfl, ⟨q, hb, rfl⟩, ?_, hpos, hnam⟩
  intro i e he hsv
  have he' : q.stov[i]? = some e := he
  have hi0 : i < p0.stov.length := by
    rw [← hstep.len]; exact (List.getElem?_eq_some.mp he').1
  have hes := hstep.entries i _ e (List.getElem?_eq_getElem hi0) he'
  rcases hes.cached hsv with ⟨h0, _⟩ | ⟨c, hc, hcast⟩
  · rw [hinit i _ (List.getElem?_eq_getElem hi0)] at h0
    cases h0
  · exact ⟨c, hc, by rw [hes.type_eq]; exact hcast⟩

/-- C8, amended, at `INSERT INTO t (d, b, a) VALUES (?, 5, ?)`. -/
theorem C8_prepared_buffer_cleared_witness :
    exTemplate.values = [] ∧
    (∃ q, buildMapping exOps exTable ["d", "b", "a"] [exRowParamConstParam] = .ok (q, true) ∧
      exTemplate.stov = q.stov) ∧
    (∀ (i : Nat) (e : SchemaColsToInsertCols ExValue Unit), exTemplate.stov[i]? = some e →
      e.set_value = true →
      ∃ c, literalOf [exRowParamConstParam] c ∧ exOps.castAs c e.type = some e.value) ∧
    ((["d", "b", "a"] : List String) = [] → ∀ row ∈ [exRowParamConstParam],
      ∀ (i : Nat) (c : ExValue), row[i]? = some (some (.constant c)) →
      ∃ e, exTemplate.stov[i]? = some e ∧ e.set_value = true) ∧
    ((["d", "b", "a"] : List String) ≠ [] →
      ∀ (row : ValueTuple ExValue) (rest : List (ValueTuple ExValue)) (u : Nat)
      (name : String) (idx : Nat) (c : ExValue), [exRowParamConstParam] = row :: rest →
      (["d", "b", "a"] : List String)[u]? = some name →
      FindSchemaColIndex name exTable.schema = some idx →
      row[u]? = some (some (.constant c)) →
      ∃ e, exTemplate.stov[idx]? = some e ∧ e.set_value = true) :=
  C8_prepared_buffer_cleared exOps exTable ["d", "b", "a"] [exRowParamConstParam]
    exTemplate rfl (by decide) (fun _ => ⟨by decide, by decide⟩)

/-- C9. With a non-empty column list no longer than the schema, construction
stops with the unknown-column error exactly when some listed name is the name
of no schema column; in that case no plan is produced. -/
theorem C9_unknown_column_iff_missing_name (ops : TypeOps V T) (table : DataTable V T)
    (columns : List String) (rows : List (ValueTuple V))
    (hne : columns ≠ [])
    (hle : columns.length ≤ table.schema.length) :
    ((∃ f c, constructInsertPlan ops table columns rows = .error f ∧
        f.kind = .unknownColumn c) ↔
      (∃ c ∈ columns, ∀ col ∈ table.schema, col.name ≠ c)) ∧
    ((∃ c ∈ columns, ∀ col ∈ table.schema, col.name ≠ c) →
      ∃ f c, c ∈ columns ∧ (∀ col ∈ table.schema, col.name ≠ c) ∧
        constructInsertPlan ops table columns rows = .error f ∧
        f.kind = .unknownColumn c ∧
        ∀ p, constructInsertPlan ops table columns rows ≠ .ok p) := by
  have hemp : columns.isEmpty = false := by
    cases columns with
    | nil => exact absurd rfl hne
    | cons _ _ => rfl
  have hlen0 := typesOK_length_eq (initialPlan_typesOK ops table columns rows)
  have hunf : buildMapping ops table columns rows =
      (match ProcessColumnSpec columns (initialPlan ops table columns rows) with
        | .error f => (Except.error f : Outcome V T (InsertPlan V T × Bool))
        | .ok p1 => namedTuples ops columns.length rows (p1, false)) := by
    unfold buildMapping
    simp only [hemp, Bool.false_eq_true, if_false]
    rw [if_pos (by simpa [initialPlan, InsertPlan.schema_col_count] using hle)]
  cases hpc : ProcessColumnSpec columns (initialPlan ops table columns rows) with
  | error g =>
    obtain ⟨c, hc, hk, hmiss⟩ := ProcessColumnSpecFrom_error columns 0 _ g hlen0 hpc
    have hres : constructInsertPlan ops table columns rows = .error g := by
      unfold constructInsertPlan
      rw [hunf, hpc]
    have hmiss1 : ∀ col ∈ table.schema, col.name ≠ c := hmiss
    refine ⟨⟨fun _ => ⟨c, hc, hmiss1⟩, fun _ => ⟨g, c, hres, hk⟩⟩, ?_⟩
    intro _
    refine ⟨g, c, hc, hmiss1, hres, hk, ?_⟩
    intro p hp
    rw [hres] at hp
    cases hp
  | ok p1 =>
    have hex := (ProcessColumnSpecFrom_ok columns 0 _ p1 hpc).1
    have hnone : ¬ ∃ c ∈ columns, ∀ col ∈ table.schema, col.name ≠ c := by
      rintro ⟨c, hc, hmiss⟩
      obtain ⟨col, hcol, hn⟩ := hex c hc
      exact hmiss col hcol hn
    refine ⟨⟨?_, fun h => absurd h hnone⟩, fun h => absurd h hnone⟩
    rintro ⟨f, c, hf, hk⟩
    unfold constructInsertPlan at hf
    rw [hunf, hpc] at hf
    simp only [] at hf
    cases hnt : namedTuples ops columns.length rows (p1, false) with
    | error g =>
      rw [hnt] at hf
      cases hf
      exact absurd hk (namedTuples_error ops _ rows _ _ hnt c)
    | ok res =>
      obtain ⟨q, b⟩ := res
      rw [hnt] at hf
      simp only [] at hf
      split at hf <;> cases hf

/-- C9 at `INSERT INTO t (a, zz) VALUES (5, ?)`: the name `zz` is unknown. -/
theorem C9_unknown_column_witness :
    ((∃ f c, constructInsertPlan exOps exTable ["a", "zz"] [exRowConstParam] = .error f ∧
        f.kind = .unknownColumn c) ↔
      (∃ c ∈ (["a", "zz"] : List String), ∀ col ∈ exTable.schema, col.name ≠ c)) ∧
    ((∃ c ∈ (["a", "zz"] : List String), ∀ col ∈ exTable.schema, col.name ≠ c) →
      ∃ f c, c ∈ (["a", "zz"] : List String) ∧ (∀ col ∈ exTable.schema, col.name ≠ c) ∧
        constructInsertPlan exOps exTable ["a", "zz"] [exRowConstParam] = .error f ∧
        f.kind = .unknownColumn c ∧
        ∀ p, constructInsertPlan exOps exTable ["a", "zz"] [exRowConstParam] ≠ .ok p) :=
  C9_unknown_column_iff_missing_name exOps exTable ["a", "zz"] [exRowConstParam]
    (by decide) (by decide)

/-- C10 fails as stated: for `INSERT INTO t VALUES (5), (DEFAULT × 5)` on the
four-column table `t` the second row-tuple is too long and construction stops
with a contract violation, but only after the first row-tuple has been
resolved: the buffer holds `5` and column `a` is marked as a resolved
constant. -/
theorem C10_earlier_rows_resolved_counterexample :
    (∃ row ∈ exLongRows, exTable.schema.length < row.length) ∧
    ∃ f, constructInsertPlan exOps exTable [] exLongRows = .error f ∧
      f.kind = .contractViolation ∧ f.state.values = [.int 5] ∧
      f.state.stov.map (fun e => e.set_value) = [true, false, false, false] ∧
      ¬ (f.state.values = [] ∧ ∀ e ∈ f.state.stov, e.set_value = false) :=
  ⟨by decide, _, rfl, rfl, rfl, rfl, by decide⟩

/-- C10, amended. When some row-tuple has more expressions than the schema has
columns, construction never produces a plan.  The length of a row-tuple is
checked when the loop reaches it: once the row-tuples before a too-long one
have been resolved (and, with a column list, the list has passed its length
check and `ProcessColumnSpec`), construction stops with a contract violation
in exactly the state `q` those earlier row-tuples left, so no value of the
too-long row-tuple or of a later one has been resolved. -/
theorem C10_long_row_rejected_in_turn (ops : TypeOps V T) (table : DataTable V T)
    (columns : List String) (rows : List (ValueTuple V))
    (hlong : ∃ row ∈ rows, table.schema.length < row.length) :
    (∃ f, constructInsertPlan ops table columns rows = .error f) ∧
    (∀ (pre : List (ValueTuple V)) (long : ValueTuple V) (post : List (ValueTuple V))
      (q : InsertPlan V T) (b : Bool),
      rows = pre ++ long :: post → table.schema.length < long.length → columns = [] →
      positionalTuples ops pre (initialPlan ops table columns rows, false) = .ok (q, b) →
      constructInsertPlan ops table columns rows = .error ⟨.contractViolation, q⟩) ∧
    (∀ (pre : List (ValueTuple V)) (long : ValueTuple V) (post : List (ValueTuple V))
      (p1 q : InsertPlan V T) (b : Bool),
      rows = pre ++ long :: post → table.schema.length < long.length → columns ≠ [] →
      columns.length ≤ table.schema.length →
      ProcessColumnSpec columns (initialPlan ops table columns rows) = .ok p1 →
      namedTuples ops columns.length pre (p1, false) = .ok (q, b) →
      constructInsertPlan ops table columns rows = .error ⟨.contractViolation, q⟩) := by
  have hn0 : (initialPlan ops table columns rows).schema_col_count = table.schema.length := rfl
  refine ⟨?_, ?_, ?_⟩
  · -- never a plan
    have hbm : ∃ f, buildMapping ops table columns rows = .error f := by
      unfold buildMapping
      simp only []
      by_cases hemp : columns.isEmpty = true
      · rw [if_pos hemp]
        exact positionalTuples_rejects ops rows _ false hlong
      · rw [if_neg hemp]
        by_cases hle : columns.length ≤ (initialPlan ops table columns rows).schema_col_count
        · rw [if_pos hle]
          cases hpc : ProcessColumnSpec columns (initialPlan ops table columns rows) with
          | error g => exact ⟨g, rfl⟩
          | ok p1 =>
            have ht := (ProcessColumnSpecFrom_ok columns 0 _ p1 hpc).2.1
            apply namedTuples_rejects
            obtain ⟨r, hr, hlt⟩ := hlong
            exact ⟨r, hr, by
              simpa [InsertPlan.schema_col_count, ht, initialPlan] using hlt⟩
        · rw [if_neg hle]
          exact ⟨_, rfl⟩
    obtain ⟨f, hf⟩ := hbm
    exact ⟨f, by unfold constructInsertPlan; rw [hf]⟩
  · intro pre long post q b hrows hlt hcol hpre
    subst hcol
    have ht := (positionalTuples_ok ops (fun _ => True) pre _ q false b
      (fun _ _ _ _ => trivial) hpre).1.table
    have hq : ¬ long.length ≤ q.schema_col_count := by
      have : q.schema_col_count = table.schema.length := by
        simp [InsertPlan.schema_col_count, ht, initialPlan]
      omega
    unfold constructInsertPlan buildMapping
    simp only [List.isEmpty_nil, if_true]
    have hsplit : positionalTuples ops rows (initialPlan ops table [] rows, false) =
        .error ⟨.contractViolation, q⟩ := by
      conv => lhs; arg 2; rw [hrows]
      rw [positionalTuples_append, hpre]
      simp only []
      rw [positionalTuples_cons, if_neg hq]
    rw [hsplit]
  · intro pre long post p1 q b hrows hlt hcol hle hpc hpre
    have ht1 := (ProcessColumnSpecFrom_ok columns 0 _ p1 hpc).2.1
    have ht := (namedTuples_ok ops (fun _ => True) columns.length pre p1 q false b
      (fun _ _ _ _ => trivial) hpre).1.table
    have hq : ¬ long.length ≤ q.schema_col_count := by
      have : q.schema_col_count = table.schema.length := by
        simp [InsertPlan.schema_col_count, ht, ht1, initialPlan]
      omega
    have hemp : columns.isEmpty = false := by
      cases columns with
      | nil => exact absurd rfl hcol
      | cons _ _ => rfl
    unfold constructInsertPlan buildMapping
    simp only [hemp, Bool.false_eq_true, if_false]
    rw [if_pos (by rw [hn0]; exact hle), hpc]
    simp only []
    have hsplit : namedTuples ops columns.length rows (p1, false) =
        .error ⟨.contractViolation, q⟩ := by
      conv => lhs; arg 3; rw [hrows]
      rw [namedTuples_append, hpre]
      simp only []
      rw [namedTuples_cons, if_neg hq]
    rw [hsplit]

/-- C10, amended, at `INSERT INTO t VALUES (5), (DEFAULT × 5)`. -/
theorem C10_long_row_rejected_in_turn_witness :
    (∃ f, constructInsertPlan exOps exTable [] exLongRows = .error f) ∧
    (∀ (pre : List (ValueTuple ExValue)) (long : ValueTuple ExValue)
      (post : List (ValueTuple ExValue)) (q : InsertPlan ExValue Unit) (b : Bool),
      exLongRows = pre ++ long :: post → exTable.schema.length < long.length →
      ([] : List String) = [] →
      positionalTuples exOps pre (initialPlan exOps exTable [] exLongRows, false) =
        .ok (q, b) →
      constructInsertPlan exOps exTable [] exLongRows = .error ⟨.contractViolation, q⟩) ∧
    (∀ (pre : List (ValueTuple ExValue)) (long : ValueTuple ExValue)
      (post : List (ValueTuple ExValue)) (p1 q : InsertPlan ExValue Unit) (b : Bool),
      exLongRows = pre ++ long :: post → exTable.schema.length < long.length →
      ([] : List String) ≠ [] →
      ([] : List String).length ≤ exTable.schema.length →
      ProcessColumnSpec [] (initialPlan exOps exTable [] exLongRows) = .ok p1 →
      namedTuples exOps ([] : List String).length pre (p1, false) = .ok (q, b) →
      constructInsertPlan exOps exTable [] exLongRows = .error ⟨.contractViolation, q⟩) :=
  C10_long_row_rejected_in_turn exOps exTable [] exLongRows (by decide)

/-- C11: `a == b` holds exactly when `b` is an insert plan too, the target
tables are equal, the equality of the base plan holds and, when neither plan
has a child, the bulk insert counts are equal. In particular two leaf plans on
equal tables with equal counts are equal when the base equality holds, two
leaf plans with different counts are unequal, and when one of the plans has a
child the counts do not affect the result. -/
theorem C11_equals_iff (I : PlanTree V T C) (a b : InsertPlanNode V T C) :
    (∀ rhs : AbstractPlan V T C, rhs.GetPlanNodeType ≠ PlanNodeType.INSERT →
      a.equals I rhs = false) ∧
    (∀ rhs : AbstractPlan V T C, a.equals I rhs = true ↔
      rhs.GetPlanNodeType = PlanNodeType.INSERT ∧
      ∃ c : InsertPlanNode V T C, rhs = .insert c ∧
        I.tableEq a.plan.target_table c.plan.target_table = true ∧
        I.baseEq a.children c.children = true ∧
        (a.children.length = 0 ∧ c.children.length = 0 →
          a.plan.bulk_insert_count = c.plan.bulk_insert_count)) ∧
    (a.children.length = 0 → b.children.length = 0 →
      I.tableEq a.plan.target_table b.plan.target_table = true →
      I.baseEq a.children b.children = true →
      a.plan.bulk_insert_count = b.plan.bulk_insert_count →
      a.equals I (.insert b) = true) ∧
    (a.children.length = 0 → b.children.length = 0 →
      a.plan.bulk_insert_count ≠ b.plan.bulk_insert_count →
      a.equals I (.insert b) = false) ∧
    (a.children.length ≠ 0 ∨ b.children.length ≠ 0 → ∀ n m : Nat,
      (a.withCount n).equals I (.insert (b.withCount m)) = a.equals I (.insert b)) := by
  have hiff := equals_insert I a b
  refine ⟨fun rhs h => equals_other I a rhs h, ?_, ?_, ?_, ?_⟩
  · intro rhs
    cases rhs with
    | other tag cs =>
      rw [equals_other I a _ (by simp [AbstractPlan.GetPlanNodeType])]
      simp [AbstractPlan.GetPlanNodeType]
    | insert c =>
      rw [equals_insert I a c]
      constructor
      · rintro ⟨ht, hl, hb⟩
        exact ⟨rfl, c, rfl, ht, hb, fun h => (hl h.1).2⟩
      · rintro ⟨_, c1, hc, ht, hb, hl⟩
        cases hc
        refine ⟨ht, fun ha => ?_, hb⟩
        have hlen := I.baseEq_children _ _ hb
        have hb0 : c.children.length = 0 := by rw [← hlen]; exact ha
        exact ⟨hb0, hl ⟨ha, hb0⟩⟩
  · intro ha hb ht hbase hc
    exact hiff.2 ⟨ht, fun _ => ⟨hb, hc⟩, hbase⟩
  · intro ha _ hc
    cases h : a.equals I (.insert b)
    · rfl
    · exact absurd ((hiff.1 h).2.1 ha).2 hc
  · intro h n m
    have h1 := equals_insert I (a.withCount n) (b.withCount m)
    simp only [InsertPlanNode.withCount] at h1
    have key : (a.withCount n).equals I (.insert (b.withCount m)) = true ↔
        a.equals I (.insert b) = true := by
      rw [hiff]
      simp only [InsertPlanNode.withCount]
      rw [h1]
      constructor
      · rintro ⟨ht, hl, hb⟩
        refine ⟨ht, fun ha => ?_, hb⟩
        have hb0 := (hl ha).1
        rcases h with h | h
        · exact absurd ha h
        · exact absurd hb0 h
      · rintro ⟨ht, hl, hb⟩
        refine ⟨ht, fun ha => ?_, hb⟩
        have hb0 := (hl ha).1
        rcases h with h | h
        · exact absurd ha h
        · exact absurd hb0 h
    cases hx : a.equals I (.insert b)
    · cases hy : (a.withCount n).equals I (.insert (b.withCount m))
      · rfl
      · rw [key.1 hy] at hx; cases hx
    · exact key.2 hx

/-- C12: hash consistency. When equal tables have equal hashes and plans with
equal base parts have equal base hashes, two insert plans that `operator==`
calls equal have the same `Hash`. -/
theorem C12_equal_plans_hash_equal (I : PlanTree V T C)
    (htable : ∀ t u : DataTable V T, I.tableEq t u = true → I.tableHash t = I.tableHash u)
    (hbase : ∀ cs ds : List C, I.baseEq cs ds = true → I.baseHash cs = I.baseHash ds)
    (a b : InsertPlanNode V T C) (h : a.equals I (.insert b) = true) :
    a.Hash I = b.Hash I := by
  obtain ⟨ht, hl, hb⟩ := (equals_insert I a b).1 h
  have hlen := I.baseEq_children _ _ hb
  unfold InsertPlanNode.Hash
  simp only
  rw [htable _ _ ht, hbase _ _ hb]
  by_cases ha : a.children.length = 0
  · obtain ⟨hb0, hc⟩ := hl ha
    rw [if_pos ha, if_pos hb0, hc]
  · have hb0 : ¬ b.children.length = 0 := by rw [← hlen]; exact ha
    rw [if_neg ha, if_neg hb0]

/-- Witness for C12: the template plan with an empty buffer and with a filled
buffer are equal and have the same hash. -/
theorem C12_equal_plans_hash_equal_witness :
    exLeaf.equals exTree (.insert (exLeaf.withValues [.int 1])) = true ∧
    exLeaf.Hash exTree = (exLeaf.withValues [.int 1]).Hash exTree :=
  ⟨by decide, C12_equal_plans_hash_equal exTree
    (fun _ _ h => congrArg (fun t => t.schema.length) (of_decide_eq_true h))
    (fun _ _ h => congrArg List.sum (of_decide_eq_true h))
    exLeaf (exLeaf.withValues [.int 1]) (by decide)⟩

/-- C13: `Hash` and `operator==` do not read the buffer of resolved values.
Two states of a plan that differ only in the buffer have the same hash and
compare alike with every other plan, on either side of `==`; so does a plan
before and after any number of completed `SetParameterValues` calls. -/
theorem C13_identity_ignores_buffer (I : PlanTree V T C) (a : InsertPlanNode V T C)
    (buffer : List V) :
    (a.withValues buffer).Hash I = a.Hash I ∧
    (∀ rhs : AbstractPlan V T C, (a.withValues buffer).equals I rhs = a.equals I rhs) ∧
    (∀ x : InsertPlanNode V T C,
      x.equals I (.insert (a.withValues buffer)) = x.equals I (.insert a)) ∧
    (∀ (ops : TypeOps V T) (calls : List (List V)) (p1 : InsertPlan V T),
      calls.foldlM (SetParameterValues ops) a.plan = .ok p1 →
      InsertPlanNode.Hash I { plan := p1, children := a.children } = a.Hash I ∧
      (∀ rhs : AbstractPlan V T C,
        InsertPlanNode.equals I { plan := p1, children := a.children } rhs =
          a.equals I rhs) ∧
      (∀ x : InsertPlanNode V T C,
        x.equals I (.insert { plan := p1, children := a.children }) =
          x.equals I (.insert a))) := by
  refine ⟨Hash_withValues I a buffer, equals_withValues_left I a buffer,
    fun x => equals_withValues_right I a x buffer, ?_⟩
  intro ops calls p1 h
  obtain ⟨buf, hp1⟩ := SetParameterValues_calls ops a.plan calls p1 h
  subst hp1
  exact ⟨Hash_withValues I a buf, equals_withValues_left I a buf,
    fun x => equals_withValues_right I a x buf⟩

/-- C14, evaluated on `INSERT INTO u VALUES (5), (6)` for the two-column table
`u (a NOT NULL, b)`: without a column list a short row-tuple leaves no value
for the columns after its end, so the buffer of the two rows holds two values,
not `2 × 2`, and `VisitParameters` registers for the value `6` at position 1
the nullability of column `b`, although `6` was resolved for column `a`. -/
theorem C14_positional_short_rows_export :
    ∃ p, constructInsertPlan exOps exTableNotNull [] exShortRows = .ok p ∧
      p.bulk_insert_count = 2 ∧ p.schema_col_count = 2 ∧
      p.values = [.int 5, .int 6] ∧
      VisitParameters (fun _ => ()) (fun (_ : Nat) s _ => s)
          { plan := p, children := [] } [] [] [] =
        .ok ([{ type_id := (), is_nullable := false }, { type_id := (), is_nullable := true }],
          [.int 5, .int 6]) ∧
      (exTableNotNull.schema.map fun col => col.allow_null) = [false, true] :=
  ⟨_, rfl, rfl, rfl, rfl, rfl, rfl⟩

/-- C15: when `SetParameterValues` completes for a plan and a vector, the call
appends a row that the plan gets again from the same vector on a cleared
buffer, and again after clearing once more; every plan with the same `stov_`
and the same table, whatever its buffer holds from earlier calls, gets this
same row appended. -/
theorem C15_SetParameterValues_repeatable (ops : TypeOps V T) (p : InsertPlan V T)
    (values : List V) (p1 : InsertPlan V T)
    (h : SetParameterValues ops p values = .ok p1) :
    ∃ row : List V, p1.values = p.values ++ row ∧
      SetParameterValues ops (ClearParameterValues p) values = .ok (p.withValues row) ∧
      SetParameterValues ops (ClearParameterValues (p.withValues row)) values =
        .ok (p.withValues row) ∧
      ∀ q : InsertPlan V T, q.stov = p.stov → q.target_table = p.target_table →
        SetParameterValues ops q values = .ok (q.withValues (q.values ++ row)) := by
  obtain ⟨row, hp1, hq⟩ := (SetParameterValues_frame ops p values).1 p1 h
  refine ⟨row, by rw [hp1]; rfl, ?_, ?_, hq⟩
  · have := hq (ClearParameterValues p) rfl rfl
    rw [this]
    simp [ClearParameterValues, InsertPlan.withValues]
  · have := hq (ClearParameterValues (p.withValues row)) rfl rfl
    rw [this]
    simp [ClearParameterValues, InsertPlan.withValues]

/-- Witness for C15: the template of `INSERT INTO t (d, b, a) VALUES (?, 5, ?)`
bound to the vector `(1, 2)`. -/
theorem C15_SetParameterValues_repeatable_witness :
    ∃ row : List ExValue,
      (exTemplate.withValues [.int 2, .int 5, .int 7, .int 1]).values =
        exTemplate.values ++ row ∧
      SetParameterValues exOps (ClearParameterValues exTemplate) [.int 1, .int 2] =
        .ok (exTemplate.withValues row) ∧
      SetParameterValues exOps (ClearParameterValues (exTemplate.withValues row))
        [.int 1, .int 2] = .ok (exTemplate.withValues row) ∧
      ∀ q : InsertPlan ExValue Unit, q.stov = exTemplate.stov →
        q.target_table = exTemplate.target_table →
        SetParameterValues exOps q [.int 1, .int 2] =
          .ok (q.withValues (q.values ++ row)) :=
  C15_SetParameterValues_repeatable exOps exTemplate [.int 1, .int 2]
    (exTemplate.withValues [.int 2, .int 5, .int 7, .int 1]) (by decide)

/-- C16: after a completed construction, with or without a column list and
for any row-tuples, there is one entry of `stov_` per schema column and every
entry is in exactly one of the three cases: not an insert column; a resolved
constant; an insert column that is not a resolved constant. For any plan this
says the same as: no entry is a resolved constant without being an insert
column. A call of `SetParameterValues`, completed or not, keeps it. -/
theorem C16_column_invariant (ops : TypeOps V T) (table : DataTable V T)
    (columns : List String) (rows : List (ValueTuple V)) (p : InsertPlan V T)
    (h : constructInsertPlan ops table columns rows = .ok p) :
    (∀ idx : Nat, idx < table.schema.length →
      ∃ e, p.stov[idx]? = some e ∧ ColumnInvariant e) ∧
    (∀ e ∈ p.stov, ColumnInvariant e) ∧
    (∀ e ∈ p.stov, e.set_value = true → e.in_insert_cols = true) ∧
    (∀ q : InsertPlan V T, (∀ e ∈ q.stov, ColumnInvariant e) ↔ ConstantsListed q.stov) ∧
    (∀ (q : InsertPlan V T) (values : List V), (∀ e ∈ q.stov, ColumnInvariant e) →
      (∀ q1, SetParameterValues ops q values = .ok q1 → ∀ e ∈ q1.stov, ColumnInvariant e) ∧
      (∀ f, SetParameterValues ops q values = .error f →
        ∀ e ∈ f.state.stov, ColumnInvariant e)) := by
  have hl := constructInsertPlan_listed ops table columns rows p h
  have hshape := constructInsertPlan_shape ops table columns rows p h
  have hall : ∀ e ∈ p.stov, ColumnInvariant e :=
    fun e he => (columnInvariant_iff e).2 (hl e he)
  refine ⟨fun idx hidx => ?_, hall, hl, fun q => ?_, fun q values hq => ⟨?_, ?_⟩⟩
  · have hlt : idx < p.stov.length := by rw [hshape.2]; exact hidx
    exact ⟨p.stov[idx], List.getElem?_eq_getElem hlt,
      hall _ (List.getElem_mem hlt)⟩
  · constructor
    · intro hq e he
      exact (columnInvariant_iff e).1 (hq e he)
    · intro hq e he
      exact (columnInvariant_iff e).2 (hq e he)
  · intro q1 h1 e he
    obtain ⟨row, hq1, _⟩ := (SetParameterValues_frame ops q values).1 q1 h1
    rw [hq1] at he
    exact hq e he
  · intro f h1 e he
    obtain ⟨row, hf⟩ := (SetParameterValues_frame ops q values).2 f h1
    rw [hf] at he
    exact hq e he

/-- Witness for C16: the row-tuple `(5, ?)` for the columns `(d, b)` of the
table `t`. -/
theorem C16_column_invariant_witness :
    ∃ p, constructInsertPlan exOps exTable ["d", "b"] [exRowConstParam] = .ok p ∧
      ∀ e ∈ p.stov, ColumnInvariant e :=
  ⟨_, rfl, (C16_column_invariant exOps exTable ["d", "b"] [exRowConstParam] _ rfl).2.1⟩

/-- C17: `SetParameterValues` changes the buffer only. Whether the call
completes or stops, the plan it leaves has the target table, the entries of
`stov_`, `vtos_` and the bulk insert count of the plan before the call. -/
theorem C17_SetParameterValues_changes_buffer_only (ops : TypeOps V T)
    (p : InsertPlan V T) (values : List V) :
    (∀ p1, SetParameterValues ops p values = .ok p1 →
      p1.target_table = p.target_table ∧ p1.stov = p.stov ∧ p1.vtos = p.vtos ∧
      p1.bulk_insert_count = p.bulk_insert_count) ∧
    (∀ f, SetParameterValues ops p values = .error f →
      f.state.target_table = p.target_table ∧ f.state.stov = p.stov ∧
      f.state.vtos = p.vtos ∧ f.state.bulk_insert_count = p.bulk_insert_count) := by
  constructor
  · intro p1 h
    obtain ⟨row, hp1, _⟩ := (SetParameterValues_frame ops p values).1 p1 h
    rw [hp1]
    exact ⟨rfl, rfl, rfl, rfl⟩
  · intro f h
    obtain ⟨row, hf⟩ := (SetParameterValues_frame ops p values).2 f h
    rw [hf]
    exact ⟨rfl, rfl, rfl, rfl⟩

/-- C18: for a column list of distinct names that all exist in the schema,
`ProcessColumnSpec` on the initial plan completes and leaves the two maps
inverse to each other. For every user position `u`, `vtos_[u]` is the index
of the first schema column with the name `columns[u]`, and the entry of
`stov_` at that index is marked as an insert column with `val_idx = u`; every
entry marked as an insert column is found back through `vtos_` at its
`val_idx`; every schema column whose name is not in the list keeps
`in_insert_cols = false` and `val_idx = 0`. -/
theorem C18_ProcessColumnSpec_maps_inverse (ops : TypeOps V T) (table : DataTable V T)
    (columns : List String) (rows : List (ValueTuple V))
    (hnd : columns.Nodup) (hex : ∀ c ∈ columns, ∃ col ∈ table.schema, col.name = c) :
    ∃ p1, ProcessColumnSpec columns (initialPlan ops table columns rows) = .ok p1 ∧
      (∀ (u : Nat) (name : String), columns[u]? = some name →
        ∃ (i : Nat) (col : Column V T) (e : SchemaColsToInsertCols V T),
          p1.vtos[u]? = some i ∧ table.schema[i]? = some col ∧ col.name = name ∧
          (∀ (j : Nat) (col1 : Column V T), j < i → table.schema[j]? = some col1 →
            col1.name ≠ name) ∧
          p1.stov[i]? = some e ∧ e.in_insert_cols = true ∧ e.val_idx = u) ∧
      (∀ (i : Nat) (e : SchemaColsToInsertCols V T), p1.stov[i]? = some e →
        e.in_insert_cols = true → p1.vtos[e.val_idx]? = some i) ∧
      (∀ (i : Nat) (col : Column V T), table.schema[i]? = some col →
        col.name ∉ columns →
        ∃ e, p1.stov[i]? = some e ∧ e.in_insert_cols = false ∧ e.val_idx = 0) := by
  obtain ⟨p1, h1, ht, _, _, htypes, _, hA, hB⟩ :=
    ProcessColumnSpec_initial ops table columns rows hnd hex
  refine ⟨p1, h1, ?_, ?_, ?_⟩
  · intro u name hu
    obtain ⟨i, col, hf, hc, he, hv⟩ := hA u name hu
    obtain ⟨col1, hc1, hn1⟩ := FindSchemaColIndex_some hf
    rw [hc] at hc1
    cases hc1
    exact ⟨i, col, _, hv, hc, hn1, FindSchemaColIndex_first hf, he, rfl, rfl⟩
  · intro i e he hin
    by_cases hlisted : ∃ c ∈ columns, FindSchemaColIndex c table.schema = some i
    · obtain ⟨c, hc, hf⟩ := hlisted
      obtain ⟨u, hu⟩ := List.getElem?_of_mem hc
      obtain ⟨i1, col, hf1, _, he1, hv⟩ := hA u c hu
      rw [hf] at hf1
      cases hf1
      rw [he] at he1
      cases he1
      exact hv
    · have hlen : i < table.schema.length := by
        have := (List.getElem?_eq_some.mp he).1
        rw [typesOK_length_eq htypes] at this
        simpa [InsertPlan.schema_col_count, ht] using this
      have hcol := List.getElem?_eq_getElem hlen
      have := hB i _ hcol (fun c hc hf => hlisted ⟨c, hc, hf⟩)
      rw [he] at this
      cases this
      cases hin
  · intro i col hc hnot
    have := hB i col hc (fun c hcm hf => by
      obtain ⟨col1, hc1, hn1⟩ := FindSchemaColIndex_some hf
      rw [hc] at hc1
      cases hc1
      exact hnot (hn1 ▸ hcm))
    exact ⟨_, this, rfl, rfl⟩

/-- Witness for C18: the column list `(d, b, a)` of the table `t`. -/
theorem C18_ProcessColumnSpec_maps_inverse_witness :
    ∃ p1, ProcessColumnSpec ["d", "b", "a"]
        (initialPlan exOps exTable ["d", "b", "a"] [exRowParamConstParam]) = .ok p1 ∧
      (∀ (u : Nat) (name : String), ["d", "b", "a"][u]? = some name →
        ∃ (i : Nat) (col : Column ExValue Unit) (e : SchemaColsToInsertCols ExValue Unit),
          p1.vtos[u]? = some i ∧ exTable.schema[i]? = some col ∧ col.name = name ∧
          (∀ (j : Nat) (col1 : Column ExValue Unit), j < i →
            exTable.schema[j]? = some col1 → col1.name ≠ name) ∧
          p1.stov[i]? = some e ∧ e.in_insert_cols = true ∧ e.val_idx = u) ∧
      (∀ (i : Nat) (e : SchemaColsToInsertCols ExValue Unit), p1.stov[i]? = some e →
        e.in_insert_cols = true → p1.vtos[e.val_idx]? = some i) ∧
      (∀ (i : Nat) (col : Column ExValue Unit), exTable.schema[i]? = some col →
        col.name ∉ ["d", "b", "a"] →
        ∃ e, p1.stov[i]? = some e ∧ e.in_insert_cols = false ∧ e.val_idx = 0) :=
  C18_ProcessColumnSpec_maps_inverse exOps exTable ["d", "b", "a"] [exRowParamConstParam]
    (by decide) (by decide)

/-- C19, evaluated on `INSERT INTO t (a, b, c) VALUES (5, ?, ?), (5, ?, ?)`:
the index adjustment pass runs again after the second row-tuple. By then `a`
and `b` are both marked as resolved constants, so at user column 2 the pass
subtracts `adjust = 2` from the value index 1 of column `c`, which wraps to
`2^32 - 1`. With a third row-tuple `(5, ?, ?)` the construction stops when it
reads that row at this index, which is not smaller than the row length 3. -/
theorem C19_second_pass_subtracts_past_zero :
    (∃ q, ProcessColumnSpec ["a", "b", "c"] (initialPlan exOps exTable ["a", "b", "c"]
          [exRowConstParamParam, exRowConstParamParam]) = .ok q ∧
        namedTuples exOps 3 [exRowConstParamParam] (q, false) =
          .ok (exFirstRowAdjusted, true)) ∧
    (List.range 4).foldlM (namedColumn exOps exRowConstParamParam)
      (exFirstRowAdjusted, true) = .ok (exSecondRowRead, true) ∧
    (List.range 2).foldlM adjustColumn (exSecondRowRead, 0) = .ok (exSecondRowRead, 2) ∧
    (exSecondRowRead.vtos[2]?).bind (fun i => exSecondRowRead.stov[i]?) =
      some { in_insert_cols := true, set_value := false, val_idx := 1, type := (),
             value := .invalid } ∧
    (∃ p, adjustColumn (exSecondRowRead, 2) 2 = .ok (p, 2) ∧
      (p.stov.map fun e => e.val_idx) = [0, 0, 4294967295, 0] ∧
      constructInsertPlan exOps exTable ["a", "b", "c"]
        [exRowConstParamParam, exRowConstParamParam] = .ok (ClearParameterValues p)) ∧
    (∃ f, constructInsertPlan exOps exTable ["a", "b", "c"]
        [exRowConstParamParam, exRowConstParamParam, exRowConstParamParam] = .error f ∧
      f.kind = .invalidAccess ∧
      (f.state.stov.map fun e => e.val_idx) = [0, 0, 4294967295, 0] ∧
      ¬ (4294967295 < exRowConstParamParam.length)) :=
  ⟨⟨_, rfl, rfl⟩, rfl, rfl, rfl, ⟨_, rfl, rfl, rfl⟩, ⟨_, rfl, rfl, rfl, by decide⟩⟩

/-- C20: `operator==` between insert plans is symmetric when the equality of
tables and the equality of the base plan are: `a == b` and `b == a` give the
same result. When exactly one of the two plans has a child both are false. -/
theorem C20_equals_symmetric (I : PlanTree V T C)
    (htable : ∀ t u : DataTable V T, I.tableEq t u = I.tableEq u t)
    (hbase : ∀ cs ds : List C, I.baseEq cs ds = I.baseEq ds cs)
    (a b : InsertPlanNode V T C) :
    a.equals I (.insert b) = b.equals I (.insert a) ∧
    (a.children.length = 0 → b.children.length ≠ 0 →
      a.equals I (.insert b) = false ∧ b.equals I (.insert a) = false) := by
  refine ⟨?_, fun ha hb => ?_⟩
  swap
  · have h1 := (baseEq_leaf_child I a.children b.children ha hb).1
    have h2 := (baseEq_leaf_child I a.children b.children ha hb).2
    constructor
    · cases h : a.equals I (.insert b)
      · rfl
      · rw [((equals_insert I a b).1 h).2.2] at h1; cases h1
    · cases h : b.equals I (.insert a)
      · rfl
      · rw [((equals_insert I b a).1 h).2.2] at h2; cases h2
  have key : ∀ x y : InsertPlanNode V T C,
      x.equals I (.insert y) = true → y.equals I (.insert x) = true := by
    intro x y h
    obtain ⟨ht, hl, hb⟩ := (equals_insert I x y).1 h
    have hlen := I.baseEq_children _ _ hb
    refine (equals_insert I y x).2 ⟨by rw [htable]; exact ht, fun hy => ?_, by rw [hbase]; exact hb⟩
    have hx : x.children.length = 0 := by rw [hlen]; exact hy
    exact ⟨hx, ((hl hx).2).symm⟩
  cases hx : a.equals I (.insert b)
  · cases hy : b.equals I (.insert a)
    · rfl
    · rw [key b a hy] at hx; cases hx
  · exact (key a b hx).symm

/-- Witness for C20: a leaf plan and a plan with a child on the same table,
compared both ways. -/
theorem C20_equals_symmetric_witness :
    (exLeaf.equals exTree (.insert exWithChild) =
      exWithChild.equals exTree (.insert exLeaf)) ∧
    (exLeaf.children.length = 0 → exWithChild.children.length ≠ 0 →
      exLeaf.equals exTree (.insert exWithChild) = false ∧
      exWithChild.equals exTree (.insert exLeaf) = false) :=
  C20_equals_symmetric exTree
    (fun t u => by simp [exTree, eq_comm])
    (fun cs ds => by simp [exTree, eq_comm])
    exLeaf exWithChild

end Claims

end Peloton
